import Mathlib

/-!
Verification of the commit-graph construction and transformation engine of
git2dot (src/git2dot/git2dot.py) against its natural-language specification.

The Python program is shallowly embedded as follows.

Heap model: every commit node is a Python object held both in the global
list Node.m_list and in the map Node.m_map keyed by its commit id.  Commit
ids are the object identities: the map binding for a cid and the list entry
with that cid are the same object, so the store is modelled as a single
list of records and Node.m_map[cid] becomes an association lookup by cid
(see mapLookup).  Fields that hold node references in Python (m_children
entries, m_chain_head, m_chain_tail) hold cids here and are dereferenced
through the store.  Theorems that depend on the map being a bijection onto
the list carry a Nodup hypothesis on the cid column, which is the state of
affairs the program maintains (git commit ids are unique).

Loops whose termination depends on the input graph (the chain walks of
find_chain_head / find_chain_tail, the loops of Node.squash, the worklist
of prune_by_choice) take an explicit fuel argument and return Option;
none models both divergence and a Python runtime error (KeyError,
IndexError), i.e. executions that produce no result.

Python string primitives (str.split, str.strip, str.replace, substring
membership) are re-implemented over lists of characters so that every
definition is executable by the kernel.

Timestamps are modelled at second granularity as six integer fields
(year, month, day, hour, minute, second) compared lexicographically, which
is how datetime objects of equal timezone compare.
-/

/-- Timestamp with the six fields read by the alignment engine
(getattr(dts, attr) for attr in year..second). -/
structure DTS where
  year : Nat
  month : Nat
  day : Nat
  hour : Nat
  minute : Nat
  second : Nat
deriving DecidableEq, Repr

/-- Lexicographic strict order on timestamps; models comparison of
datetime values (same timezone, sub-second part zero). -/
def dtsLt (a b : DTS) : Bool :=
  if a.year ≠ b.year then a.year < b.year
  else if a.month ≠ b.month then a.month < b.month
  else if a.day ≠ b.day then a.day < b.day
  else if a.hour ≠ b.hour then a.hour < b.hour
  else if a.minute ≠ b.minute then a.minute < b.minute
  else a.second < b.second

/-- Commit node: the fields of class Node that the verified components
read or write.  m_label and m_vars are omitted (m_label is never written
after construction and the claims fix a configuration with no -D
variables). -/
structure Node where
  cid : String
  parents : List String
  branches : List String
  tags : List String
  children : List String
  choose : Bool
  chainHead : Option String
  chainTail : Option String
  chainSize : Int
  idx : Nat
  dts : DTS
  extra : List String
deriving DecidableEq, Repr

/-- The commit graph store: Node.m_list.  Node.m_map is recovered by
mapLookup (see the header comment on the heap model). -/
abbrev Store := List Node

/-- Node.m_map[cid]: the node object bound to a commit id.  Under the
Nodup-cids invariant the first match is the unique match. -/
def mapLookup (s : Store) (cid : String) : Option Node :=
  s.find? (fun n => n.cid = cid)

/-- Membership test cid in Node.m_map. -/
def mapMem (s : Store) (cid : String) : Bool :=
  (mapLookup s cid).isSome

/- ---------------------------------------------------------------------
Python string primitives over lists of characters.
--------------------------------------------------------------------- -/

/-- Whitespace characters stripped by str.strip (ASCII subset). -/
def pySpace (c : Char) : Bool :=
  c = ' ' || c = '\t' || c = '\n' || c = '\r' || c = '\x0b' || c = '\x0c'

/-- Strip leading and trailing whitespace from a character list. -/
def trimChars (l : List Char) : List Char :=
  ((l.dropWhile pySpace).reverse.dropWhile pySpace).reverse

/-- Python str.strip(). -/
def pyStrip (s : String) : String :=
  ⟨trimChars s.data⟩

/-- Split a character list on every occurrence of a separator, with fuel
for structural recursion (the wrapper passes enough fuel for the fuel
branch to be unreachable).  Models str.split(sep) for a nonempty
separator. -/
def splitOnCharsF (sep : List Char) : Nat → List Char → List (List Char)
  | _, [] => [[]]
  | 0, l => [l]
  | fuel + 1, c :: rest =>
    if sep.isPrefixOf (c :: rest) then
      [] :: splitOnCharsF sep fuel (List.drop (sep.length - 1) rest)
    else
      match splitOnCharsF sep fuel rest with
      | [] => [[c]]
      | piece :: pieces => (c :: piece) :: pieces

/-- Split a character list on every occurrence of a separator. -/
def splitOnChars (sep l : List Char) : List (List Char) :=
  splitOnCharsF sep l.length l

/-- Python s.split(sep) for a nonempty separator string. -/
def pySplit (sep s : String) : List String :=
  (splitOnChars sep.data s.data).map (fun l => ⟨l⟩)

/-- Python substring membership sub in s. -/
def pyContains (sub s : String) : Bool :=
  if sub = "" then true else (pySplit sub s).length ≥ 2

/-- Python s.split() with no argument: split on whitespace runs,
dropping empty pieces. -/
def pySplitWs (s : String) : List String :=
  ((s.data.splitOnP pySpace).filter (fun l => l ≠ [])).map (fun l => ⟨l⟩)

/-- Replace every occurrence of a nonempty pattern in a character list,
with fuel for structural recursion. -/
def replaceCharsF (pat rep : List Char) : Nat → List Char → List Char
  | _, [] => []
  | 0, l => l
  | fuel + 1, c :: rest =>
    if pat.isPrefixOf (c :: rest) then
      rep ++ replaceCharsF pat rep fuel (List.drop (pat.length - 1) rest)
    else
      c :: replaceCharsF pat rep fuel rest

/-- Replace every occurrence of a nonempty pattern in a character list. -/
def replaceChars (pat rep l : List Char) : List Char :=
  replaceCharsF pat rep l.length l

/-- Python s.replace(old, new) for a nonempty pattern. -/
def pyReplace (old new s : String) : String :=
  ⟨replaceChars old.data new.data s.data⟩

/-- Python s[:n]. -/
def pyTake (n : Nat) (s : String) : String :=
  ⟨s.data.take n⟩

/- ---------------------------------------------------------------------
Node predicates (git2dot.py lines 54-86).
--------------------------------------------------------------------- -/

/-- Node.is_squashable (lines 54-62): false when the node has refs, more
than one parent, or more than one child. -/
def is_squashable (nd : Node) : Bool :=
  if nd.branches.length > 0 || nd.tags.length > 0
      || nd.parents.length > 1 || nd.children.length > 1 then
    false
  else
    true

/-- Node.is_squashed (lines 64-73): stamped, interior to its chain. -/
def is_squashed (nd : Node) : Bool :=
  match nd.chainHead, nd.chainTail with
  | some h, some t => nd.chainSize > 0 && nd.cid ≠ h && nd.cid ≠ t
  | _, _ => false

/-- Node.is_squashed_head (lines 75-78). -/
def is_squashed_head (nd : Node) : Bool :=
  match nd.chainHead with
  | some h => h = nd.cid
  | none => false

/-- Node.is_squashed_tail (lines 80-83). -/
def is_squashed_tail (nd : Node) : Bool :=
  match nd.chainTail with
  | some t => t = nd.cid
  | none => false

/- ---------------------------------------------------------------------
Ref-decoration parsing (the branches/tags block of parse,
git2dot.py lines 443-455).
--------------------------------------------------------------------- -/

/-- Step of the ref-decoration loop: classify one comma-separated entry.
An entry containing the tag marker is appended verbatim to the tag list;
otherwise the entry (or, when it contains the arrow token, the piece to
the right of the first arrow) is appended to the branch list. -/
def refsStep (acc : List String × List String) (fld0 : String) :
    List String × List String :=
  let fld := pyStrip fld0
  if pyContains "tag: " fld then
    (acc.1 ++ [fld], acc.2)
  else
    let ref := if pyContains " -> " fld then (pySplit " -> " fld).getD 1 "" else fld
    (acc.1, acc.2 ++ [ref])

/-- Ref-decoration parsing, returning (tags, branches): strip the text,
if nonempty drop one layer of surrounding parentheses, split on commas
and classify each trimmed entry (lines 437, 443-455). -/
def parse_refs (refs0 : String) : List String × List String :=
  let refs := pyStrip refs0
  if refs = "" then
    ([], [])
  else
    let refs :=
      if refs.data.head? = some '(' ∧ refs.data.getLast? = some ')' then
        (⟨(refs.data.drop 1).dropLast⟩ : String)
      else refs
    (pySplit "," refs).foldl refsStep ([], [])

/- ---------------------------------------------------------------------
Date pruning (prune_by_date, git2dot.py lines 272-291).
--------------------------------------------------------------------- -/

/-- Body of the prune_by_date loop: for every node, keep only the parent
ids present as keys of the id map; the node list itself is untouched.
The map keys are not modified by the pass, so the membership test reads
the initial store. -/
def pruneByDatePass (s : Store) : Store :=
  s.map (fun nd =>
    let np := nd.parents.filter (fun cid => mapMem s cid)
    if np.length < nd.parents.length then { nd with parents := np } else nd)

/-- The function prune_by_date: the pass runs only when --since, --until
or --range was specified. -/
def prune_by_date (since until_ range_ : String) (s : Store) : Store :=
  if since ≠ "" ∨ until_ ≠ "" ∨ range_ ≠ "" then pruneByDatePass s else s

/- ---------------------------------------------------------------------
Helper lemmas about the store.
--------------------------------------------------------------------- -/

theorem mapMem_iff_mem_cids (s : Store) (c : String) :
    mapMem s c = true ↔ c ∈ s.map Node.cid := by
  unfold mapMem mapLookup
  rw [Option.isSome_iff_exists]
  constructor
  · rintro ⟨nd, hnd⟩
    have hmem := List.mem_of_find?_eq_some hnd
    have hprop := List.find?_some hnd
    simp only [decide_eq_true_eq] at hprop
    exact hprop ▸ List.mem_map_of_mem Node.cid hmem
  · intro hc
    rcases List.mem_map.mp hc with ⟨nd, hnd, hcid⟩
    have hsome : (s.find? (fun n => n.cid = c)).isSome = true :=
      List.find?_isSome.mpr ⟨nd, hnd, by simp [hcid]⟩
    exact Option.isSome_iff_exists.mp hsome

theorem pruneByDatePass_parents (s : Store) (nd : Node) (hnd : nd ∈ s) :
    { nd with parents := nd.parents.filter (fun cid => mapMem s cid) } ∈ pruneByDatePass s := by
  unfold pruneByDatePass
  have : (fun nd : Node =>
      let np := nd.parents.filter (fun cid => mapMem s cid)
      if np.length < nd.parents.length then { nd with parents := np } else nd) nd =
      { nd with parents := nd.parents.filter (fun cid => mapMem s cid) } := by
    by_cases h : (nd.parents.filter (fun cid => mapMem s cid)).length < nd.parents.length
    · simp [h]
    · simp only [h, if_false]
      have hall : nd.parents.filter (fun cid => mapMem s cid) = nd.parents := by
        have hle := List.length_filter_le (fun cid => mapMem s cid) nd.parents
        exact List.Sublist.eq_of_length (List.filter_sublist _) (by omega)
      cases nd
      simp [hall]
  exact this ▸ List.mem_map_of_mem _ hnd

/- ---------------------------------------------------------------------
Claim C7.
--------------------------------------------------------------------- -/

/-- Concrete squashable node with zero children (a ref-less tip). -/
def tipNode : Node :=
  { cid := "aaaa", parents := ["bbbb"], branches := [], tags := [],
    children := [], choose := true, chainHead := none, chainTail := none,
    chainSize := -1, idx := 0, dts := ⟨2020, 1, 1, 0, 0, 0⟩, extra := [] }

/-- Claim C7, counterexample: is_squashable accepts a node with zero
children, while the claim requires exactly one child.  tipNode has one
parent, no refs and no children; the code reports it squashable. -/
theorem C7_counterexample :
    is_squashable tipNode = true ∧ ¬ tipNode.children.length = 1 := by
  constructor
  · rfl
  · simp [tipNode]

/-- Claim C7 (amended): is_squashable nd returns true iff nd has at most
one parent, at most one child, and empty branch-ref and tag-ref sets. -/
theorem C7_squashable_iff (nd : Node) :
    is_squashable nd = true ↔
      nd.parents.length ≤ 1 ∧ nd.children.length ≤ 1 ∧
      nd.branches = [] ∧ nd.tags = [] := by
  unfold is_squashable
  constructor
  · intro h
    by_cases hb : nd.branches.length > 0 || nd.tags.length > 0
        || nd.parents.length > 1 || nd.children.length > 1
    · simp [hb] at h
    · simp only [Bool.or_eq_true, not_or, gt_iff_lt, decide_eq_true_eq, Bool.not_eq_true] at hb
      obtain ⟨⟨⟨h1, h2⟩, h3⟩, h4⟩ := hb
      simp only [decide_eq_false_iff_not, not_lt] at h1 h2 h3 h4
      exact ⟨h3, h4, List.length_eq_zero.mp (by omega), List.length_eq_zero.mp (by omega)⟩
  · rintro ⟨h1, h2, h3, h4⟩
    have : (nd.branches.length > 0 || nd.tags.length > 0
        || nd.parents.length > 1 || nd.children.length > 1) = false := by
      simp [h3, h4]
      omega
    simp [this]

/- ---------------------------------------------------------------------
Claim C8.
--------------------------------------------------------------------- -/

/-- Claim C8, counterexample: on the decoration of Scenario 4 the parser
keeps the tag marker in the tag entry (the claim asserts the marker is
stripped, which would give v1.0). -/
theorem C8_counterexample :
    parse_refs "(tag: v1.0, origin/main)" = (["tag: v1.0"], ["origin/main"]) ∧
    "tag: v1.0" ≠ "v1.0" := by
  constructor
  · rfl
  · decide

/-- Classification of one trimmed entry following the amended claim text:
a tag entry is kept verbatim, marker included. -/
def refsEntrySpec (fld : String) : List String × List String :=
  if pyContains "tag: " fld then ([fld], [])
  else if pyContains " -> " fld then ([], [(pySplit " -> " fld).getD 1 ""])
  else ([], [fld])

/-- Modelled from the spec wording of the amended claim: strip the
decoration, strip one layer of surrounding parentheses if present, split
on commas, trim each entry, and concatenate the per-entry tag and branch
classifications in order, tag entries kept verbatim. -/
def refsSpec (refs0 : String) : List String × List String :=
  let refs := pyStrip refs0
  if refs = "" then
    ([], [])
  else
    let refs :=
      if refs.data.head? = some '(' ∧ refs.data.getLast? = some ')' then
        (⟨(refs.data.drop 1).dropLast⟩ : String)
      else refs
    let entries := (pySplit "," refs).map pyStrip
    ((entries.map refsEntrySpec).map Prod.fst |>.flatten,
     (entries.map refsEntrySpec).map Prod.snd |>.flatten)

theorem refsStep_foldl (l : List String) (acc : List String × List String) :
    l.foldl refsStep acc =
      (acc.1 ++ (((l.map pyStrip).map refsEntrySpec).map Prod.fst).flatten,
       acc.2 ++ (((l.map pyStrip).map refsEntrySpec).map Prod.snd).flatten) := by
  induction l generalizing acc with
  | nil => simp
  | cons x xs ih =>
    simp only [List.foldl_cons, List.map_cons, List.flatten_cons, ih]
    unfold refsStep refsEntrySpec
    by_cases h1 : pyContains "tag: " (pyStrip x)
    · simp [h1]
    · by_cases h2 : pyContains " -> " (pyStrip x) <;> simp [h1, h2]

/-- Claim C8 (amended): for every decoration text, the parser strips
surrounding parentheses if present, splits on commas, trims each entry;
an entry containing the tag marker becomes a tag kept verbatim (marker
included); an entry containing the arrow token contributes its right-hand
side as a branch name; every other entry becomes a branch name.  Stated
as equality with the specification-worded function refsSpec; the
Scenario 4 instance is C8_counterexample. -/
theorem C8_refs_parsing (refs0 : String) :
    parse_refs refs0 = refsSpec refs0 := by
  unfold parse_refs refsSpec
  by_cases h : pyStrip refs0 = ""
  · simp [h]
  · simp only [h, if_false]
    rw [refsStep_foldl]
    simp

/- ---------------------------------------------------------------------
Claim C4.
--------------------------------------------------------------------- -/

/-- Claim C4: when a date-range restriction is configured, the date-prune
pass leaves the node sequence intact (same cids, in order, hence same
length and membership), rewrites every parent list to exactly its sublist
of ids present in the store, and in the result every parent id of every
node is a key of the id map. -/
theorem C4_date_prune_invariant (since until_ range_ : String) (s : Store)
    (hrun : since ≠ "" ∨ until_ ≠ "" ∨ range_ ≠ "") :
    (prune_by_date since until_ range_ s).map Node.cid = s.map Node.cid ∧
    (∀ i : Nat, ((prune_by_date since until_ range_ s).get? i).map Node.parents =
      (s.get? i).map (fun nd => nd.parents.filter (fun cid => mapMem s cid))) ∧
    (∀ nd ∈ prune_by_date since until_ range_ s, ∀ p ∈ nd.parents,
      mapMem (prune_by_date since until_ range_ s) p = true) := by
  have hgate : prune_by_date since until_ range_ s = pruneByDatePass s := by
    unfold prune_by_date
    simp [hrun]
  have hnode : ∀ nd : Node,
      (fun nd : Node =>
        let np := nd.parents.filter (fun cid => mapMem s cid)
        if np.length < nd.parents.length then { nd with parents := np } else nd) nd =
      { nd with parents := nd.parents.filter (fun cid => mapMem s cid) } := by
    intro nd
    by_cases h : (nd.parents.filter (fun cid => mapMem s cid)).length < nd.parents.length
    · simp [h]
    · simp only [h, if_false]
      have hall : nd.parents.filter (fun cid => mapMem s cid) = nd.parents := by
        have hle := List.length_filter_le (fun cid => mapMem s cid) nd.parents
        exact List.Sublist.eq_of_length (List.filter_sublist _) (by omega)
      cases nd
      simp [hall]
  have hpass : pruneByDatePass s =
      s.map (fun nd => { nd with parents := nd.parents.filter (fun cid => mapMem s cid) }) := by
    unfold pruneByDatePass
    exact List.map_congr_left (fun nd _ => hnode nd)
  have hcids : (prune_by_date since until_ range_ s).map Node.cid = s.map Node.cid := by
    rw [hgate, hpass, List.map_map]
    rfl
  refine ⟨hcids, ?_, ?_⟩
  · intro i
    rw [hgate, hpass, List.get?_map]
    cases s.get? i <;> rfl
  · intro nd hnd p hp
    rw [hgate, hpass] at hnd
    rcases List.mem_map.mp hnd with ⟨nd0, _, hmap⟩
    have hparents : nd.parents = nd0.parents.filter (fun cid => mapMem s cid) := by
      rw [← hmap]
    rw [hparents] at hp
    have hpmem : mapMem s p = true := (List.mem_filter.mp hp).2
    have : p ∈ s.map Node.cid := (mapMem_iff_mem_cids s p).mp hpmem
    exact (mapMem_iff_mem_cids _ p).mpr (hcids ▸ this)

/-- Node X of Scenario 5: lists the absent parent deadbeef and one
present parent. -/
def nodeX : Node :=
  { cid := "xxxx", parents := ["deadbeef", "aaaa"], branches := [], tags := [],
    children := [], choose := true, chainHead := none, chainTail := none,
    chainSize := -1, idx := 1, dts := ⟨2020, 1, 2, 0, 0, 0⟩, extra := [] }

/-- Witness for C4 at the store of Scenario 5: node X loses the dangling
parent deadbeef, no node is deleted. -/
theorem C4_witness :
    (("2017-01-01" : String) ≠ "" ∨ ("" : String) ≠ "" ∨ ("" : String) ≠ "") ∧
    ((prune_by_date "2017-01-01" "" "" [tipNode, nodeX]).map Node.cid =
        [tipNode, nodeX].map Node.cid ∧
     (∀ i : Nat, ((prune_by_date "2017-01-01" "" "" [tipNode, nodeX]).get? i).map Node.parents =
        ([tipNode, nodeX].get? i).map (fun nd => nd.parents.filter (fun cid => mapMem [tipNode, nodeX] cid))) ∧
     (∀ nd ∈ prune_by_date "2017-01-01" "" "" [tipNode, nodeX], ∀ p ∈ nd.parents,
        mapMem (prune_by_date "2017-01-01" "" "" [tipNode, nodeX]) p = true)) :=
  ⟨Or.inl (by decide),
   C4_date_prune_invariant "2017-01-01" "" "" [tipNode, nodeX] (Or.inl (by decide))⟩

/- ---------------------------------------------------------------------
Choice pruning (prune_by_choice, git2dot.py lines 294-416).

The pipeline calls prune_by_choice from parse before the children lists
are derived, so every child list is empty at this point; the theorems
below carry that as a hypothesis, under which the adjacency fix-ups of
the deletion step (rm_child on chosen parents, rm_parent on chosen
children) act on empty lists.  Marking (m_choose = True together with
parents[idx] = cid) is modelled by threading the ordered list of marked
indices through the traversal and applying it to the choose flags
afterwards; the traversal itself never reads a choose flag.
--------------------------------------------------------------------- -/

/-- Seed collection for one chosen name (step 1): the indices, in list
order, of the nodes whose branch (or tag) list contains the name. -/
def seedsForName (s : Store) (isTag : Bool) (name : String) : List Nat :=
  (List.range s.length).filter (fun i =>
    match s.get? i with
    | some nd => (if isTag then nd.tags else nd.branches).contains name
    | none => false)

/-- Resolution of a parent cid list to node indices
(pidx = Node.m_map[pcid].m_idx); none models the KeyError raised when a
parent cid is absent from the map. -/
def parentIdxs (s : Store) : List String → Option (List Nat)
  | [] => some []
  | pcid :: rest =>
    match mapLookup s pcid with
    | none => none
    | some pnd =>
      match parentIdxs s rest with
      | none => none
      | some js => some (pnd.idx :: js)

/-- The worklist of get_parents (lines 349-366): explicit stack (head =
top, matching list.pop from the end with appends modelled at the head),
skipping already-marked indices, marking then pushing the parent indices
of a newly visited node.  The fuel argument bounds the number of loop
iterations; none also covers the out-of-range list access and the
KeyError on an unresolvable parent cid. -/
def get_parents (s : Store) : Nat → List Nat → List Nat → Option (List Nat)
  | _, [], marked => some marked
  | 0, _ :: _, _ => none
  | fuel + 1, idx :: stack, marked =>
    if marked.contains idx then
      get_parents s fuel stack marked
    else
      match s.get? idx with
      | none => none
      | some nd =>
        match parentIdxs s nd.parents with
        | none => none
        | some pidxs => get_parents s fuel (pidxs.reverse ++ stack) (marked ++ [idx])

/-- Traversal from every seed index of one chosen name (the inner loop
of lines 369-376): get_parents(idx, parents) with a fresh one-element
stack, threading the accumulated marking. -/
def runSeedList (s : Store) (fuel : Nat) : List Nat → List Nat → Option (List Nat)
  | [], marked => some marked
  | idx :: rest, marked =>
    match get_parents s fuel [idx] marked with
    | none => none
    | some marked2 => runSeedList s fuel rest marked2

/-- Traversal over the per-name seed lists in processing order; a name
with no seeds contributes nothing (the len(a) greater-than-zero guard). -/
def runJobs (s : Store) (fuel : Nat) : List (List Nat) → List Nat → Option (List Nat)
  | [], marked => some marked
  | idxs :: rest, marked =>
    if idxs.length > 0 then
      match runSeedList s fuel idxs marked with
      | none => none
      | some marked2 => runJobs s fuel rest marked2
    else runJobs s fuel rest marked

/-- Stable insertion into a sorted list. -/
def insertLe {α : Type} (le : α → α → Bool) (x : α) : List α → List α
  | [] => [x]
  | y :: ys => if le x y then x :: y :: ys else y :: insertLe le x ys

/-- Stable insertion sort; models the sorted() iteration order over the
per-name dictionaries. -/
def sortLe {α : Type} (le : α → α → Bool) : List α → List α
  | [] => []
  | x :: xs => insertLe le x (sortLe le xs)

/-- String comparison used by sorted(). -/
def strLe (a b : String) : Bool := decide (a ≤ b)

/-- Application of the accumulated marking to the choose flags: step 2
sets every flag to False and the traversals set the flags of the marked
indices to True. -/
def applyChooseAux (marked : List Nat) : Nat → List Node → List Node
  | _, [] => []
  | k, nd :: rest => { nd with choose := marked.contains k } :: applyChooseAux marked (k + 1) rest

/-- Choose flags of the whole store. -/
def applyChoose (marked : List Nat) (s : Store) : Store :=
  applyChooseAux marked 0 s

/-- Node.rm_child (lines 166-169): remove every child entry with the
given cid. -/
def rm_child_upd (ccid : String) (pnd : Node) : Node :=
  { pnd with children := pnd.children.filter (fun c => c ≠ ccid) }

/-- Deletion from the node list by position: Python list slicing
m_list[:idx] + m_list[idx+1:], which silently keeps the list intact when
idx is out of range. -/
def deleteAt (s : Store) (idx : Nat) : Store :=
  s.take idx ++ s.drop (idx + 1)

/-- Fix-up of the child lists of a deleted node's still-present chosen
parents: pnd.rm_child(cid) for each parent cid that still resolves. -/
def rmChildFixup (dcid : String) (parents : List String) (cur : Store) : Store :=
  parents.foldl (fun acc pcid =>
    match mapLookup acc pcid with
    | some pnd =>
      if pnd.choose then
        acc.map (fun m => if m.cid = pcid then rm_child_upd dcid m else m)
      else acc
    | none => acc) cur

/-- Fix-up of the parent lists of a deleted node's chosen children:
cnd.rm_parent(cid) for each child. -/
def rmParentFixup (dcid : String) (children : List String) (cur : Store) : Store :=
  children.foldl (fun acc ccid =>
    match mapLookup acc ccid with
    | some cnd =>
      if cnd.choose then
        acc.map (fun m =>
          if m.cid = ccid then { m with parents := m.parents.filter (fun p => p ≠ dcid) } else m)
      else acc
    | none => acc) cur

/-- One iteration of the deletion loop (lines 387-410) for a node of the
reversed snapshot: when the node is not chosen, drop its cid from the
child lists of its still-present chosen parents, drop its cid from the
parent lists of its still-present chosen children, then remove it from
the list and the map at its stored index.  At the pipeline point where
prune_by_choice runs all child lists are empty, so the two fix-ups do
not modify the store. -/
def deletionStep (cur : Store) (nd : Node) : Store :=
  if nd.choose = false then
    deleteAt (rmParentFixup nd.cid nd.children (rmChildFixup nd.cid nd.parents cur)) nd.idx
  else cur

/-- The deletion loop over the reversed snapshot of the node list. -/
def deletionPass (snapshot : List Node) (s : Store) : Store :=
  snapshot.foldl deletionStep s

/-- Reindexing of the survivors (lines 412-414). -/
def reindexAux : Nat → List Node → List Node
  | _, [] => []
  | k, nd :: rest => { nd with idx := k } :: reindexAux (k + 1) rest

/-- Reassign every surviving node index to its new position. -/
def reindex (s : Store) : Store :=
  reindexAux 0 s

/-- The function prune_by_choice: collect seeds per chosen name, traverse
parent edges from every seed with the explicit-stack worklist, then
either return early when nothing would be pruned or delete every unmarked
node and reindex. -/
def prune_by_choice (chooseBranch chooseTag : List String) (fuel : Nat) (s : Store) :
    Option Store :=
  if chooseBranch.length > 0 ∨ chooseTag.length > 0 then
    match runJobs s fuel
        ((sortLe strLe chooseBranch.dedup).map (fun b => seedsForName s false b) ++
         (sortLe strLe chooseTag.dedup).map (fun t => seedsForName s true t)) [] with
    | none => none
    | some marked =>
      if s.length - marked.length = 0 then some (applyChoose marked s)
      else some (reindex (deletionPass (applyChoose marked s).reverse (applyChoose marked s)))
  else some s

/- ---------------------------------------------------------------------
Reachability over parent edges and the worklist invariants.
--------------------------------------------------------------------- -/

/-- One parent edge between node positions: from the node at position i
to the stored index of the map binding of one of its parent cids. -/
def pstep (s : Store) (i j : Nat) : Prop :=
  ∃ nd pcid pnd, s.get? i = some nd ∧ pcid ∈ nd.parents ∧
    mapLookup s pcid = some pnd ∧ pnd.idx = j

/-- Reachability closure over parent edges. -/
def ReachSt (s : Store) (i j : Nat) : Prop :=
  Relation.ReflTransGen (pstep s) i j

/-- Worklist invariant: every parent edge out of a marked node lands in
the marked set or on the stack. -/
def WInv (s : Store) (stack marked : List Nat) : Prop :=
  ∀ i ∈ marked, ∀ nd, s.get? i = some nd → ∀ pcid ∈ nd.parents,
    ∃ pnd, mapLookup s pcid = some pnd ∧ (pnd.idx ∈ marked ∨ pnd.idx ∈ stack)

/-- Seed of the choice filter: a node position whose branch or tag list
contains one of the chosen names. -/
def isSeedIdx (chooseBranch chooseTag : List String) (s : Store) (i : Nat) : Prop :=
  ∃ nd, s.get? i = some nd ∧
    ((∃ b ∈ chooseBranch, nd.branches.contains b = true) ∨
     (∃ t ∈ chooseTag, nd.tags.contains t = true))

/-- Membership of the reachability closure of the seed set. -/
def ReachesFromSeed (chooseBranch chooseTag : List String) (s : Store) (i : Nat) : Prop :=
  ∃ j, isSeedIdx chooseBranch chooseTag s j ∧ ReachSt s j i

/- ---------------------------------------------------------------------
Deletion-pass lemmas.
--------------------------------------------------------------------- -/

theorem rmChildFixup_all_unchosen (dcid : String) (ps : List String) (cur : Store)
    (hfalse : ∀ m ∈ cur, m.choose = false) :
    rmChildFixup dcid ps cur = cur := by
  induction ps with
  | nil => rfl
  | cons p rest ih =>
    unfold rmChildFixup
    simp only [List.foldl_cons]
    have hstep : (match mapLookup cur p with
      | some pnd =>
        if pnd.choose then
          cur.map (fun m => if m.cid = p then rm_child_upd dcid m else m)
        else cur
      | none => cur) = cur := by
      cases hl : mapLookup cur p with
      | none => rfl
      | some pnd =>
        have : pnd ∈ cur := List.mem_of_find?_eq_some hl
        simp [hfalse pnd this]
    rw [hstep]
    exact ih

theorem rmParentFixup_all_unchosen (dcid : String) (cs : List String) (cur : Store)
    (hfalse : ∀ m ∈ cur, m.choose = false) :
    rmParentFixup dcid cs cur = cur := by
  induction cs with
  | nil => rfl
  | cons c rest ih =>
    unfold rmParentFixup
    simp only [List.foldl_cons]
    have hstep : (match mapLookup cur c with
      | some cnd =>
        if cnd.choose then
          cur.map (fun m =>
            if m.cid = c then { m with parents := m.parents.filter (fun p => p ≠ dcid) } else m)
        else cur
      | none => cur) = cur := by
      cases hl : mapLookup cur c with
      | none => rfl
      | some cnd =>
        have : cnd ∈ cur := List.mem_of_find?_eq_some hl
        simp [hfalse cnd this]
    rw [hstep]
    exact ih

theorem deletionStep_not_chosen_all_unchosen (cur : Store) (nd : Node)
    (hfalse : ∀ m ∈ cur, m.choose = false) (hnd : nd.choose = false) :
    deletionStep cur nd = deleteAt cur nd.idx := by
  unfold deletionStep
  rw [if_pos hnd, rmChildFixup_all_unchosen nd.cid nd.parents cur hfalse,
    rmParentFixup_all_unchosen nd.cid nd.children cur hfalse]

theorem deleteAt_append_last (l kept : Store) (x : Node) :
    deleteAt (l ++ x :: kept) l.length = l ++ kept := by
  unfold deleteAt
  rw [List.take_append_of_le_length (le_refl _), List.take_length]
  have hdrop : List.drop (l.length + 1) (l ++ x :: kept) = kept := by
    rw [List.drop_append]
    rfl
  rw [hdrop]

theorem deletionPass_allFalse (l : Store)
    (hidx : ∀ i nd, l.get? i = some nd → nd.idx = i)
    (hfalse : ∀ nd ∈ l, nd.choose = false) :
    deletionPass l.reverse l = [] := by
  induction l using List.reverseRecOn with
  | nil => rfl
  | append_singleton init x ih =>
    unfold deletionPass
    rw [List.reverse_append]
    simp only [List.reverse_cons, List.reverse_nil, List.nil_append, List.singleton_append,
      List.foldl_cons]
    have hx : x.choose = false := hfalse x (by simp)
    have hxidx : x.idx = init.length := by
      apply hidx
      rw [List.get?_eq_getElem?, List.getElem?_append_right (by omega)]
      simp
    have hstep : deletionStep (init ++ [x]) x = init := by
      rw [deletionStep_not_chosen_all_unchosen _ _ hfalse hx, hxidx]
      have := deleteAt_append_last init [] x
      simpa using this
    rw [hstep]
    apply ih
    · intro i nd h
      apply hidx
      rw [List.get?_eq_getElem?] at h ⊢
      have hlt : i < init.length := by
        by_contra hge
        rw [List.getElem?_eq_none (by omega)] at h
        exact Option.noConfusion h
      rw [List.getElem?_append_left hlt]
      exact h
    · intro nd hnd
      exact hfalse nd (by simp [hnd])

/- ---------------------------------------------------------------------
Lemmas about applyChoose and seeds.
--------------------------------------------------------------------- -/

theorem applyChooseAux_get? (marked : List Nat) :
    ∀ (l : List Node) (k i : Nat),
      (applyChooseAux marked k l).get? i =
        (l.get? i).map (fun nd => { nd with choose := marked.contains (k + i) }) := by
  intro l
  induction l with
  | nil => intro k i; rfl
  | cons x xs ih =>
    intro k i
    cases i with
    | zero => rfl
    | succ n =>
      have h := ih (k + 1) n
      have heq : k + 1 + n = k + (n + 1) := by omega
      rw [heq] at h
      simpa only [applyChooseAux, List.get?_cons_succ] using h

theorem applyChoose_get? (marked : List Nat) (s : Store) (i : Nat) :
    (applyChoose marked s).get? i =
      (s.get? i).map (fun nd => { nd with choose := marked.contains i }) := by
  have := applyChooseAux_get? marked s 0 i
  simpa [applyChoose] using this

theorem applyChoose_length (marked : List Nat) (s : Store) :
    (applyChoose marked s).length = s.length := by
  unfold applyChoose
  generalize 0 = k
  induction s generalizing k with
  | nil => rfl
  | cons x xs ih => simp [applyChooseAux, ih]

theorem mem_seedsForName (s : Store) (isTag : Bool) (name : String) (i : Nat) :
    i ∈ seedsForName s isTag name ↔
      ∃ nd, s.get? i = some nd ∧ (if isTag then nd.tags else nd.branches).contains name = true := by
  unfold seedsForName
  rw [List.mem_filter, List.mem_range]
  constructor
  · rintro ⟨hlt, hp⟩
    cases h : s.get? i with
    | none => rw [h] at hp; exact absurd hp (by simp)
    | some nd =>
      rw [h] at hp
      exact ⟨nd, rfl, hp⟩
  · rintro ⟨nd, hnd, hc⟩
    have hlt : i < s.length := by
      by_contra hge
      rw [List.get?_eq_getElem?, List.getElem?_eq_none (by omega)] at hnd
      exact Option.noConfusion hnd
    exact ⟨hlt, by rw [hnd]; exact hc⟩

theorem mem_insertLe {α : Type} (le : α → α → Bool) (x y : α) (l : List α) :
    y ∈ insertLe le x l ↔ y = x ∨ y ∈ l := by
  induction l with
  | nil => simp [insertLe]
  | cons z zs ih =>
    unfold insertLe
    cases h : le x z with
    | true => simp [List.mem_cons]
    | false =>
      simp only [Bool.false_eq_true, if_false, List.mem_cons, ih]
      exact or_left_comm

theorem mem_sortLe {α : Type} (le : α → α → Bool) (x : α) (l : List α) :
    x ∈ sortLe le l ↔ x ∈ l := by
  induction l with
  | nil => simp [sortLe]
  | cons z zs ih =>
    unfold sortLe
    rw [mem_insertLe, ih]
    simp

/- ---------------------------------------------------------------------
Claim C10.
--------------------------------------------------------------------- -/

theorem seedsForName_nil_of_nomatch (s : Store) (isTag : Bool) (name : String)
    (h : ∀ nd ∈ s, (if isTag then nd.tags else nd.branches).contains name = false) :
    seedsForName s isTag name = [] := by
  rw [List.eq_nil_iff_forall_not_mem]
  intro i hi
  rw [mem_seedsForName] at hi
  rcases hi with ⟨nd, hnd, hc⟩
  have : nd ∈ s := List.get?_mem hnd
  rw [h nd this] at hc
  exact Bool.noConfusion hc

theorem runJobs_all_empty (s : Store) (fuel : Nat) (jobs : List (List Nat))
    (h : ∀ job ∈ jobs, job = []) : runJobs s fuel jobs [] = some [] := by
  induction jobs with
  | nil => rfl
  | cons j js ih =>
    unfold runJobs
    rw [h j (by simp)]
    simp only [List.length_nil, gt_iff_lt, lt_self_iff_false, if_false]
    exact ih (fun job hj => h job (by simp [hj]))

/-- Claim C10: when at least one branch or tag name is chosen and no
chosen name matches any node, prune_by_choice deletes every node: the
resulting store (node list and id map) is empty.  The index-invariant
hypothesis states that every node records its own position, the state
prune_by_choice is called in. -/
theorem C10_choice_prune_no_match (chooseBranch chooseTag : List String)
    (fuel : Nat) (s : Store)
    (hchoice : chooseBranch.length > 0 ∨ chooseTag.length > 0)
    (hidx : ∀ i nd, s.get? i = some nd → nd.idx = i)
    (hb : ∀ b ∈ chooseBranch, ∀ nd ∈ s, nd.branches.contains b = false)
    (ht : ∀ t ∈ chooseTag, ∀ nd ∈ s, nd.tags.contains t = false) :
    prune_by_choice chooseBranch chooseTag fuel s = some [] := by
  unfold prune_by_choice
  rw [if_pos hchoice]
  have hjobs : ∀ job ∈ (sortLe strLe chooseBranch.dedup).map (fun b => seedsForName s false b) ++
      (sortLe strLe chooseTag.dedup).map (fun t => seedsForName s true t), job = [] := by
    intro job hjob
    rw [List.mem_append] at hjob
    rcases hjob with hjob | hjob
    · rcases List.mem_map.mp hjob with ⟨b, hbmem, rfl⟩
      have hbc : b ∈ chooseBranch := List.mem_dedup.mp ((mem_sortLe _ _ _).mp hbmem)
      exact seedsForName_nil_of_nomatch s false b (fun nd hnd => hb b hbc nd hnd)
    · rcases List.mem_map.mp hjob with ⟨t, htmem, rfl⟩
      have htc : t ∈ chooseTag := List.mem_dedup.mp ((mem_sortLe _ _ _).mp htmem)
      exact seedsForName_nil_of_nomatch s true t (fun nd hnd => ht t htc nd hnd)
  simp only [runJobs_all_empty s fuel _ hjobs, List.length_nil, Nat.sub_zero]
  by_cases hlen : s.length = 0
  · rw [if_pos hlen]
    have : s = [] := List.length_eq_zero.mp hlen
    subst this
    rfl
  · rw [if_neg hlen]
    have hfalse : ∀ nd ∈ applyChoose [] s, nd.choose = false := by
      intro nd hnd
      rcases List.get?_of_mem hnd with ⟨i, hi⟩
      rw [applyChoose_get? [] s i] at hi
      cases h : s.get? i with
      | none => rw [h] at hi; exact Option.noConfusion hi
      | some nd0 =>
        rw [h] at hi
        have : nd = { nd0 with choose := List.contains [] i } := by
          injection hi with h2
          exact h2.symm
        rw [this]
        rfl
    have hidx2 : ∀ i nd, (applyChoose [] s).get? i = some nd → nd.idx = i := by
      intro i nd hi
      rw [applyChoose_get? [] s i] at hi
      cases h : s.get? i with
      | none => rw [h] at hi; exact Option.noConfusion hi
      | some nd0 =>
        rw [h] at hi
        injection hi with h2
        rw [← h2]
        exact hidx i nd0 h
    rw [deletionPass_allFalse (applyChoose [] s) hidx2 hfalse]
    rfl

theorem parentIdxs_spec (s : Store) :
    ∀ ps pidxs, parentIdxs s ps = some pidxs →
      (∀ pcid ∈ ps, ∃ pnd, mapLookup s pcid = some pnd ∧ pnd.idx ∈ pidxs) ∧
      (∀ j ∈ pidxs, ∃ pcid ∈ ps, ∃ pnd, mapLookup s pcid = some pnd ∧ pnd.idx = j) := by
  intro ps
  induction ps with
  | nil =>
    intro pidxs h
    injection h with h
    subst h
    exact ⟨by simp, by simp⟩
  | cons p rest ih =>
    intro pidxs h
    unfold parentIdxs at h
    cases hl : mapLookup s p with
    | none => rw [hl] at h; exact Option.noConfusion h
    | some pnd =>
      rw [hl] at h
      cases hr : parentIdxs s rest with
      | none => rw [hr] at h; exact Option.noConfusion h
      | some js =>
        rw [hr] at h
        injection h with h
        subst h
        obtain ⟨h1, h2⟩ := ih js hr
        constructor
        · intro pcid hmem
          rcases List.mem_cons.mp hmem with heq | hmem2
          · subst heq
            exact ⟨pnd, hl, by simp⟩
          · obtain ⟨q, hq1, hq2⟩ := h1 pcid hmem2
            exact ⟨q, hq1, by simp [hq2]⟩
        · intro j hj
          rcases List.mem_cons.mp hj with heq | hj2
          · subst heq
            exact ⟨p, by simp, pnd, hl, rfl⟩
          · obtain ⟨pcid, hp1, q, hq1, hq2⟩ := h2 j hj2
            exact ⟨pcid, by simp [hp1], q, hq1, hq2⟩

theorem WInv_mono_stack (s : Store) (stack marked : List Nat)
    (h : WInv s [] marked) : WInv s stack marked := by
  intro i hi nd hnd pcid hpcid
  obtain ⟨pnd, hl, hcase⟩ := h i hi nd hnd pcid hpcid
  rcases hcase with hm | habs
  · exact ⟨pnd, hl, Or.inl hm⟩
  · exact absurd habs (List.not_mem_nil _)

theorem get_parents_spec (s : Store) :
    ∀ fuel stack marked marked',
      get_parents s fuel stack marked = some marked' →
      WInv s stack marked →
      marked ⊆ marked' ∧ (∀ j ∈ stack, j ∈ marked') ∧ WInv s [] marked' ∧
      (∀ i ∈ marked', i ∈ marked ∨ ∃ j ∈ stack, ReachSt s j i) ∧
      (marked.Nodup → marked'.Nodup) ∧
      (∀ i ∈ marked', i ∈ marked ∨ ∃ nd, s.get? i = some nd) := by
  intro fuel
  induction fuel with
  | zero =>
    intro stack marked marked' h hinv
    cases stack with
    | nil =>
      injection h with h
      subst h
      exact ⟨fun _ hx => hx, by simp, hinv, fun i hi => Or.inl hi, id, fun i hi => Or.inl hi⟩
    | cons idx rest => exact Option.noConfusion h
  | succ fuel ih =>
    intro stack marked marked' h hinv
    cases stack with
    | nil =>
      injection h with h
      subst h
      exact ⟨fun _ hx => hx, by simp, hinv, fun i hi => Or.inl hi, id, fun i hi => Or.inl hi⟩
    | cons idx rest =>
      unfold get_parents at h
      cases hmem : marked.contains idx with
      | true =>
        rw [hmem] at h
        simp only [if_true] at h
        have hidxmem : idx ∈ marked := List.elem_iff.mp hmem
        have hinv2 : WInv s rest marked := by
          intro i hi nd hnd pcid hpcid
          obtain ⟨pnd, hl, hcase⟩ := hinv i hi nd hnd pcid hpcid
          rcases hcase with hm | hs
          · exact ⟨pnd, hl, Or.inl hm⟩
          · rcases List.mem_cons.mp hs with heq | hs2
            · exact ⟨pnd, hl, Or.inl (heq ▸ hidxmem)⟩
            · exact ⟨pnd, hl, Or.inr hs2⟩
        obtain ⟨r1, r2, r3, r4, r5, r6⟩ := ih rest marked marked' h hinv2
        refine ⟨r1, ?_, r3, ?_, r5, r6⟩
        · intro j hj
          rcases List.mem_cons.mp hj with heq | hj2
          · exact heq ▸ r1 hidxmem
          · exact r2 j hj2
        · intro i hi
          rcases r4 i hi with hm | ⟨j, hj, hr⟩
          · exact Or.inl hm
          · exact Or.inr ⟨j, List.mem_cons_of_mem _ hj, hr⟩
      | false =>
        rw [hmem] at h
        simp only [Bool.false_eq_true, if_false] at h
        cases hget : s.get? idx with
        | none => rw [hget] at h; exact Option.noConfusion h
        | some nd =>
          rw [hget] at h
          dsimp only at h
          cases hpar : parentIdxs s nd.parents with
          | none => rw [hpar] at h; exact Option.noConfusion h
          | some pidxs =>
            rw [hpar] at h
            dsimp only at h
            obtain ⟨hp1, hp2⟩ := parentIdxs_spec s nd.parents pidxs hpar
            have hidxnot : idx ∉ marked := fun hc => by
              have h2 : marked.contains idx = true := List.elem_iff.mpr hc
              rw [hmem] at h2
              exact Bool.noConfusion h2
            have hinv2 : WInv s (pidxs.reverse ++ rest) (marked ++ [idx]) := by
              intro i hi nd2 hnd2 pcid hpcid
              rcases List.mem_append.mp hi with hi1 | hi2
              · obtain ⟨pnd, hl, hcase⟩ := hinv i hi1 nd2 hnd2 pcid hpcid
                rcases hcase with hm | hs
                · exact ⟨pnd, hl, Or.inl (List.mem_append_left _ hm)⟩
                · rcases List.mem_cons.mp hs with heq | hs2
                  · exact ⟨pnd, hl, Or.inl (List.mem_append_right _ (heq ▸ List.mem_singleton_self idx))⟩
                  · exact ⟨pnd, hl, Or.inr (List.mem_append_right _ hs2)⟩
              · have heq : i = idx := List.mem_singleton.mp hi2
                subst heq
                have hnd2eq : nd2 = nd := by
                  rw [hget] at hnd2
                  injection hnd2 with h2
                  exact h2.symm
                subst hnd2eq
                obtain ⟨pnd, hl, hin⟩ := hp1 pcid hpcid
                exact ⟨pnd, hl, Or.inr (List.mem_append_left _ (List.mem_reverse.mpr hin))⟩
            obtain ⟨r1, r2, r3, r4, r5, r6⟩ := ih _ _ marked' h hinv2
            have hmarksub : marked ⊆ marked' := fun x hx => r1 (List.mem_append_left _ hx)
            have hidxin : idx ∈ marked' := r1 (List.mem_append_right _ (List.mem_singleton_self idx))
            refine ⟨hmarksub, ?_, r3, ?_, ?_, ?_⟩
            · intro j hj
              rcases List.mem_cons.mp hj with heq | hj2
              · exact heq ▸ hidxin
              · exact r2 j (List.mem_append_right _ hj2)
            · intro i hi
              rcases r4 i hi with hm | ⟨j, hj, hr⟩
              · rcases List.mem_append.mp hm with hm1 | hm2
                · exact Or.inl hm1
                · have heq : i = idx := List.mem_singleton.mp hm2
                  exact Or.inr ⟨idx, List.mem_cons_self _ _, heq ▸ Relation.ReflTransGen.refl⟩
              · rcases List.mem_append.mp hj with hj1 | hj2
                · have hjp : j ∈ pidxs := List.mem_reverse.mp hj1
                  obtain ⟨pcid, hpc, pnd, hl, hje⟩ := hp2 j hjp
                  have hstep : pstep s idx j := ⟨nd, pcid, pnd, hget, hpc, hl, hje⟩
                  exact Or.inr ⟨idx, List.mem_cons_self _ _,
                    Relation.ReflTransGen.head hstep hr⟩
                · exact Or.inr ⟨j, List.mem_cons_of_mem _ hj2, hr⟩
            · intro hnd
              apply r5
              simp [List.nodup_append, hnd, hidxnot]
            · intro i hi
              rcases r6 i hi with hm | hv
              · rcases List.mem_append.mp hm with hm1 | hm2
                · exact Or.inl hm1
                · have heq : i = idx := List.mem_singleton.mp hm2
                  exact Or.inr ⟨nd, heq ▸ hget⟩
              · exact Or.inr hv

theorem runSeedList_spec (s : Store) (fuel : Nat) :
    ∀ idxs marked marked',
      runSeedList s fuel idxs marked = some marked' →
      WInv s [] marked →
      marked ⊆ marked' ∧ (∀ j ∈ idxs, j ∈ marked') ∧ WInv s [] marked' ∧
      (∀ i ∈ marked', i ∈ marked ∨ ∃ j ∈ idxs, ReachSt s j i) ∧
      (marked.Nodup → marked'.Nodup) ∧
      (∀ i ∈ marked', i ∈ marked ∨ ∃ nd, s.get? i = some nd) := by
  intro idxs
  induction idxs with
  | nil =>
    intro marked marked' h hinv
    injection h with h
    subst h
    exact ⟨fun _ hx => hx, by simp, hinv, fun i hi => Or.inl hi, id, fun i hi => Or.inl hi⟩
  | cons idx rest ih =>
    intro marked marked' h hinv
    unfold runSeedList at h
    cases hg : get_parents s fuel [idx] marked with
    | none => rw [hg] at h; exact Option.noConfusion h
    | some marked2 =>
      rw [hg] at h
      dsimp only at h
      obtain ⟨g1, g2, g3, g4, g5, g6⟩ :=
        get_parents_spec s fuel [idx] marked marked2 hg (WInv_mono_stack s [idx] marked hinv)
      obtain ⟨r1, r2, r3, r4, r5, r6⟩ := ih marked2 marked' h g3
      refine ⟨fun x hx => r1 (g1 hx), ?_, r3, ?_, fun hn => r5 (g5 hn), ?_⟩
      · intro j hj
        rcases List.mem_cons.mp hj with heq | hj2
        · exact heq ▸ r1 (g2 idx (List.mem_singleton_self idx))
        · exact r2 j hj2
      · intro i hi
        rcases r4 i hi with hm2 | ⟨j, hj, hr⟩
        · rcases g4 i hm2 with hm | ⟨j, hj, hr⟩
          · exact Or.inl hm
          · have heq : j = idx := List.mem_singleton.mp hj
            exact Or.inr ⟨idx, List.mem_cons_self _ _, heq ▸ hr⟩
        · exact Or.inr ⟨j, List.mem_cons_of_mem _ hj, hr⟩
      · intro i hi
        rcases r6 i hi with hm2 | hv
        · exact g6 i hm2
        · exact Or.inr hv

theorem runJobs_spec (s : Store) (fuel : Nat) :
    ∀ jobs marked marked',
      runJobs s fuel jobs marked = some marked' →
      WInv s [] marked →
      marked ⊆ marked' ∧ (∀ job ∈ jobs, ∀ j ∈ job, j ∈ marked') ∧ WInv s [] marked' ∧
      (∀ i ∈ marked', i ∈ marked ∨ ∃ j, (∃ job ∈ jobs, j ∈ job) ∧ ReachSt s j i) ∧
      (marked.Nodup → marked'.Nodup) ∧
      (∀ i ∈ marked', i ∈ marked ∨ ∃ nd, s.get? i = some nd) := by
  intro jobs
  induction jobs with
  | nil =>
    intro marked marked' h hinv
    injection h with h
    subst h
    exact ⟨fun _ hx => hx, by simp, hinv, fun i hi => Or.inl hi, id, fun i hi => Or.inl hi⟩
  | cons job rest ih =>
    intro marked marked' h hinv
    unfold runJobs at h
    by_cases hlen : job.length > 0
    · rw [if_pos hlen] at h
      cases hg : runSeedList s fuel job marked with
      | none => rw [hg] at h; exact Option.noConfusion h
      | some marked2 =>
        rw [hg] at h
        dsimp only at h
        obtain ⟨g1, g2, g3, g4, g5, g6⟩ := runSeedList_spec s fuel job marked marked2 hg hinv
        obtain ⟨r1, r2, r3, r4, r5, r6⟩ := ih marked2 marked' h g3
        refine ⟨fun x hx => r1 (g1 hx), ?_, r3, ?_, fun hn => r5 (g5 hn), ?_⟩
        · intro job2 hjob2 j hj
          rcases List.mem_cons.mp hjob2 with heq | hjob3
          · exact r1 (g2 j (heq ▸ hj))
          · exact r2 job2 hjob3 j hj
        · intro i hi
          rcases r4 i hi with hm2 | ⟨j, ⟨job2, hjob2, hjmem⟩, hr⟩
          · rcases g4 i hm2 with hm | ⟨j, hj, hr⟩
            · exact Or.inl hm
            · exact Or.inr ⟨j, ⟨job, List.mem_cons_self _ _, hj⟩, hr⟩
          · exact Or.inr ⟨j, ⟨job2, List.mem_cons_of_mem _ hjob2, hjmem⟩, hr⟩
        · intro i hi
          rcases r6 i hi with hm2 | hv
          · exact g6 i hm2
          · exact Or.inr hv
    · rw [if_neg hlen] at h
      have hjob : job = [] := by
        rw [List.eq_nil_iff_forall_not_mem]
        intro x hx
        exact hlen (List.length_pos_of_mem hx)
      obtain ⟨r1, r2, r3, r4, r5, r6⟩ := ih marked marked' h hinv
      refine ⟨r1, ?_, r3, ?_, r5, r6⟩
      · intro job2 hjob2 j hj
        rcases List.mem_cons.mp hjob2 with heq | hjob3
        · rw [heq, hjob] at hj
          exact absurd hj (List.not_mem_nil j)
        · exact r2 job2 hjob3 j hj
      · intro i hi
        rcases r4 i hi with hm | ⟨j, ⟨job2, hjob2, hjmem⟩, hr⟩
        · exact Or.inl hm
        · exact Or.inr ⟨j, ⟨job2, List.mem_cons_of_mem _ hjob2, hjmem⟩, hr⟩

theorem WInv_closed_reach (s : Store) (marked : List Nat)
    (hcl : WInv s [] marked) :
    ∀ i j, ReachSt s i j → i ∈ marked → j ∈ marked := by
  intro i j hr
  induction hr with
  | refl => exact id
  | tail hsteps hstep ih =>
    intro hi
    rename_i b c
    obtain ⟨nd, pcid, pnd, hget, hpc, hl, hje⟩ := hstep
    obtain ⟨pnd2, hl2, hcase⟩ := hcl b (ih hi) nd hget pcid hpc
    rw [hl] at hl2
    injection hl2 with hl2
    rcases hcase with hm | habs
    · rw [← hl2] at hm
      exact hje ▸ hm
    · exact absurd habs (List.not_mem_nil _)

theorem runJobs_marked_iff (s : Store) (fuel : Nat) (jobs : List (List Nat))
    (marked : List Nat) (h : runJobs s fuel jobs [] = some marked) :
    (∀ i, i ∈ marked ↔ ∃ j, (∃ job ∈ jobs, j ∈ job) ∧ ReachSt s j i) ∧
    marked.Nodup ∧ (∀ i ∈ marked, ∃ nd, s.get? i = some nd) ∧ WInv s [] marked := by
  have hinv0 : WInv s [] ([] : List Nat) := by
    intro i hi
    exact absurd hi (List.not_mem_nil i)
  obtain ⟨r1, r2, r3, r4, r5, r6⟩ := runJobs_spec s fuel jobs [] marked h hinv0
  refine ⟨?_, r5 List.nodup_nil, ?_, r3⟩
  · intro i
    constructor
    · intro hi
      rcases r4 i hi with hm | hr
      · exact absurd hm (List.not_mem_nil i)
      · exact hr
    · rintro ⟨j, ⟨job, hjob, hjmem⟩, hr⟩
      exact WInv_closed_reach s marked r3 j i hr (r2 job hjob j hjmem)
  · intro i hi
    rcases r6 i hi with hm | hv
    · exact absurd hm (List.not_mem_nil i)
    · exact hv

theorem seedJobs_mem_iff (chooseBranch chooseTag : List String) (s : Store) (j : Nat) :
    (∃ job ∈ (sortLe strLe chooseBranch.dedup).map (fun b => seedsForName s false b) ++
        (sortLe strLe chooseTag.dedup).map (fun t => seedsForName s true t), j ∈ job) ↔
      isSeedIdx chooseBranch chooseTag s j := by
  constructor
  · rintro ⟨job, hjob, hj⟩
    rcases List.mem_append.mp hjob with hjob | hjob
    · rcases List.mem_map.mp hjob with ⟨b, hbmem, rfl⟩
      have hbc : b ∈ chooseBranch := List.mem_dedup.mp ((mem_sortLe _ _ _).mp hbmem)
      obtain ⟨nd, hnd, hc⟩ := (mem_seedsForName s false b j).mp hj
      exact ⟨nd, hnd, Or.inl ⟨b, hbc, hc⟩⟩
    · rcases List.mem_map.mp hjob with ⟨t, htmem, rfl⟩
      have htc : t ∈ chooseTag := List.mem_dedup.mp ((mem_sortLe _ _ _).mp htmem)
      obtain ⟨nd, hnd, hc⟩ := (mem_seedsForName s true t j).mp hj
      exact ⟨nd, hnd, Or.inr ⟨t, htc, hc⟩⟩
  · rintro ⟨nd, hnd, hcase⟩
    rcases hcase with ⟨b, hbc, hc⟩ | ⟨t, htc, hc⟩
    · refine ⟨seedsForName s false b, List.mem_append_left _ (List.mem_map_of_mem _
        ((mem_sortLe _ _ _).mpr (List.mem_dedup.mpr hbc))), ?_⟩
      exact (mem_seedsForName s false b j).mpr ⟨nd, hnd, hc⟩
    · refine ⟨seedsForName s true t, List.mem_append_right _ (List.mem_map_of_mem _
        ((mem_sortLe _ _ _).mpr (List.mem_dedup.mpr htc))), ?_⟩
      exact (mem_seedsForName s true t j).mpr ⟨nd, hnd, hc⟩

theorem mem_filter_applyChooseAux (marked : List Nat) :
    ∀ (l : List Node) (k : Nat) (nd' : Node),
      (nd' ∈ (applyChooseAux marked k l).filter (fun nd => nd.choose)) ↔
        ∃ i nd, l.get? i = some nd ∧ marked.contains (k + i) = true ∧
          nd' = { nd with choose := true } := by
  intro l
  induction l with
  | nil =>
    intro k nd'
    simp [applyChooseAux]
  | cons x xs ih =>
    intro k nd'
    unfold applyChooseAux
    cases hc : marked.contains k with
    | true =>
      rw [List.filter_cons_of_pos (by rfl)]
      constructor
      · intro hmem
        rcases List.mem_cons.mp hmem with heq | hmem2
        · exact ⟨0, x, rfl, by simpa using hc, heq⟩
        · obtain ⟨i, nd, h1, h2, h3⟩ := (ih (k + 1) nd').mp hmem2
          refine ⟨i + 1, nd, by simpa using h1, ?_, h3⟩
          have heqk : k + 1 + i = k + (i + 1) := by omega
          rw [← heqk]
          exact h2
      · rintro ⟨i, nd, h1, h2, h3⟩
        cases i with
        | zero =>
          injection h1 with h1
          subst h1
          exact List.mem_cons.mpr (Or.inl h3)
        | succ n =>
          apply List.mem_cons_of_mem
          refine (ih (k + 1) nd').mpr ⟨n, nd, by simpa using h1, ?_, h3⟩
          have heqk : k + 1 + n = k + (n + 1) := by omega
          rw [heqk]
          exact h2
    | false =>
      rw [List.filter_cons_of_neg (by simp)]
      constructor
      · intro hmem
        obtain ⟨i, nd, h1, h2, h3⟩ := (ih (k + 1) nd').mp hmem
        refine ⟨i + 1, nd, by simpa using h1, ?_, h3⟩
        have heqk : k + 1 + i = k + (i + 1) := by omega
        rw [← heqk]
        exact h2
      · rintro ⟨i, nd, h1, h2, h3⟩
        cases i with
        | zero =>
          exfalso
          simp only [Nat.add_zero] at h2
          rw [hc] at h2
          exact Bool.noConfusion h2
        | succ n =>
          refine (ih (k + 1) nd').mpr ⟨n, nd, by simpa using h1, ?_, h3⟩
          have heqk : k + 1 + n = k + (n + 1) := by omega
          rw [heqk]
          exact h2

theorem mem_reindexAux :
    ∀ (l : List Node) (k : Nat) (nd' : Node),
      nd' ∈ reindexAux k l ↔ ∃ j m, l.get? j = some m ∧ nd' = { m with idx := k + j } := by
  intro l
  induction l with
  | nil =>
    intro k nd'
    simp [reindexAux]
  | cons x xs ih =>
    intro k nd'
    unfold reindexAux
    rw [List.mem_cons]
    constructor
    · intro hmem
      rcases hmem with heq | hmem2
      · exact ⟨0, x, rfl, by simpa using heq⟩
      · obtain ⟨j, m, h1, h2⟩ := (ih (k + 1) nd').mp hmem2
        refine ⟨j + 1, m, by simpa using h1, ?_⟩
        have heqk : k + 1 + j = k + (j + 1) := by omega
        rw [← heqk]
        exact h2
    · rintro ⟨j, m, h1, h2⟩
      cases j with
      | zero =>
        injection h1 with h1
        subst h1
        exact Or.inl (by simpa using h2)
      | succ n =>
        refine Or.inr ((ih (k + 1) nd').mpr ⟨n, m, by simpa using h1, ?_⟩)
        have heqk : k + 1 + n = k + (n + 1) := by omega
        rw [heqk]
        exact h2

theorem reindexAux_map_cid (l : List Node) :
    ∀ k, (reindexAux k l).map Node.cid = l.map Node.cid := by
  induction l with
  | nil => intro k; rfl
  | cons x xs ih =>
    intro k
    simp only [reindexAux, List.map_cons, ih]

theorem rm_child_upd_children_empty (dcid : String) (m : Node) (h : m.children = []) :
    rm_child_upd dcid m = m := by
  unfold rm_child_upd
  rw [h]
  cases m
  simp_all

theorem rmChildFixup_children_empty (dcid : String) (ps : List String) (cur : Store)
    (hch : ∀ m ∈ cur, m.children = []) :
    rmChildFixup dcid ps cur = cur := by
  induction ps with
  | nil => rfl
  | cons p rest ih =>
    unfold rmChildFixup
    simp only [List.foldl_cons]
    have hstep : (match mapLookup cur p with
      | some pnd =>
        if pnd.choose then
          cur.map (fun m => if m.cid = p then rm_child_upd dcid m else m)
        else cur
      | none => cur) = cur := by
      cases hl : mapLookup cur p with
      | none => rfl
      | some pnd =>
        dsimp only
        by_cases hchoose : pnd.choose
        · rw [if_pos hchoose]
          have : ∀ m ∈ cur, (if m.cid = p then rm_child_upd dcid m else m) = m := by
            intro m hm
            by_cases hcid : m.cid = p
            · rw [if_pos hcid, rm_child_upd_children_empty dcid m (hch m hm)]
            · rw [if_neg hcid]
          rw [List.map_congr_left this]
          simp
        · rw [if_neg hchoose]
    rw [hstep]
    exact ih

theorem deletionStep_children_empty (cur : Store) (nd : Node)
    (hch : ∀ m ∈ cur, m.children = []) (hndch : nd.children = []) :
    deletionStep cur nd = if nd.choose = false then deleteAt cur nd.idx else cur := by
  unfold deletionStep
  by_cases hc : nd.choose = false
  · rw [if_pos hc, if_pos hc, rmChildFixup_children_empty nd.cid nd.parents cur hch, hndch]
    rfl
  · rw [if_neg hc, if_neg hc]

theorem deletionPass_filter :
    ∀ (l kept : Store),
      (∀ i nd, l.get? i = some nd → nd.idx = i) →
      (∀ nd ∈ l, nd.children = []) →
      (∀ nd ∈ kept, nd.children = []) →
      deletionPass l.reverse (l ++ kept) = l.filter (fun nd => nd.choose) ++ kept := by
  intro l
  induction l using List.reverseRecOn with
  | nil =>
    intro kept _ _ _
    rfl
  | append_singleton init x ih =>
    intro kept hidx hchl hchk
    have hchinit : ∀ nd ∈ init, nd.children = [] := fun nd h => hchl nd (by simp [h])
    have hchx : x.children = [] := hchl x (by simp)
    have hidxinit : ∀ i nd, init.get? i = some nd → nd.idx = i := by
      intro i nd h
      apply hidx
      rw [List.get?_eq_getElem?] at h ⊢
      have hlt : i < init.length := by
        by_contra hge
        rw [List.getElem?_eq_none (by omega)] at h
        exact Option.noConfusion h
      rw [List.getElem?_append_left hlt]
      exact h
    have hxidx : x.idx = init.length := by
      apply hidx
      rw [List.get?_eq_getElem?, List.getElem?_append_right (by omega)]
      simp
    unfold deletionPass
    rw [List.reverse_append]
    simp only [List.reverse_cons, List.reverse_nil, List.nil_append, List.singleton_append,
      List.foldl_cons]
    have hassoc : init ++ [x] ++ kept = init ++ (x :: kept) := by simp
    have hchall : ∀ m ∈ init ++ [x] ++ kept, m.children = [] := by
      intro m hm
      rw [hassoc] at hm
      rcases List.mem_append.mp hm with hm1 | hm2
      · exact hchinit m hm1
      · rcases List.mem_cons.mp hm2 with heq | hm3
        · exact heq ▸ hchx
        · exact hchk m hm3
    rw [deletionStep_children_empty _ x hchall hchx]
    by_cases hc : x.choose = false
    · rw [if_pos hc, hxidx, hassoc, deleteAt_append_last init kept x]
      have := ih kept hidxinit hchinit hchk
      unfold deletionPass at this
      rw [this]
      rw [List.filter_append]
      have : List.filter (fun nd => nd.choose) [x] = [] := by
        simp [List.filter, hc]
      rw [this, List.append_nil]
    · rw [if_neg hc, hassoc]
      have hchxkept : ∀ nd ∈ x :: kept, nd.children = [] := by
        intro nd h
        rcases List.mem_cons.mp h with heq | hm
        · exact heq ▸ hchx
        · exact hchk nd hm
      have := ih (x :: kept) hidxinit hchinit hchxkept
      unfold deletionPass at this
      rw [this]
      rw [List.filter_append]
      have hcx : x.choose = true := by
        cases hxc : x.choose with
        | true => rfl
        | false => exact absurd hxc hc
      have : List.filter (fun nd => nd.choose) [x] = [x] := by
        simp [List.filter, hcx]
      rw [this]
      simp

theorem mem_applyChooseAux (marked : List Nat) :
    ∀ (l : List Node) (k : Nat) (nd' : Node),
      nd' ∈ applyChooseAux marked k l ↔
        ∃ i nd, l.get? i = some nd ∧ nd' = { nd with choose := marked.contains (k + i) } := by
  intro l
  induction l with
  | nil =>
    intro k nd'
    simp [applyChooseAux]
  | cons x xs ih =>
    intro k nd'
    unfold applyChooseAux
    rw [List.mem_cons]
    constructor
    · intro hmem
      rcases hmem with heq | hmem2
      · exact ⟨0, x, rfl, by simpa using heq⟩
      · obtain ⟨i, nd, h1, h2⟩ := (ih (k + 1) nd').mp hmem2
        refine ⟨i + 1, nd, by simpa using h1, ?_⟩
        have heqk : k + 1 + i = k + (i + 1) := by omega
        rw [← heqk]
        exact h2
    · rintro ⟨i, nd, h1, h2⟩
      cases i with
      | zero =>
        injection h1 with h1
        subst h1
        exact Or.inl (by simpa using h2)
      | succ n =>
        refine Or.inr ((ih (k + 1) nd').mpr ⟨n, nd, by simpa using h1, ?_⟩)
        have heqk : k + 1 + n = k + (n + 1) := by omega
        rw [heqk]
        exact h2

theorem applyChooseAux_map_cid (marked : List Nat) :
    ∀ (l : List Node) (k : Nat), (applyChooseAux marked k l).map Node.cid = l.map Node.cid := by
  intro l
  induction l with
  | nil => intro k; rfl
  | cons x xs ih =>
    intro k
    simp only [applyChooseAux, List.map_cons, ih]

theorem nodup_cid_get?_inj (s : Store) (hnodup : (s.map Node.cid).Nodup)
    (i i' : Nat) (nd nd' : Node) (h : s.get? i = some nd) (h' : s.get? i' = some nd')
    (hc : nd.cid = nd'.cid) : i = i' := by
  have hlt : i < s.length := (List.get?_eq_some.mp h).1
  have hlt2 : i < (s.map Node.cid).length := by
    rw [List.length_map]
    exact hlt
  apply List.get?_inj hlt2 hnodup
  rw [List.get?_map, List.get?_map, h, h']
  simp [hc]

theorem mapLookup_spec (s : Store) (c : String) (pnd : Node)
    (h : mapLookup s c = some pnd) : pnd ∈ s ∧ pnd.cid = c := by
  unfold mapLookup at h
  refine ⟨List.mem_of_find?_eq_some h, ?_⟩
  have := List.find?_some h
  simpa using this

/- ---------------------------------------------------------------------
Claim C1.
--------------------------------------------------------------------- -/

/-- Claim C1: when at least one branch or tag name is chosen, with at
least one matching seed, and prune_by_choice completes, the set of
surviving node cids is exactly the set of cids of nodes whose position
lies in the reachability closure, over parent edges, of the seed
positions; consequently every surviving node's parent ids are again cids
of surviving nodes present in the store.  Hypotheses: unique cids, the
index invariant, and empty child lists (prune_by_choice runs before
children are derived). -/
theorem C1_choice_prune_closure
    (cb ct : List String) (fuel : Nat) (s s' : Store)
    (hchoice : cb.length > 0 ∨ ct.length > 0)
    (hseed : ∃ i, isSeedIdx cb ct s i)
    (hnodup : (s.map Node.cid).Nodup)
    (hidx : ∀ i nd, s.get? i = some nd → nd.idx = i)
    (hchildren : ∀ nd ∈ s, nd.children = [])
    (hrun : prune_by_choice cb ct fuel s = some s') :
    (∀ i nd, s.get? i = some nd →
      (nd.cid ∈ s'.map Node.cid ↔ ReachesFromSeed cb ct s i)) ∧
    (∀ nd ∈ s', ∀ p ∈ nd.parents, mapMem s' p = true) := by
  clear hseed
  unfold prune_by_choice at hrun
  rw [if_pos hchoice] at hrun
  cases hrj : runJobs s fuel
      ((sortLe strLe cb.dedup).map (fun b => seedsForName s false b) ++
       (sortLe strLe ct.dedup).map (fun t => seedsForName s true t)) [] with
  | none => rw [hrj] at hrun; exact Option.noConfusion hrun
  | some marked =>
    rw [hrj] at hrun
    dsimp only at hrun
    obtain ⟨hiff, hnodupM, hvalid, hclosed⟩ := runJobs_marked_iff s fuel _ marked hrj
    have hmarkiff : ∀ i, i ∈ marked ↔ ReachesFromSeed cb ct s i := by
      intro i
      rw [hiff i]
      unfold ReachesFromSeed
      constructor
      · rintro ⟨j, hjob, hr⟩
        exact ⟨j, (seedJobs_mem_iff cb ct s j).mp hjob, hr⟩
      · rintro ⟨j, hseed, hr⟩
        exact ⟨j, (seedJobs_mem_iff cb ct s j).mpr hseed, hr⟩
    -- parent lookups out of marked nodes land on marked positions
    have hparmark : ∀ i ∈ marked, ∀ nd, s.get? i = some nd → ∀ p ∈ nd.parents,
        ∃ pnd j, mapLookup s p = some pnd ∧ s.get? j = some pnd ∧ j ∈ marked ∧ pnd.cid = p := by
      intro i hi nd hnd p hp
      obtain ⟨pnd, hl, hcase⟩ := hclosed i hi nd hnd p hp
      obtain ⟨hpmem, hpcid⟩ := mapLookup_spec s p pnd hl
      obtain ⟨j, hj⟩ := List.get?_of_mem hpmem
      have hji : pnd.idx = j := hidx j pnd hj
      rcases hcase with hm | habs
      · exact ⟨pnd, j, hl, hj, hji ▸ hm, hpcid⟩
      · exact absurd habs (List.not_mem_nil _)
    by_cases hprune : s.length - marked.length = 0
    · -- nothing to prune: the store with refreshed flags is returned unchanged
      rw [if_pos hprune] at hrun
      injection hrun with hrun
      subst hrun
      have hlen : s.length ≤ marked.length := Nat.sub_eq_zero_iff_le.mp hprune
      have hallmarked : ∀ i nd, s.get? i = some nd → i ∈ marked := by
        intro i nd hget
        obtain ⟨hlt, _⟩ := List.get?_eq_some.mp hget
        have hv : ∀ x ∈ marked, x < s.length := by
          intro x hx
          obtain ⟨nd2, hnd2⟩ := hvalid x hx
          exact (List.get?_eq_some.mp hnd2).1
        have hsub : marked.toFinset ⊆ Finset.range s.length := by
          intro j hj
          rw [List.mem_toFinset] at hj
          exact Finset.mem_range.mpr (hv j hj)
        have hcard : (Finset.range s.length).card ≤ marked.toFinset.card := by
          rw [Finset.card_range, List.toFinset_card_of_nodup hnodupM]
          exact hlen
        have heq := Finset.eq_of_subset_of_card_le hsub hcard
        have : i ∈ marked.toFinset := by
          rw [heq]
          exact Finset.mem_range.mpr hlt
        exact List.mem_toFinset.mp this
      have hcids : (applyChoose marked s).map Node.cid = s.map Node.cid :=
        applyChooseAux_map_cid marked s 0
      constructor
      · intro i nd hget
        rw [hcids]
        have hl : nd.cid ∈ s.map Node.cid := by
          have : nd ∈ s := List.get?_mem hget
          exact List.mem_map_of_mem Node.cid this
        have hr : ReachesFromSeed cb ct s i := (hmarkiff i).mp (hallmarked i nd hget)
        exact ⟨fun _ => hr, fun _ => hl⟩
      · intro nd' hnd' p hp
        obtain ⟨i, nd, hget, hconf⟩ := (mem_applyChooseAux marked s 0 nd').mp hnd'
        have hpar : nd'.parents = nd.parents := by rw [hconf]
        rw [hpar] at hp
        obtain ⟨pnd, j, hl, hj, hjm, hpcid⟩ :=
          hparmark i (hallmarked i nd hget) nd hget p hp
        rw [mapMem_iff_mem_cids, hcids, ← hpcid]
        exact List.mem_map_of_mem Node.cid (List.get?_mem hj)
    · -- deletion branch: survivors are the marked positions, reindexed
      rw [if_neg hprune] at hrun
      injection hrun with hrun
      subst hrun
      have hidx2 : ∀ i nd, (applyChoose marked s).get? i = some nd → nd.idx = i := by
        intro i nd hget
        rw [applyChoose_get?] at hget
        cases h : s.get? i with
        | none => rw [h] at hget; exact Option.noConfusion hget
        | some nd0 =>
          rw [h] at hget
          injection hget with hget
          rw [← hget]
          exact hidx i nd0 h
      have hch2 : ∀ nd ∈ applyChoose marked s, nd.children = [] := by
        intro nd hnd
        obtain ⟨i, nd0, hget, hconf⟩ := (mem_applyChooseAux marked s 0 nd).mp hnd
        rw [hconf]
        exact hchildren nd0 (List.get?_mem hget)
      have hdel := deletionPass_filter (applyChoose marked s) [] hidx2 hch2 (by simp)
      rw [List.append_nil, List.append_nil] at hdel
      rw [hdel]
      have hfiltiff : ∀ nd', nd' ∈ (applyChoose marked s).filter (fun nd => nd.choose) ↔
          ∃ i nd, s.get? i = some nd ∧ marked.contains i = true ∧
            nd' = { nd with choose := true } := by
        intro nd'
        have := mem_filter_applyChooseAux marked s 0 nd'
        simpa using this
      have hcidfilt : ∀ c, c ∈ ((applyChoose marked s).filter (fun nd => nd.choose)).map Node.cid ↔
          ∃ i nd, s.get? i = some nd ∧ i ∈ marked ∧ nd.cid = c := by
        intro c
        rw [List.mem_map]
        constructor
        · rintro ⟨nd', hnd', hcid⟩
          obtain ⟨i, nd, hget, hcont, hconf⟩ := (hfiltiff nd').mp hnd'
          refine ⟨i, nd, hget, List.elem_iff.mp hcont, ?_⟩
          rw [← hcid, hconf]
        · rintro ⟨i, nd, hget, hm, hcid⟩
          refine ⟨{ nd with choose := true }, (hfiltiff _).mpr
            ⟨i, nd, hget, List.elem_iff.mpr hm, rfl⟩, hcid⟩
      have hcidrdx : (reindex ((applyChoose marked s).filter (fun nd => nd.choose))).map Node.cid =
          ((applyChoose marked s).filter (fun nd => nd.choose)).map Node.cid :=
        reindexAux_map_cid _ 0
      constructor
      · intro i nd hget
        rw [hcidrdx]
        rw [hcidfilt nd.cid]
        constructor
        · rintro ⟨i2, nd2, hget2, hm2, hcid2⟩
          have : i2 = i := nodup_cid_get?_inj s hnodup i2 i nd2 nd hget2 hget hcid2
          subst this
          exact (hmarkiff i2).mp hm2
        · intro hr
          exact ⟨i, nd, hget, (hmarkiff i).mpr hr, rfl⟩
      · intro nd' hnd' p hp
        obtain ⟨j, m, hjm, hconf⟩ := (mem_reindexAux _ 0 nd').mp hnd'
        have hm := List.get?_mem hjm
        obtain ⟨i, nd, hget, hcont, hconf2⟩ := (hfiltiff m).mp hm
        have hpar : nd'.parents = nd.parents := by rw [hconf, hconf2]
        rw [hpar] at hp
        obtain ⟨pnd, j2, hl, hj2, hj2m, hpcid⟩ :=
          hparmark i (List.elem_iff.mp hcont) nd hget p hp
        rw [mapMem_iff_mem_cids, hcidrdx, hcidfilt p]
        exact ⟨j2, pnd, hj2, hj2m, hpcid⟩

/-- Scenario 3 store, node A: root commit. -/
def ndA : Node :=
  { cid := "a", parents := [], branches := [], tags := [], children := [],
    choose := true, chainHead := none, chainTail := none, chainSize := -1,
    idx := 0, dts := ⟨2020, 1, 1, 0, 0, 0⟩, extra := [] }

/-- Scenario 3 store, node B: child of A carrying the chosen branch. -/
def ndB : Node :=
  { cid := "b", parents := ["a"], branches := ["main"], tags := [], children := [],
    choose := true, chainHead := none, chainTail := none, chainSize := -1,
    idx := 1, dts := ⟨2020, 1, 2, 0, 0, 0⟩, extra := [] }

/-- Scenario 3 store, node C: child of A on the pruned side branch. -/
def ndC : Node :=
  { cid := "c", parents := ["a"], branches := [], tags := [], children := [],
    choose := true, chainHead := none, chainTail := none, chainSize := -1,
    idx := 2, dts := ⟨2020, 1, 3, 0, 0, 0⟩, extra := [] }

/-- Witness for C1 at the store of Scenario 3: choosing the branch on B
keeps exactly the ancestor closure of B, so C is removed while A and B
survive with their parent links intact. -/
theorem C1_witness :
    prune_by_choice ["main"] [] 10 [ndA, ndB, ndC] = some [ndA, ndB] ∧
    ((∀ i nd, ([ndA, ndB, ndC] : Store).get? i = some nd →
      (nd.cid ∈ ([ndA, ndB] : Store).map Node.cid ↔
        ReachesFromSeed ["main"] [] [ndA, ndB, ndC] i)) ∧
     (∀ nd ∈ ([ndA, ndB] : Store), ∀ p ∈ nd.parents, mapMem [ndA, ndB] p = true)) := by
  constructor
  · rfl
  · exact C1_choice_prune_closure ["main"] [] 10 [ndA, ndB, ndC] [ndA, ndB]
      (Or.inl (by decide))
      ⟨1, ndB, rfl, Or.inl ⟨"main", by decide, by decide⟩⟩
      (by decide)
      (by
        intro i nd h
        match i with
        | 0 => injection h with h2; rw [← h2]; rfl
        | 1 => injection h with h2; rw [← h2]; rfl
        | 2 => injection h with h2; rw [← h2]; rfl
        | n + 3 => exact Option.noConfusion h)
      (by decide)
      (by rfl)

/-- Witness for C10: choosing a branch name that matches nothing empties
the three-node store of Scenario 3 entirely. -/
theorem C10_witness :
    (∀ b ∈ ["nope"], ∀ nd ∈ ([ndA, ndB, ndC] : Store), nd.branches.contains b = false) ∧
    prune_by_choice ["nope"] [] 10 [ndA, ndB, ndC] = some [] := by
  constructor
  · decide
  · exact C10_choice_prune_no_match ["nope"] [] 10 [ndA, ndB, ndC]
      (Or.inl (by decide))
      (by
        intro i nd h
        match i with
        | 0 => injection h with h2; rw [← h2]; rfl
        | 1 => injection h with h2; rw [← h2]; rfl
        | 2 => injection h with h2; rw [← h2]; rfl
        | n + 3 => exact Option.noConfusion h)
      (by decide)
      (by decide)

/- ---------------------------------------------------------------------
Alignment ordering (the align-by-date section of gendot,
git2dot.py lines 726-758).
--------------------------------------------------------------------- -/

/-- The attrs list of gendot line 733. -/
def alignAttrs : List String := ["year", "month", "day", "hour", "minute", "second"]

/-- getattr(dts, attr) for the six calendar fields. -/
def getattrD (d : DTS) (attr : String) : Nat :=
  if attr = "year" then d.year
  else if attr = "month" then d.month
  else if attr = "day" then d.day
  else if attr = "hour" then d.hour
  else if attr = "minute" then d.minute
  else d.second

/-- The inner field loop (lines 739-755): v1 is the current node's
field, v2 the cursor's.  When v1 is smaller an invisible-constraint pair
(cursor, current) is emitted and the scan continues; when v1 is larger
the scan breaks.  The trailing granularity test of the source
(if attr == opts.align_by_date: continue) is a continue as the last
statement of the loop body, i.e. a no-op, and is modelled as the
identical-branch conditional below. -/
def attrLoop (granularity : String) (lnd nd : Node) : List String → List (String × String)
  | [] => []
  | attr :: rest =>
    let v1 := getattrD nd.dts attr
    let v2 := getattrD lnd.dts attr
    if v1 < v2 then
      (lnd.cid, nd.cid) ::
        (if attr = granularity then attrLoop granularity lnd nd rest
         else attrLoop granularity lnd nd rest)
    else if v2 < v1 then []
    else
      if attr = granularity then attrLoop granularity lnd nd rest
      else attrLoop granularity lnd nd rest

/-- The scan over the date-sorted cid list with the running cursor lnd;
squashed nodes are skipped (and do not advance the cursor), and the
cursor advances to the current node whenever its full timestamp is
strictly later (line 757). -/
def alignFold (granularity : String) (s : Store) :
    List String → Node → List (String × String) → Option (List (String × String))
  | [], _, acc => some acc
  | cid :: rest, lnd, acc =>
    match mapLookup s cid with
    | none => none
    | some nd =>
      if is_squashed nd then alignFold granularity s rest lnd acc
      else
        if dtsLt lnd.dts nd.dts then
          alignFold granularity s rest nd (acc ++ attrLoop granularity lnd nd alignAttrs)
        else
          alignFold granularity s rest lnd (acc ++ attrLoop granularity lnd nd alignAttrs)

/-- The align-by-date section: runs only for a granularity other than
none; the cursor starts at the first entry of the date-sorted list
(line 731; an empty list is an index error). -/
def alignSection (granularity : String) (s : Store) (bydate : List String) :
    Option (List (String × String)) :=
  if granularity ≠ "none" then
    match bydate with
    | [] => none
    | c0 :: _ =>
      match mapLookup s c0 with
      | none => none
      | some l0 => alignFold granularity s bydate l0 []
  else some []

/-- Sort key of m_list_bydate (parse line 558). -/
def bydateKey (s : Store) (cid : String) : DTS :=
  match mapLookup s cid with
  | some nd => nd.dts
  | none => ⟨0, 0, 0, 0, 0, 0⟩

/-- Node.m_list_bydate: the cid column sorted stably ascending by
timestamp (parse lines 557-558). -/
def mk_list_bydate (s : Store) : List String :=
  sortLe (fun a b => !dtsLt (bydateKey s b) (bydateKey s a)) (s.map Node.cid)

/-- Node E of the C3 failing input: year 2020. -/
def ndE : Node :=
  { cid := "e", parents := [], branches := [], tags := [], children := [],
    choose := true, chainHead := none, chainTail := none, chainSize := -1,
    idx := 0, dts := ⟨2020, 6, 1, 12, 0, 0⟩, extra := [] }

/-- Node F of the C3 failing input: year 2021, child of E. -/
def ndF : Node :=
  { cid := "f", parents := ["e"], branches := [], tags := [], children := [],
    choose := true, chainHead := none, chainTail := none, chainSize := -1,
    idx := 1, dts := ⟨2021, 6, 1, 12, 0, 0⟩, extra := [] }

/-- Claim C3, evaluation at the failing input: two non-squashed nodes
one year apart with year granularity configured produce an empty
invisible-constraint list, although the claim (like the source's own
comment and the help text of the option) requires a precedence pair
placing the 2020 node before the 2021 node.  For any store whose
timestamps share a timezone the scan breaks at the first differing
field, because the sorted order makes the cursor's field the smaller
one, and the emission condition tests the opposite direction. -/
theorem C3_alignment_no_pairs :
    alignSection "year" [ndE, ndF] (mk_list_bydate [ndE, ndF]) = some [] ∧
    ndE.dts.year < ndF.dts.year ∧ is_squashed ndE = false ∧ is_squashed ndF = false := by
  refine ⟨rfl, by decide, rfl, rfl⟩

/- ---------------------------------------------------------------------
Record parsing (the record-reading phase of parse,
git2dot.py lines 419-525).

The configuration is the default one for the claims: no -D variables
(opts.define_var is None, so the variable-scanning block never runs),
and the date parser is abstracted as a function String to Option DTS
(dateutil.parser.parse succeeding or raising).
--------------------------------------------------------------------- -/

/-- A line that starts a record: line.find of the record marker is
nonnegative (line 430), on the stripped line. -/
def isRecordLine (line : String) : Bool :=
  pyContains "|Record:|" (pyStrip line)

/-- The date field of a record line (flds[5], line 439). -/
def dateOf (line : String) : String :=
  (pySplit "|" (pyStrip line)).getD 5 ""

/-- Construction of the node of one record (lines 433-456): commit id
flds[2], whitespace-split parent ids flds[3], refs flds[4] via
parse_refs, index the current store length (Node sets m_idx to
len(m_list) and appends itself). -/
def mkRecordNode (flds : List String) (dts : DTS) (idx : Nat) : Node :=
  { cid := flds.getD 2 "", parents := pySplitWs (flds.getD 3 ""),
    branches := (parse_refs (flds.getD 4 "")).2,
    tags := (parse_refs (flds.getD 4 "")).1,
    children := [], choose := true, chainHead := none, chainTail := none,
    chainSize := -1, idx := idx, dts := dts, extra := [] }

/-- The record branch for one (stripped) line: when the record marker
occurs, split on the delimiter; the assert on flds[1] and a missing
field raise (none); an unparsable date is the fatal exit of line 442;
otherwise the new node is appended and becomes current. -/
def recordStep (parseDate : String → Option DTS) (st : Option Nat × Store)
    (line : String) : Option (Option Nat × Store) :=
  if pyContains "|Record:|" line then
    if (pySplit "|" line).getD 1 "" = "Record:" then
      if (pySplit "|" line).length ≥ 6 then
        match parseDate ((pySplit "|" line).getD 5 "") with
        | none => none
        | some dts =>
          some (some st.2.length, st.2 ++ [mkRecordNode (pySplit "|" line) dts st.2.length])
      else none
    else none
  else some st

/-- Label-field post-processing (the setval closure, lines 487-491):
right-truncate to the configured width when positive, escape quotes. -/
def setvalStr (maxw : Int) (fld : String) : String :=
  pyReplace "\x22" "\\\x22" (if maxw > 0 then pyTake maxw.toNat fld else fld)

/-- Append one processed label field to the extra list of the node at
the given index.  The index is always a valid position (it was set by
the record step to the position of the appended node), so the fallback
branch is unreachable. -/
def appendExtra (s : Store) (idx : Nat) (val : String) : Store :=
  match s.get? idx with
  | none => s
  | some nd => s.set idx { nd with extra := nd.extra ++ [val] }

/-- The label branch for one (stripped) line (lines 481-521): when the
label record identifier occurs, each delimiter-separated field after the
first is processed by setval onto the current node; with no current node
the attribute access on None raises (none).  With no -D variables the
per-field variable search never matches, so every field takes the
not-found path. -/
def labelStep (recid : String) (maxw : Int) (st : Option Nat × Store)
    (line : String) : Option (Option Nat × Store) :=
  if pyContains recid line then
    match st.1 with
    | none => none
    | some idx =>
      some (st.1, ((pySplit "|" line).drop 1).foldl
        (fun cur fld => appendExtra cur idx (setvalStr maxw fld)) st.2)
  else some st

/-- Processing of one raw line: strip, record branch, label branch. -/
def parseLine (parseDate : String → Option DTS) (recid : String) (maxw : Int)
    (st : Option Nat × Store) (line0 : String) : Option (Option Nat × Store) :=
  match recordStep parseDate st (pyStrip line0) with
  | none => none
  | some st1 => labelStep recid maxw st1 (pyStrip line0)

/-- The line loop of parse. -/
def parseLinesAux (parseDate : String → Option DTS) (recid : String) (maxw : Int) :
    List String → Option Nat × Store → Option (Option Nat × Store)
  | [], st => some st
  | line :: rest, st =>
    match parseLine parseDate recid maxw st line with
    | none => none
    | some st2 => parseLinesAux parseDate recid maxw rest st2

/-- The record-reading phase of parse: run the line loop from the empty
store, then the zero-records check of lines 523-525 (fatal when no node
was created). -/
def parseRecords (parseDate : String → Option DTS) (recid : String) (maxw : Int)
    (lines : List String) : Option Store :=
  match parseLinesAux parseDate recid maxw lines (none, []) with
  | none => none
  | some st => if st.2.length = 0 then none else some st.2

/-- Input-contract check for label lines: every line in which the label
record identifier occurs either is itself a record line or is preceded
by one (seen tracks whether a record line occurred earlier). -/
def labelOkFrom (recid : String) : Bool → List String → Bool
  | _, [] => true
  | seen, l :: rest =>
    (!(pyContains recid (pyStrip l)) || (isRecordLine l || seen)) &&
    labelOkFrom recid (seen || isRecordLine l) rest

/-- Well-formed record lines: the assert on flds[1] passes and all six
fields are present. -/
def recordWf (line : String) : Bool :=
  !(isRecordLine line) ||
    ((pySplit "|" (pyStrip line)).getD 1 "" = "Record:" &&
     (pySplit "|" (pyStrip line)).length ≥ 6)

theorem appendExtra_length (s : Store) (idx : Nat) (val : String) :
    (appendExtra s idx val).length = s.length := by
  unfold appendExtra
  cases h : s.get? idx with
  | none => rfl
  | some nd => exact List.length_set s idx _

theorem foldExtra_length (maxw : Int) (idx : Nat) :
    ∀ (flds : List String) (s : Store),
      (flds.foldl (fun cur fld => appendExtra cur idx (setvalStr maxw fld)) s).length =
        s.length := by
  intro flds
  induction flds with
  | nil => intro s; rfl
  | cons f rest ih =>
    intro s
    simp only [List.foldl_cons, ih, appendExtra_length]

theorem parseLinesAux_bad_date (parseDate : String → Option DTS) (recid : String)
    (maxw : Int) :
    ∀ (lines : List String) (st : Option Nat × Store),
      (∃ line ∈ lines, isRecordLine line = true ∧ recordWf line = true ∧
        parseDate (dateOf line) = none) →
      parseLinesAux parseDate recid maxw lines st = none := by
  intro lines
  induction lines with
  | nil =>
    rintro st ⟨line, hmem, _⟩
    exact absurd hmem (List.not_mem_nil line)
  | cons l rest ih =>
    rintro st ⟨line, hmem, hrec, hwf, hbad⟩
    unfold parseLinesAux
    rcases List.mem_cons.mp hmem with heq | hmem2
    · subst heq
      have hstep : parseLine parseDate recid maxw st line = none := by
        unfold parseLine recordStep
        unfold isRecordLine at hrec
        rw [hrec]
        unfold recordWf isRecordLine at hwf
        rw [hrec] at hwf
        simp only [Bool.not_true, Bool.false_or, Bool.and_eq_true, decide_eq_true_eq] at hwf
        rw [if_pos hwf.1, if_pos hwf.2]
        unfold dateOf at hbad
        rw [hbad]
        rfl
      rw [hstep]
    · cases hstep : parseLine parseDate recid maxw st l with
      | none => simp only [hstep]
      | some st2 =>
        simp only [hstep]
        exact ih st2 ⟨line, hmem2, hrec, hwf, hbad⟩

theorem parseLinesAux_no_records (parseDate : String → Option DTS) (recid : String)
    (maxw : Int) :
    ∀ (lines : List String),
      (∀ line ∈ lines, isRecordLine line = false) →
      parseLinesAux parseDate recid maxw lines (none, ([] : Store)) = none ∨
      parseLinesAux parseDate recid maxw lines (none, ([] : Store)) = some (none, []) := by
  intro lines
  induction lines with
  | nil => exact fun _ => Or.inr rfl
  | cons l rest ih =>
    intro h
    have hl : isRecordLine l = false := h l (List.mem_cons_self _ _)
    unfold parseLinesAux parseLine recordStep
    unfold isRecordLine at hl
    rw [hl]
    simp only [Bool.false_eq_true, if_false]
    unfold labelStep
    by_cases hc : pyContains recid (pyStrip l) = true
    · rw [if_pos hc]
      exact Or.inl rfl
    · rw [if_neg hc]
      exact ih (fun line hm => h line (List.mem_cons_of_mem _ hm))

theorem parseLinesAux_success (parseDate : String → Option DTS) (recid : String)
    (maxw : Int) :
    ∀ (lines : List String) (cur : Option Nat) (store : Store) (seen : Bool),
      (seen = true → cur ≠ none ∧ store.length > 0) →
      (∀ line ∈ lines, recordWf line = true) →
      (∀ line ∈ lines, isRecordLine line = true → parseDate (dateOf line) ≠ none) →
      labelOkFrom recid seen lines = true →
      ∃ cur2 store2,
        parseLinesAux parseDate recid maxw lines (cur, store) = some (cur2, store2) ∧
        store.length ≤ store2.length ∧
        ((seen = true ∨ ∃ line ∈ lines, isRecordLine line = true) → store2.length > 0) := by
  intro lines
  induction lines with
  | nil =>
    intro cur store seen hinv hwf hdate hlabel
    refine ⟨cur, store, rfl, le_refl _, ?_⟩
    rintro (hseen | ⟨line, hmem, _⟩)
    · exact (hinv hseen).2
    · exact absurd hmem (List.not_mem_nil line)
  | cons l rest ih =>
    intro cur store seen hinv hwf hdate hlabel
    unfold labelOkFrom at hlabel
    rw [Bool.and_eq_true] at hlabel
    obtain ⟨hlab1, hlab2⟩ := hlabel
    unfold parseLinesAux parseLine
    cases hrec : isRecordLine l with
    | true =>
      -- record line: the step appends a node and makes it current
      have hwfl := hwf l (List.mem_cons_self _ _)
      unfold recordWf at hwfl
      rw [hrec] at hwfl
      simp only [Bool.not_true, Bool.false_or, Bool.and_eq_true, decide_eq_true_eq] at hwfl
      have hdl := hdate l (List.mem_cons_self _ _) hrec
      have hrec2 : pyContains "|Record:|" (pyStrip l) = true := hrec
      cases hpd : parseDate (dateOf l) with
      | none => exact absurd hpd hdl
      | some dts =>
        unfold dateOf at hpd
        have hstep : recordStep parseDate (cur, store) (pyStrip l) =
            some (some store.length,
              store ++ [mkRecordNode (pySplit "|" (pyStrip l)) dts store.length]) := by
          unfold recordStep
          rw [hrec2, if_pos hwfl.1, if_pos hwfl.2, hpd]
          rfl
        rw [hstep]
        dsimp only
        have hlen1 : (store ++ [mkRecordNode (pySplit "|" (pyStrip l)) dts store.length]).length =
            store.length + 1 := by simp
        unfold labelStep
        by_cases hc : pyContains recid (pyStrip l) = true
        · rw [if_pos hc]
          dsimp only
          have hinv2 : (true : Bool) = true →
              (some store.length : Option Nat) ≠ none ∧
              (((pySplit "|" (pyStrip l)).drop 1).foldl
                (fun cur2 fld => appendExtra cur2 store.length (setvalStr maxw fld))
                (store ++ [mkRecordNode (pySplit "|" (pyStrip l)) dts store.length])).length > 0 := by
            intro _
            refine ⟨Option.noConfusion, ?_⟩
            rw [foldExtra_length, hlen1]
            omega
          have hlab2b : labelOkFrom recid true rest = true := by
            rw [hrec] at hlab2
            simpa using hlab2
          obtain ⟨cur2, store2, hrun, hle, hpos⟩ := ih (some store.length) _ true hinv2
            (fun line hm => hwf line (List.mem_cons_of_mem _ hm))
            (fun line hm => hdate line (List.mem_cons_of_mem _ hm)) hlab2b
          refine ⟨cur2, store2, hrun, ?_, fun _ => hpos (Or.inl rfl)⟩
          rw [foldExtra_length, hlen1] at hle
          omega
        · rw [if_neg hc]
          have hinv2 : (true : Bool) = true →
              (some store.length : Option Nat) ≠ none ∧
              (store ++ [mkRecordNode (pySplit "|" (pyStrip l)) dts store.length]).length > 0 := by
            intro _
            refine ⟨Option.noConfusion, ?_⟩
            rw [hlen1]
            omega
          have hlab2b : labelOkFrom recid true rest = true := by
            rw [hrec] at hlab2
            simpa using hlab2
          obtain ⟨cur2, store2, hrun, hle, hpos⟩ := ih (some store.length) _ true hinv2
            (fun line hm => hwf line (List.mem_cons_of_mem _ hm))
            (fun line hm => hdate line (List.mem_cons_of_mem _ hm)) hlab2b
          refine ⟨cur2, store2, hrun, ?_, fun _ => hpos (Or.inl rfl)⟩
          rw [hlen1] at hle
          omega
    | false =>
      -- not a record line: the record branch is the identity
      have hstep : recordStep parseDate (cur, store) (pyStrip l) = some (cur, store) := by
        unfold recordStep
        unfold isRecordLine at hrec
        rw [hrec]
        simp
      rw [hstep]
      dsimp only
      unfold labelStep
      by_cases hc : pyContains recid (pyStrip l) = true
      · rw [if_pos hc]
        -- a label line: the contract guarantees a current node exists
        have hseen : seen = true := by
          rw [hc, hrec] at hlab1
          simpa using hlab1
        obtain ⟨hcur, hpos0⟩ := hinv hseen
        cases hcurv : cur with
        | none => exact absurd hcurv hcur
        | some idx =>
          dsimp only
          have hinv2 : (seen || isRecordLine l) = true →
              (some idx : Option Nat) ≠ none ∧
              (((pySplit "|" (pyStrip l)).drop 1).foldl
                (fun cur2 fld => appendExtra cur2 idx (setvalStr maxw fld)) store).length > 0 := by
            intro _
            refine ⟨Option.noConfusion, ?_⟩
            rw [foldExtra_length]
            exact hpos0
          obtain ⟨cur2, store2, hrun, hle, hpos⟩ := ih (some idx) _ (seen || isRecordLine l)
            hinv2
            (fun line hm => hwf line (List.mem_cons_of_mem _ hm))
            (fun line hm => hdate line (List.mem_cons_of_mem _ hm)) hlab2
          refine ⟨cur2, store2, hrun, ?_, ?_⟩
          · rw [foldExtra_length] at hle
            exact hle
          · intro _
            apply hpos
            left
            rw [hseen]
            simp
      · rw [if_neg hc]
        have hinv2 : (seen || isRecordLine l) = true → cur ≠ none ∧ store.length > 0 := by
          intro h2
          rw [hrec] at h2
          simp only [Bool.or_false] at h2
          exact hinv h2
        obtain ⟨cur2, store2, hrun, hle, hpos⟩ := ih cur store (seen || isRecordLine l) hinv2
          (fun line hm => hwf line (List.mem_cons_of_mem _ hm))
          (fun line hm => hdate line (List.mem_cons_of_mem _ hm)) hlab2
        refine ⟨cur2, store2, hrun, hle, ?_⟩
        rintro (hseen | ⟨line, hmem, hrl⟩)
        · apply hpos
          left
          rw [hseen]
          simp
        · rcases List.mem_cons.mp hmem with heq | hmem2
          · rw [heq, hrec] at hrl
            exact Bool.noConfusion hrl
          · exact hpos (Or.inr ⟨line, hmem2, hrl⟩)

/-- Claim C9: within the input contract (well-formed record lines, no
label line before the first record), the record-reading phase of parse
is fatal exactly as specified: an unparsable record date aborts with no
partial store, an input with zero record lines aborts, and otherwise the
phase completes and hands a non-empty store downstream. -/
theorem C9_parse_fatal (parseDate : String → Option DTS) (recid : String) (maxw : Int)
    (lines : List String)
    (hwf : ∀ line ∈ lines, recordWf line = true)
    (hlabel : labelOkFrom recid false lines = true) :
    ((∃ line ∈ lines, isRecordLine line = true ∧ parseDate (dateOf line) = none) →
      parseRecords parseDate recid maxw lines = none) ∧
    ((∀ line ∈ lines, isRecordLine line = false) →
      parseRecords parseDate recid maxw lines = none) ∧
    ((∀ line ∈ lines, isRecordLine line = true → parseDate (dateOf line) ≠ none) →
      (∃ line ∈ lines, isRecordLine line = true) →
      ∃ st, parseRecords parseDate recid maxw lines = some st ∧ st ≠ []) := by
  refine ⟨?_, ?_, ?_⟩
  · rintro ⟨line, hmem, hrec, hbad⟩
    unfold parseRecords
    rw [parseLinesAux_bad_date parseDate recid maxw lines (none, [])
      ⟨line, hmem, hrec, hwf line hmem, hbad⟩]
  · intro hnorec
    unfold parseRecords
    rcases parseLinesAux_no_records parseDate recid maxw lines hnorec with h | h
    · rw [h]
    · rw [h]
      rfl
  · intro hdate hex
    obtain ⟨cur2, store2, hrun, hle, hpos⟩ := parseLinesAux_success parseDate recid maxw lines
      none [] false (fun h => Bool.noConfusion h) hwf hdate hlabel
    refine ⟨store2, ?_, ?_⟩
    · unfold parseRecords
      rw [hrun]
      have hlen : ¬ store2.length = 0 := by
        have := hpos (Or.inr hex)
        omega
      dsimp only
      rw [if_neg hlen]
    · intro hnil
      have := hpos (Or.inr hex)
      rw [hnil] at this
      simp at this

/-- Date parser used by the C9 witness. -/
def dateParserW : String → Option DTS :=
  fun ds => if ds = "2020-01-01" then some ⟨2020, 1, 1, 0, 0, 0⟩ else none

/-- Input lines of the C9 witness: one well-formed record line followed
by one label line for it. -/
def linesW : List String :=
  ["|Record:|abc||(tag: v1.0)|2020-01-01", "@@@git2dot-label@@@:|abc|hello"]

/-- Witness for C9: on a contract-conforming input with one record whose
date parses, the phase completes with a non-empty store. -/
theorem C9_witness :
    (∀ line ∈ linesW, recordWf line = true) ∧
    labelOkFrom "@@@git2dot-label@@@:" false linesW = true ∧
    ∃ st, parseRecords dateParserW "@@@git2dot-label@@@:" 32 linesW = some st ∧ st ≠ [] := by
  refine ⟨by decide, by decide, ?_⟩
  exact (C9_parse_fatal dateParserW "@@@git2dot-label@@@:" 32 linesW
    (by decide) (by decide)).2.2 (by decide) ⟨"|Record:|abc||(tag: v1.0)|2020-01-01", by decide, by decide⟩

/- ---------------------------------------------------------------------
Chain squashing (find_chain_head, find_chain_tail and Node.squash,
git2dot.py lines 88-159).

The chain walks follow object references; in the cid-based heap model
every reference is dereferenced through the store, which under the
Nodup-cids invariant selects the same object.  Python object identity
comparisons (clast != tail) become cid comparisons.  All loops take
fuel; none covers divergence (a cyclic chain), the KeyError of a parent
lookup, and the IndexError of m_children[0] on a childless node.
--------------------------------------------------------------------- -/

/-- The while loop of find_chain_head (lines 96-103): walk parent links
while the next node exists and is squashable, remembering the last
squashable node visited. -/
def headLoop (s : Store) : Nat → Option String → Option Node → Option (Option String)
  | 0, _, _ => none
  | fuel + 1, acc, chainNext =>
    match chainNext with
    | none => some acc
    | some nd =>
      if is_squashable nd then
        match nd.parents with
        | [] => headLoop s fuel (some nd.cid) none
        | pcid :: _ =>
          match mapLookup s pcid with
          | none => none
          | some pnd => headLoop s fuel (some nd.cid) (some pnd)
      else some acc

/-- Node.find_chain_head (lines 88-103): None for a non-squashable
node, the cached head when already stamped, otherwise the parent walk. -/
def find_chain_head (s : Store) (fuel : Nat) (nd : Node) : Option (Option String) :=
  if is_squashable nd = false then some none
  else
    match nd.chainHead with
    | some h => some (some h)
    | none => headLoop s fuel none (some nd)

/-- The while loop of find_chain_tail (lines 111-120): walk the first
child link while the next node exists and is squashable. -/
def tailLoop (s : Store) : Nat → Option String → Option Node → Option (Option String)
  | 0, _, _ => none
  | fuel + 1, acc, chainNext =>
    match chainNext with
    | none => some acc
    | some nd =>
      if is_squashable nd then
        match nd.children with
        | [] => tailLoop s fuel (some nd.cid) none
        | ccid :: _ =>
          match mapLookup s ccid with
          | none => none
          | some cnd => tailLoop s fuel (some nd.cid) (some cnd)
      else some acc

/-- Node.find_chain_tail (lines 105-120). -/
def find_chain_tail (s : Store) (fuel : Nat) (nd : Node) : Option (Option String) :=
  if is_squashable nd = false then some none
  else
    match nd.chainTail with
    | some t => some (some t)
    | none => tailLoop s fuel none (some nd)

/-- Phase 1 of Node.squash (lines 127-131): the update dictionary keyed
by head cid, in insertion order (re-insertion of a present key changes
nothing because the value is the same head object). -/
def collectHeads (s : Store) (fuel : Nat) : List Node → List String → Option (List String)
  | [], acc => some acc
  | nd :: rest, acc =>
    match find_chain_head s fuel nd with
    | none => none
    | some none => collectHeads s fuel rest acc
    | some (some hcid) =>
      collectHeads s fuel rest (if acc.contains hcid then acc else acc ++ [hcid])

/-- The distance loop of Node.squash (lines 136-142): count hops while
clast has not reached the tail; reading m_children[0] of a childless
node is an IndexError. -/
def distLoop (s : Store) : Nat → String → String → String → Nat → Option Nat
  | 0, _, _, _, _ => none
  | fuel + 1, clast, cnext, tailCid, distance =>
    if clast = tailCid then some distance
    else
      match mapLookup s cnext with
      | none => none
      | some cn =>
        match cn.children with
        | [] => none
        | ccid :: _ => distLoop s fuel cnext ccid tailCid (distance + 1)

/-- One stamping write pair (lines 147-156): assignment through
Node.m_list at the stored index and through Node.m_map at the cid.  An
out-of-range index or an absent map key raises. -/
def stampOne (s : Store) (idx : Nat) (cid h t : String) (sz : Int) : Option Store :=
  match s.get? idx with
  | none => none
  | some nd =>
    let s1 := s.set idx
      { nd with chainHead := some h, chainTail := some t, chainSize := sz }
    if mapMem s1 cid then
      some (s1.map (fun m =>
        if m.cid = cid then { m with chainHead := some h, chainTail := some t, chainSize := sz }
        else m))
    else none

/-- The stamping loop of Node.squash (lines 144-159): stamp cnext with
head, tail and distance, then advance through the first child until
clast reaches the tail. -/
def stampLoop (s : Store) : Nat → String → String → String → String → Int → Option Store
  | 0, _, _, _, _, _ => none
  | fuel + 1, clast, cnext, tailCid, headCid, dist =>
    if clast = tailCid then some s
    else
      match mapLookup s cnext with
      | none => none
      | some cn =>
        match stampOne s cn.idx cn.cid headCid tailCid dist with
        | none => none
        | some s2 =>
          match cn.children with
          | [] => none
          | ccid :: _ => stampLoop s2 fuel cn.cid ccid tailCid headCid dist

/-- Phase 2 of Node.squash for one head (lines 133-159): fetch the head
object, compute its chain tail, count the distance, then stamp the
chain.  A find_chain_tail result of None would make the while condition
clast != tail permanently true, so it is a non-terminating execution. -/
def squashHead (s : Store) (fuel : Nat) (hcid : String) : Option Store :=
  match mapLookup s hcid with
  | none => none
  | some head =>
    match find_chain_tail s fuel head with
    | none => none
    | some none => none
    | some (some tailCid) =>
      match distLoop s fuel head.cid head.cid tailCid 0 with
      | none => none
      | some distance =>
        stampLoop s fuel head.cid head.cid tailCid hcid (Int.ofNat distance)

/-- Phase 2 of Node.squash over the collected heads in order. -/
def squashHeads (fuel : Nat) : List String → Store → Option Store
  | [], s => some s
  | h :: rest, s =>
    match squashHead s fuel h with
    | none => none
    | some s2 => squashHeads fuel rest s2

/-- Node.squash (lines 122-159): collect the chain heads over the node
list, then stamp every chain. -/
def squash (fuel : Nat) (s : Store) : Option Store :=
  match collectHeads s fuel s [] with
  | none => none
  | some heads => squashHeads fuel heads s

/- ---------------------------------------------------------------------
Children derivation (parse lines 530-537).
--------------------------------------------------------------------- -/

/-- One append m_map[p].m_children.append(nd); an absent parent cid is
a KeyError. -/
def addChild (s : Store) (p childCid : String) : Option Store :=
  if mapMem s p then
    some (s.map (fun m =>
      if m.cid = p then { m with children := m.children ++ [childCid] } else m))
  else none

/-- The derivation loop: for nd in m_list, for p in nd.m_parents,
append nd to the children of the map binding of p.  Parent lists are
never modified by the pass, so iterating over the pairs extracted from
the initial store is the iteration of the source. -/
def addChildren (ps : List (String × List String)) (s : Store) : Option Store :=
  match ps with
  | [] => some s
  | (cid, parents) :: rest =>
    match parents.foldlM (fun cur p => addChild cur p cid) s with
    | none => none
    | some s2 => addChildren rest s2

/-- The children-derivation pass. -/
def deriveChildren (s : Store) : Option Store :=
  addChildren (s.map (fun nd => (nd.cid, nd.parents))) s


/- ---------------------------------------------------------------------
Structural lemmas: squash writes only the chain fields.
--------------------------------------------------------------------- -/

/-- The fields of a node that Node.squash never writes. -/
def skel (nd : Node) :
    String × List String × List String × List String × List String × Nat :=
  (nd.cid, nd.parents, nd.children, nd.branches, nd.tags, nd.idx)

theorem set_self_of_get? {α : Type} (l : List α) (i : Nat) (a : α)
    (h : l.get? i = some a) : l.set i a = l := by
  apply List.ext_get?
  intro n
  by_cases hin : i = n
  · subst hin
    rw [List.get?_set_eq, h]
    have hlt : i < l.length := (List.get?_eq_some.mp h).1
    simp [hlt]
  · rw [List.get?_set_ne _ _ hin]

theorem mapLookup_map_cidpres (f : Node → Node) (hf : ∀ nd, (f nd).cid = nd.cid)
    (s : Store) (c : String) :
    mapLookup (s.map f) c = (mapLookup s c).map f := by
  unfold mapLookup
  induction s with
  | nil => rfl
  | cons x xs ih =>
    simp only [List.map_cons, List.find?_cons]
    rw [hf x]
    cases h : (decide (x.cid = c)) with
    | true => rfl
    | false => exact ih

theorem stampOne_skel (s : Store) (idx : Nat) (cid h t : String) (sz : Int) (s2 : Store)
    (hrun : stampOne s idx cid h t sz = some s2) :
    s2.map skel = s.map skel := by
  unfold stampOne at hrun
  cases hget : s.get? idx with
  | none => rw [hget] at hrun; exact Option.noConfusion hrun
  | some nd =>
    rw [hget] at hrun
    dsimp only at hrun
    by_cases hm : mapMem (s.set idx
        { nd with chainHead := some h, chainTail := some t, chainSize := sz }) cid = true
    · rw [if_pos hm] at hrun
      injection hrun with hrun
      subst hrun
      have hset : (s.set idx
          { nd with chainHead := some h, chainTail := some t, chainSize := sz }).map skel =
          s.map skel := by
        rw [List.map_set]
        have hskel : skel { nd with chainHead := some h, chainTail := some t, chainSize := sz } =
            skel nd := rfl
        rw [hskel]
        apply set_self_of_get?
        rw [List.get?_map, hget]
        rfl
      rw [List.map_map]
      have hcomp : (skel ∘ fun m => if m.cid = cid then
          { m with chainHead := some h, chainTail := some t, chainSize := sz } else m) = skel := by
        funext m
        simp only [Function.comp]
        by_cases hc : m.cid = cid
        · rw [if_pos hc]
          rfl
        · rw [if_neg hc]
      rw [hcomp]
      exact hset
    · rw [if_neg hm] at hrun
      exact Option.noConfusion hrun

theorem stampLoop_skel (fuel : Nat) :
    ∀ (s : Store) (clast cnext tailCid headCid : String) (dist : Int) (s2 : Store),
      stampLoop s fuel clast cnext tailCid headCid dist = some s2 →
      s2.map skel = s.map skel := by
  induction fuel with
  | zero =>
    intro s clast cnext tailCid headCid dist s2 h
    exact Option.noConfusion h
  | succ fuel ih =>
    intro s clast cnext tailCid headCid dist s2 h
    unfold stampLoop at h
    by_cases hcl : clast = tailCid
    · rw [if_pos hcl] at h
      injection h with h
      rw [h]
    · rw [if_neg hcl] at h
      cases hl : mapLookup s cnext with
      | none => rw [hl] at h; exact Option.noConfusion h
      | some cn =>
        rw [hl] at h
        dsimp only at h
        cases hs : stampOne s cn.idx cn.cid headCid tailCid dist with
        | none => rw [hs] at h; exact Option.noConfusion h
        | some smid =>
          rw [hs] at h
          dsimp only at h
          cases hch : cn.children with
          | nil => rw [hch] at h; exact Option.noConfusion h
          | cons ccid rest =>
            rw [hch] at h
            have h1 := stampOne_skel s cn.idx cn.cid headCid tailCid dist smid hs
            have h2 := ih smid cn.cid ccid tailCid headCid dist s2 h
            rw [h2, h1]

theorem squashHead_skel (s : Store) (fuel : Nat) (hcid : String) (s2 : Store)
    (hrun : squashHead s fuel hcid = some s2) : s2.map skel = s.map skel := by
  unfold squashHead at hrun
  cases h1 : mapLookup s hcid with
  | none => rw [h1] at hrun; exact Option.noConfusion hrun
  | some head =>
    rw [h1] at hrun
    dsimp only at hrun
    cases h2 : find_chain_tail s fuel head with
    | none => rw [h2] at hrun; exact Option.noConfusion hrun
    | some tl =>
      rw [h2] at hrun
      cases tl with
      | none => exact Option.noConfusion hrun
      | some tailCid =>
        dsimp only at hrun
        cases h3 : distLoop s fuel head.cid head.cid tailCid 0 with
        | none => rw [h3] at hrun; exact Option.noConfusion hrun
        | some distance =>
          rw [h3] at hrun
          dsimp only at hrun
          exact stampLoop_skel fuel s head.cid head.cid tailCid hcid (Int.ofNat distance) s2 hrun

theorem squashHeads_skel (fuel : Nat) :
    ∀ (heads : List String) (s s2 : Store),
      squashHeads fuel heads s = some s2 → s2.map skel = s.map skel := by
  intro heads
  induction heads with
  | nil =>
    intro s s2 h
    injection h with h
    rw [h]
  | cons hd rest ih =>
    intro s s2 h
    unfold squashHeads at h
    cases h1 : squashHead s fuel hd with
    | none => rw [h1] at h; exact Option.noConfusion h
    | some smid =>
      rw [h1] at h
      dsimp only at h
      rw [ih smid s2 h, squashHead_skel s fuel hd smid h1]

theorem squash_skel (fuel : Nat) (s s2 : Store) (hrun : squash fuel s = some s2) :
    s2.map skel = s.map skel := by
  unfold squash at hrun
  cases h1 : collectHeads s fuel s [] with
  | none => rw [h1] at hrun; exact Option.noConfusion hrun
  | some heads =>
    rw [h1] at hrun
    exact squashHeads_skel fuel heads s s2 hrun

/- ---------------------------------------------------------------------
Characterization of the children-derivation pass.
--------------------------------------------------------------------- -/

/-- Children appended to the node with the given cid by the derivation
loop: one entry per occurrence of the cid in a parent list, in
iteration order. -/
def childExtra (ps : List (String × List String)) (c : String) : List String :=
  (ps.map (fun pr => ((pr.2.filter (fun p => p = c)).map (fun _ => pr.1)))).flatten

theorem addChild_lookup (s : Store) (p ccid : String) (s2 : Store)
    (h : addChild s p ccid = some s2) (c : String) :
    mapLookup s2 c = (mapLookup s c).map
      (fun m => if m.cid = p then { m with children := m.children ++ [ccid] } else m) := by
  unfold addChild at h
  by_cases hm : mapMem s p = true
  · rw [if_pos hm] at h
    injection h with h
    subst h
    exact mapLookup_map_cidpres _ (fun nd => by by_cases hc : nd.cid = p <;> simp [hc]) s c
  · rw [if_neg hm] at h
    exact Option.noConfusion h

theorem parentsFold_lookup (ccid : String) :
    ∀ (parents : List String) (s s2 : Store),
      parents.foldlM (fun cur p => addChild cur p ccid) s = some s2 →
      ∀ c, mapLookup s2 c = (mapLookup s c).map
        (fun m1 => { m1 with children :=
          m1.children ++ (parents.filter (fun p => p = c)).map (fun _ => ccid) }) := by
  intro parents
  induction parents with
  | nil =>
    intro s s2 h c
    injection h with h
    subst h
    cases hl : mapLookup s c with
    | none => rfl
    | some m1 => simp
  | cons p rest ih =>
    intro s s2 h c
    rw [List.foldlM_cons] at h
    cases ha : addChild s p ccid with
    | none => rw [ha] at h; exact Option.noConfusion h
    | some sp =>
      rw [ha] at h
      have hstep := addChild_lookup s p ccid sp ha c
      have hrest := ih sp s2 h c
      rw [hrest, hstep]
      cases hl : mapLookup s c with
      | none => rfl
      | some m1 =>
        have hcid : m1.cid = c := (mapLookup_spec s c m1 hl).2
        by_cases hpc : p = c
        · have hcp : m1.cid = p := by rw [hcid, hpc]
          simp [Option.map_some', hcp, List.filter_cons, hpc, List.append_assoc]
        · have hcp : ¬ m1.cid = p := by rw [hcid]; exact fun hx => hpc hx.symm
          simp [Option.map_some', hcp, List.filter_cons, hpc]

theorem addChildren_lookup :
    ∀ (ps : List (String × List String)) (s s2 : Store),
      addChildren ps s = some s2 →
      ∀ c, mapLookup s2 c = (mapLookup s c).map
        (fun m1 => { m1 with children := m1.children ++ childExtra ps c }) := by
  intro ps
  induction ps with
  | nil =>
    intro s s2 h c
    injection h with h
    subst h
    cases hl : mapLookup s c with
    | none => rfl
    | some m1 => simp [childExtra]
  | cons pr rest ih =>
    intro s s2 h c
    unfold addChildren at h
    cases hf : pr.2.foldlM (fun cur p => addChild cur p pr.1) s with
    | none =>
      obtain ⟨prc, prp⟩ := pr
      rw [hf] at h
      exact Option.noConfusion h
    | some sp =>
      obtain ⟨prc, prp⟩ := pr
      rw [hf] at h
      dsimp only at h
      have hstep := parentsFold_lookup prc prp s sp hf c
      have hrest := ih sp s2 h c
      rw [hrest, hstep]
      cases hl : mapLookup s c with
      | none => rfl
      | some m1 =>
        simp [Option.map_some', childExtra, List.append_assoc]

theorem addChildren_mapcid :
    ∀ (ps : List (String × List String)) (s s2 : Store),
      addChildren ps s = some s2 → s2.map Node.cid = s.map Node.cid := by
  have haddChild : ∀ (s sp : Store) (p ccid : String), addChild s p ccid = some sp →
      sp.map Node.cid = s.map Node.cid := by
    intro s sp p ccid h
    unfold addChild at h
    by_cases hm : mapMem s p = true
    · rw [if_pos hm] at h
      injection h with h
      subst h
      rw [List.map_map]
      apply List.map_congr_left
      intro nd _
      show Node.cid (if nd.cid = p then { nd with children := nd.children ++ [ccid] } else nd) =
        Node.cid nd
      by_cases hc : nd.cid = p
      · rw [if_pos hc]
      · rw [if_neg hc]
    · rw [if_neg hm] at h
      exact Option.noConfusion h
  have hfold : ∀ (parents : List String) (ccid : String) (s s2 : Store),
      parents.foldlM (fun cur p => addChild cur p ccid) s = some s2 →
      s2.map Node.cid = s.map Node.cid := by
    intro parents
    induction parents with
    | nil =>
      intro ccid s s2 h
      injection h with h
      subst h
      rfl
    | cons p rest ih =>
      intro ccid s s2 h
      rw [List.foldlM_cons] at h
      cases ha : addChild s p ccid with
      | none => rw [ha] at h; exact Option.noConfusion h
      | some sp =>
        rw [ha] at h
        rw [ih ccid sp s2 h, haddChild s sp p ccid ha]
  intro ps
  induction ps with
  | nil =>
    intro s s2 h
    injection h with h
    subst h
    rfl
  | cons pr rest ih =>
    intro s s2 h
    unfold addChildren at h
    cases hf : pr.2.foldlM (fun cur p => addChild cur p pr.1) s with
    | none =>
      obtain ⟨prc, prp⟩ := pr
      rw [hf] at h
      exact Option.noConfusion h
    | some sp =>
      obtain ⟨prc, prp⟩ := pr
      rw [hf] at h
      dsimp only at h
      rw [ih sp s2 h, hfold prp prc s sp hf]

theorem mem_lookup_self (s : Store) (hnodup : (s.map Node.cid).Nodup)
    (nd : Node) (hmem : nd ∈ s) : mapLookup s nd.cid = some nd := by
  induction s with
  | nil => exact absurd hmem (List.not_mem_nil nd)
  | cons x xs ih =>
    rw [List.map_cons, List.nodup_cons] at hnodup
    rcases List.mem_cons.mp hmem with heq | hmem2
    · subst heq
      unfold mapLookup
      rw [List.find?_cons]
      simp
    · unfold mapLookup
      rw [List.find?_cons]
      have hc : ¬ x.cid = nd.cid := by
        intro hx
        exact hnodup.1 (hx ▸ List.mem_map_of_mem Node.cid hmem2)
      have hdec : (decide (x.cid = nd.cid)) = false := decide_eq_false hc
      rw [hdec]
      exact ih hnodup.2 hmem2

theorem mem_childExtra (ps : List (String × List String)) (c cp : String) :
    cp ∈ childExtra ps c ↔ ∃ pr ∈ ps, pr.1 = cp ∧ c ∈ pr.2 := by
  unfold childExtra
  rw [List.mem_flatten]
  constructor
  · rintro ⟨l, hl, hcl⟩
    rcases List.mem_map.mp hl with ⟨pr, hpr, hleq⟩
    subst hleq
    rcases List.mem_map.mp hcl with ⟨p, hp, hpc⟩
    rcases List.mem_filter.mp hp with ⟨hpm, hpd⟩
    have hpeq : p = c := by simpa using hpd
    exact ⟨pr, hpr, hpc, hpeq ▸ hpm⟩
  · rintro ⟨pr, hpr, h1, h2⟩
    refine ⟨(pr.2.filter (fun p => p = c)).map (fun _ => pr.1),
      List.mem_map_of_mem _ hpr, ?_⟩
    rw [List.mem_map]
    exact ⟨c, List.mem_filter.mpr ⟨h2, by simp⟩, h1⟩

theorem addChildren_corr (ps : List (String × List String)) (s s1 : Store)
    (hnodup : (s.map Node.cid).Nodup) (hadd : addChildren ps s = some s1) :
    (∀ n0 ∈ s, ∃ n1 ∈ s1, n1.cid = n0.cid ∧ n1.parents = n0.parents ∧
      n1.children = n0.children ++ childExtra ps n0.cid) ∧
    (∀ n1 ∈ s1, ∃ n0 ∈ s, n0.cid = n1.cid ∧ n0.parents = n1.parents ∧
      n1.children = n0.children ++ childExtra ps n1.cid) := by
  have hcid : s1.map Node.cid = s.map Node.cid := addChildren_mapcid ps s s1 hadd
  have hnodup1 : (s1.map Node.cid).Nodup := by rw [hcid]; exact hnodup
  constructor
  · intro n0 h0
    have hl0 : mapLookup s n0.cid = some n0 := mem_lookup_self s hnodup n0 h0
    have hl1 := addChildren_lookup ps s s1 hadd n0.cid
    rw [hl0] at hl1
    simp only [Option.map_some'] at hl1
    exact ⟨_, (mapLookup_spec _ _ _ hl1).1, rfl, rfl, rfl⟩
  · intro n1 h1
    have hl1 : mapLookup s1 n1.cid = some n1 := mem_lookup_self s1 hnodup1 n1 h1
    have heq := addChildren_lookup ps s s1 hadd n1.cid
    rw [hl1] at heq
    cases hl0 : mapLookup s n1.cid with
    | none => rw [hl0] at heq; exact Option.noConfusion heq
    | some n0 =>
      rw [hl0] at heq
      simp only [Option.map_some'] at heq
      injection heq with heq
      refine ⟨n0, (mapLookup_spec s n1.cid n0 hl0).1,
        (mapLookup_spec s n1.cid n0 hl0).2, ?_, ?_⟩
      · rw [heq]
      · conv_lhs => rw [heq]

theorem map_skel_mem (s t : Store) (h : s.map skel = t.map skel) (m : Node)
    (hm : m ∈ s) :
    ∃ m1 ∈ t, m1.cid = m.cid ∧ m1.parents = m.parents ∧ m1.children = m.children := by
  have hsk : skel m ∈ t.map skel := by
    rw [← h]
    exact List.mem_map_of_mem skel hm
  rcases List.mem_map.mp hsk with ⟨m1, hm1, hskeq⟩
  unfold skel at hskeq
  exact ⟨m1, hm1, congrArg (fun x => x.1) hskeq, congrArg (fun x => x.2.1) hskeq,
    congrArg (fun x => x.2.2.1) hskeq⟩

/-- C5: immediately after the children-derivation pass every node's child
list holds exactly the ids of the nodes that list it among their parents,
and Node.squash preserves the skeleton (cid, parents, children, branches,
tags, idx) of every entry, so the same adjacency property holds after a
completed squash.  Hypotheses: unique commit ids, child lists still empty
going into the derivation (the pipeline derives children exactly once,
after the prune passes, whose fix-ups never fill an empty child list),
and both passes complete. -/
theorem C5_children_adjacency (s s1 s2 : Store) (fuel : Nat)
    (hnodup : (s.map Node.cid).Nodup)
    (hch0 : ∀ nd ∈ s, nd.children = [])
    (hder : deriveChildren s = some s1)
    (hsq : squash fuel s1 = some s2) :
    (∀ m ∈ s1, ∀ c, c ∈ m.children ↔ ∃ n ∈ s1, n.cid = c ∧ m.cid ∈ n.parents) ∧
    s2.map skel = s1.map skel ∧
    (∀ m ∈ s2, ∀ c, c ∈ m.children ↔ ∃ n ∈ s2, n.cid = c ∧ m.cid ∈ n.parents) := by
  unfold deriveChildren at hder
  have hcorr := addChildren_corr (s.map (fun nd => (nd.cid, nd.parents))) s s1 hnodup hder
  have hadj1 : ∀ m ∈ s1, ∀ c, c ∈ m.children ↔
      ∃ n ∈ s1, n.cid = c ∧ m.cid ∈ n.parents := by
    intro m hm c
    rcases hcorr.2 m hm with ⟨m0, hm0, hcid0, hpar0, hch⟩
    rw [hch, hch0 m0 hm0, List.nil_append, mem_childExtra]
    constructor
    · rintro ⟨pr, hpr, hpr1, hpr2⟩
      rcases List.mem_map.mp hpr with ⟨n0, hn0, hn0eq⟩
      subst hn0eq
      rcases hcorr.1 n0 hn0 with ⟨n1, hn1, hcidn, hparn, _⟩
      refine ⟨n1, hn1, ?_, ?_⟩
      · rw [hcidn]; exact hpr1
      · rw [hparn]; exact hpr2
    · rintro ⟨n1, hn1, hcidn, hparn⟩
      rcases hcorr.2 n1 hn1 with ⟨n0, hn0, hcid0n, hpar0n, _⟩
      refine ⟨(n0.cid, n0.parents), List.mem_map_of_mem _ hn0, ?_, ?_⟩
      · show n0.cid = c
        rw [hcid0n, hcidn]
      · show m.cid ∈ n0.parents
        rw [hpar0n]
        exact hparn
  have hsk := squash_skel fuel s1 s2 hsq
  refine ⟨hadj1, hsk, ?_⟩
  intro m hm c
  rcases map_skel_mem s2 s1 hsk m hm with ⟨m1, hm1, hcid1, hpar1, hch1⟩
  rw [← hch1, ← hcid1, hadj1 m1 hm1 c]
  constructor
  · rintro ⟨n1, hn1, hcn, hpn⟩
    rcases map_skel_mem s1 s2 hsk.symm n1 hn1 with ⟨n2, hn2, hc2, hp2, _⟩
    refine ⟨n2, hn2, ?_, ?_⟩
    · rw [hc2]; exact hcn
    · rw [hp2]; exact hpn
  · rintro ⟨n2, hn2, hcn, hpn⟩
    rcases map_skel_mem s2 s1 hsk n2 hn2 with ⟨n1, hn1, hc1, hp1, _⟩
    refine ⟨n1, hn1, ?_, ?_⟩
    · rw [hc1]; exact hcn
    · rw [hp1]; exact hpn

def ndG : Node :=
  { cid := "g", parents := [], branches := ["main"], tags := [], children := [],
    choose := true, chainHead := none, chainTail := none, chainSize := -1,
    idx := 0, dts := ⟨2021, 3, 1, 0, 0, 0⟩, extra := [] }

def ndH : Node :=
  { cid := "h", parents := ["g"], branches := [], tags := [], children := [],
    choose := true, chainHead := none, chainTail := none, chainSize := -1,
    idx := 1, dts := ⟨2021, 3, 2, 0, 0, 0⟩, extra := [] }

def sG5 : Store := [ndG, ndH]

def sG5d : Store := [{ ndG with children := ["h"] }, ndH]

theorem C5_witness :
    (∀ m ∈ sG5d, ∀ c, c ∈ m.children ↔ ∃ n ∈ sG5d, n.cid = c ∧ m.cid ∈ n.parents) ∧
    sG5d.map skel = sG5d.map skel ∧
    (∀ m ∈ sG5d, ∀ c, c ∈ m.children ↔ ∃ n ∈ sG5d, n.cid = c ∧ m.cid ∈ n.parents) :=
  C5_children_adjacency sG5 sG5d sG5d 10 (by decide) (by decide) (by decide) (by decide)

/- ---------------------------------------------------------------------
Chain structure underlying Node.squash: a chain is the trace of the
deterministic first-child walk over squashable nodes, bounded above by a
node with no parent or a non-squashable parent and bounded below by a
node with no child or a non-squashable first child.  A parent reference
absent from the map makes find_chain_head raise KeyError, so completed
executions only meet present boundary parents.
--------------------------------------------------------------------- -/

/-- The upper boundary condition of a chain head: no parent, or a first
parent that is present and not squashable. -/
def headBoundB (s : Store) (nd : Node) : Bool :=
  match nd.parents with
  | [] => true
  | p :: _ =>
    match mapLookup s p with
    | none => false
    | some pnd => !(is_squashable pnd)

/-- The lower boundary condition of a chain tail: no child, or a first
child that is present and not squashable. -/
def tailBoundB (s : Store) (nd : Node) : Bool :=
  match nd.children with
  | [] => true
  | c :: _ =>
    match mapLookup s c with
    | none => false
    | some cnd => !(is_squashable cnd)

/-- A linked run of squashable store nodes: each node's child list is
exactly its successor and each successor's parent list is exactly its
predecessor. -/
def linkedB (s : Store) : List Node → Bool
  | [] => true
  | [nd] => decide (nd ∈ s) && is_squashable nd
  | nd :: nd2 :: rest =>
    decide (nd ∈ s) && is_squashable nd && decide (nd.children = [nd2.cid]) &&
      decide (nd2.parents = [nd.cid]) && linkedB s (nd2 :: rest)

/-- The stamped copy of a node (lines 147-156 write these three fields). -/
def stampNode (nd : Node) (h t : String) (sz : Int) : Node :=
  { nd with chainHead := some h, chainTail := some t, chainSize := sz }

/-- Stamp every node whose cid lies in the given list. -/
def stampF (cs : List String) (h t : String) (sz : Int) (m : Node) : Node :=
  if m.cid ∈ cs then stampNode m h t sz else m

/-- Pointwise preservation of the fields Node.squash never writes. -/
def skelPres (F : Node → Node) : Prop :=
  ∀ m, skel (F m) = skel m

theorem skel_parts {a b : Node} (h : skel a = skel b) :
    a.cid = b.cid ∧ a.parents = b.parents ∧ a.children = b.children ∧
      a.branches = b.branches ∧ a.tags = b.tags ∧ a.idx = b.idx := by
  unfold skel at h
  exact ⟨congrArg (fun x => x.1) h, congrArg (fun x => x.2.1) h,
    congrArg (fun x => x.2.2.1) h, congrArg (fun x => x.2.2.2.1) h,
    congrArg (fun x => x.2.2.2.2.1) h, congrArg (fun x => x.2.2.2.2.2) h⟩

theorem stampF_skelPres (cs : List String) (h t : String) (sz : Int) :
    skelPres (stampF cs h t sz) := by
  intro m
  unfold stampF stampNode
  by_cases hc : m.cid ∈ cs
  · rw [if_pos hc]
    rfl
  · rw [if_neg hc]

theorem skelPres_comp {F G : Node → Node} (hF : skelPres F) (hG : skelPres G) :
    skelPres (F ∘ G) := by
  intro m
  show skel (F (G m)) = skel m
  rw [hF (G m), hG m]

theorem skelPres_id : skelPres id := fun _ => rfl

theorem is_squashable_skel {a b : Node} (h : skel a = skel b) :
    is_squashable a = is_squashable b := by
  obtain ⟨_, hp, hc, hb, ht, _⟩ := skel_parts h
  unfold is_squashable
  rw [hp, hc, hb, ht]

theorem squashable_bounds (nd : Node) (h : is_squashable nd = true) :
    nd.parents.length ≤ 1 ∧ nd.children.length ≤ 1 ∧
      nd.branches = [] ∧ nd.tags = [] := by
  unfold is_squashable at h
  by_cases hc : (nd.branches.length > 0 || nd.tags.length > 0
      || nd.parents.length > 1 || nd.children.length > 1) = true
  · rw [if_pos hc] at h
    exact Bool.noConfusion h
  · simp only [Bool.or_eq_true, not_or, gt_iff_lt, decide_eq_true_eq] at hc
    obtain ⟨⟨⟨hb, ht⟩, hp⟩, hch⟩ := hc
    refine ⟨Nat.le_of_not_lt hp, Nat.le_of_not_lt hch, ?_, ?_⟩
    · exact List.eq_nil_of_length_eq_zero (Nat.eq_zero_of_not_pos hb)
    · exact List.eq_nil_of_length_eq_zero (Nat.eq_zero_of_not_pos ht)

theorem cid_inj (s : Store) (hnodup : (s.map Node.cid).Nodup)
    {a b : Node} (ha : a ∈ s) (hb : b ∈ s) (hc : a.cid = b.cid) : a = b := by
  have h1 := mem_lookup_self s hnodup a ha
  have h2 := mem_lookup_self s hnodup b hb
  rw [hc] at h1
  rw [h1] at h2
  injection h2

theorem map_cid_of_skelPres (s : Store) (F : Node → Node) (hF : skelPres F) :
    (s.map F).map Node.cid = s.map Node.cid := by
  rw [List.map_map]
  apply List.map_congr_left
  intro nd _
  exact (skel_parts (hF nd)).1

theorem mapLookup_skelPres (s : Store) (F : Node → Node) (hF : skelPres F)
    (c : String) : mapLookup (s.map F) c = (mapLookup s c).map F :=
  mapLookup_map_cidpres F (fun nd => (skel_parts (hF nd)).1) s c

theorem get?_map_skelPres (s : Store) (F : Node → Node) (i : Nat) :
    (s.map F).get? i = (s.get? i).map F :=
  List.get?_map F s i

/- Walk invariance: the chain walks read only skeleton fields, so they
compute identical results on a store transformed by any skeleton
preserving function. -/

theorem headLoop_succ (s : Store) (fuel : Nat) (acc : Option String) (nd : Node) :
    headLoop s (fuel + 1) acc (some nd) =
      if is_squashable nd then
        match nd.parents with
        | [] => headLoop s fuel (some nd.cid) none
        | pcid :: _ =>
          match mapLookup s pcid with
          | none => none
          | some pnd => headLoop s fuel (some nd.cid) (some pnd)
      else some acc := rfl

theorem tailLoop_succ (s : Store) (fuel : Nat) (acc : Option String) (nd : Node) :
    tailLoop s (fuel + 1) acc (some nd) =
      if is_squashable nd then
        match nd.children with
        | [] => tailLoop s fuel (some nd.cid) none
        | ccid :: _ =>
          match mapLookup s ccid with
          | none => none
          | some cnd => tailLoop s fuel (some nd.cid) (some cnd)
      else some acc := rfl

theorem distLoop_succ (s : Store) (fuel : Nat) (clast cnext tailCid : String)
    (acc : Nat) :
    distLoop s (fuel + 1) clast cnext tailCid acc =
      if clast = tailCid then some acc
      else
        match mapLookup s cnext with
        | none => none
        | some cn =>
          match cn.children with
          | [] => none
          | ccid :: _ => distLoop s fuel cnext ccid tailCid (acc + 1) := rfl

theorem stampLoop_succ (s : Store) (fuel : Nat) (clast cnext tailCid headCid : String)
    (dist : Int) :
    stampLoop s (fuel + 1) clast cnext tailCid headCid dist =
      if clast = tailCid then some s
      else
        match mapLookup s cnext with
        | none => none
        | some cn =>
          match stampOne s cn.idx cn.cid headCid tailCid dist with
          | none => none
          | some s2 =>
            match cn.children with
            | [] => none
            | ccid :: _ => stampLoop s2 fuel cn.cid ccid tailCid headCid dist := rfl

theorem headLoop_inv (s : Store) (F : Node → Node) (hF : skelPres F) :
    ∀ (fuel : Nat) (acc : Option String) (onext : Option Node),
      headLoop (s.map F) fuel acc (onext.map F) = headLoop s fuel acc onext := by
  intro fuel
  induction fuel with
  | zero => intro acc onext; rfl
  | succ fuel ih =>
    intro acc onext
    cases onext with
    | none => rfl
    | some nd =>
      show headLoop (s.map F) (fuel + 1) acc (some (F nd)) = _
      rw [headLoop_succ, headLoop_succ, is_squashable_skel (hF nd),
        (skel_parts (hF nd)).2.1, (skel_parts (hF nd)).1]
      cases hsq : is_squashable nd with
      | false => rfl
      | true =>
        rw [if_pos rfl, if_pos rfl]
        cases hp : nd.parents with
        | nil => exact ih (some nd.cid) none
        | cons p rest =>
          dsimp only
          rw [mapLookup_skelPres s F hF p]
          cases hl : mapLookup s p with
          | none => rfl
          | some pnd =>
            dsimp only
            exact ih (some nd.cid) (some pnd)

theorem tailLoop_inv (s : Store) (F : Node → Node) (hF : skelPres F) :
    ∀ (fuel : Nat) (acc : Option String) (onext : Option Node),
      tailLoop (s.map F) fuel acc (onext.map F) = tailLoop s fuel acc onext := by
  intro fuel
  induction fuel with
  | zero => intro acc onext; rfl
  | succ fuel ih =>
    intro acc onext
    cases onext with
    | none => rfl
    | some nd =>
      show tailLoop (s.map F) (fuel + 1) acc (some (F nd)) = _
      rw [tailLoop_succ, tailLoop_succ, is_squashable_skel (hF nd),
        (skel_parts (hF nd)).2.2.1, (skel_parts (hF nd)).1]
      cases hsq : is_squashable nd with
      | false => rfl
      | true =>
        rw [if_pos rfl, if_pos rfl]
        cases hc : nd.children with
        | nil => exact ih (some nd.cid) none
        | cons c rest =>
          dsimp only
          rw [mapLookup_skelPres s F hF c]
          cases hl : mapLookup s c with
          | none => rfl
          | some cnd =>
            dsimp only
            exact ih (some nd.cid) (some cnd)

theorem distLoop_inv (s : Store) (F : Node → Node) (hF : skelPres F) :
    ∀ (fuel : Nat) (clast cnext tailCid : String) (acc : Nat),
      distLoop (s.map F) fuel clast cnext tailCid acc =
        distLoop s fuel clast cnext tailCid acc := by
  intro fuel
  induction fuel with
  | zero => intro clast cnext tailCid acc; rfl
  | succ fuel ih =>
    intro clast cnext tailCid acc
    rw [distLoop_succ, distLoop_succ]
    by_cases hcl : clast = tailCid
    · rw [if_pos hcl, if_pos hcl]
    · rw [if_neg hcl, if_neg hcl, mapLookup_skelPres s F hF cnext]
      cases hl : mapLookup s cnext with
      | none => rfl
      | some cn =>
        rw [Option.map_some']
        dsimp only
        rw [(skel_parts (hF cn)).2.2.1]
        cases hc : cn.children with
        | nil => rfl
        | cons ccid rest =>
          dsimp only
          exact ih cnext ccid tailCid (acc + 1)

/- Chain structure lemmas. -/

/-- A squashable node with the given cid of a true chain head: present,
squashable, upper boundary satisfied. -/
def TrueHead (s : Store) (nd : Node) : Prop :=
  nd ∈ s ∧ is_squashable nd = true ∧ headBoundB s nd = true

/-- The chain discovered for a head node by the first-child walk. -/
def ChainOf (s : Store) (hnd : Node) (P : List Node) : Prop :=
  linkedB s P = true ∧ P.head? = some hnd ∧
    ∃ tnd, P.getLast? = some tnd ∧ tailBoundB s tnd = true

theorem mem_len_le_one {α : Type} (l : List α) (a : α)
    (hlen : l.length ≤ 1) (hmem : a ∈ l) : l = [a] := by
  cases l with
  | nil => exact absurd hmem (List.not_mem_nil a)
  | cons x rest =>
    cases rest with
    | nil =>
      rcases List.mem_singleton.mp hmem with h
      rw [h]
    | cons y rest2 => simp at hlen

theorem linkedB_single_parts {s : Store} {nd : Node}
    (h : linkedB s [nd] = true) : nd ∈ s ∧ is_squashable nd = true := by
  unfold linkedB at h
  simp only [Bool.and_eq_true, decide_eq_true_eq] at h
  exact h

theorem linkedB_cons_parts {s : Store} {nd nd2 : Node} {rest : List Node}
    (h : linkedB s (nd :: nd2 :: rest) = true) :
    nd ∈ s ∧ is_squashable nd = true ∧ nd.children = [nd2.cid] ∧
      nd2.parents = [nd.cid] ∧ linkedB s (nd2 :: rest) = true := by
  unfold linkedB at h
  simp only [Bool.and_eq_true, decide_eq_true_eq] at h
  obtain ⟨⟨⟨⟨h1, h2⟩, h3⟩, h4⟩, h5⟩ := h
  exact ⟨h1, h2, h3, h4, h5⟩

theorem linkedB_single_of {s : Store} {nd : Node}
    (h1 : nd ∈ s) (h2 : is_squashable nd = true) : linkedB s [nd] = true := by
  unfold linkedB
  rw [decide_eq_true h1, h2]
  rfl

theorem linkedB_cons_of {s : Store} {nd nd2 : Node} {rest : List Node}
    (h1 : nd ∈ s) (h2 : is_squashable nd = true) (h3 : nd.children = [nd2.cid])
    (h4 : nd2.parents = [nd.cid]) (h5 : linkedB s (nd2 :: rest) = true) :
    linkedB s (nd :: nd2 :: rest) = true := by
  unfold linkedB
  rw [decide_eq_true h1, h2, decide_eq_true h3, decide_eq_true h4, h5]
  rfl

theorem linked_mem {s : Store} : ∀ {P : List Node},
    linkedB s P = true → ∀ z ∈ P, z ∈ s ∧ is_squashable z = true := by
  intro P
  induction P with
  | nil => intro _ z hz; exact absurd hz (List.not_mem_nil z)
  | cons x rest ih =>
    intro h z hz
    cases rest with
    | nil =>
      rcases List.mem_singleton.mp hz with hzx
      rw [hzx]
      exact linkedB_single_parts h
    | cons y rest2 =>
      obtain ⟨hx, hsq, _, _, h5⟩ := linkedB_cons_parts h
      rcases List.mem_cons.mp hz with hzx | hz2
      · rw [hzx]; exact ⟨hx, hsq⟩
      · exact ih h5 z hz2

theorem linked_cons_tail {s : Store} {x : Node} {l : List Node}
    (h : linkedB s (x :: l) = true) (hne : l ≠ []) : linkedB s l = true := by
  cases l with
  | nil => exact absurd rfl hne
  | cons y l2 => exact (linkedB_cons_parts h).2.2.2.2

theorem linked_tail_pred {s : Store} : ∀ {Pp : List Node} {x : Node},
    linkedB s (x :: Pp) = true → ∀ z ∈ Pp,
      ∃ w, w ∈ (x :: Pp) ∧ w ∈ s ∧ is_squashable w = true ∧
        z.parents = [w.cid] ∧ w.children = [z.cid] := by
  intro Pp
  induction Pp with
  | nil => intro x _ z hz; exact absurd hz (List.not_mem_nil z)
  | cons y rest ih =>
    intro x h z hz
    obtain ⟨hx, hsq, hch, hpar, h5⟩ := linkedB_cons_parts h
    rcases List.mem_cons.mp hz with hzy | hz2
    · subst hzy
      exact ⟨x, List.mem_cons_self x _, hx, hsq, hpar, hch⟩
    · obtain ⟨w, hw1, hw2, hw3, hw4, hw5⟩ := ih h5 z hz2
      exact ⟨w, List.mem_cons_of_mem x hw1, hw2, hw3, hw4, hw5⟩

theorem trueHead_no_pred {s : Store} (hnodup : (s.map Node.cid).Nodup)
    {x : Node} (hx : TrueHead s x) :
    ∀ w, w ∈ s → is_squashable w = true → x.parents = [w.cid] → False := by
  intro w hw hsqw hpar
  obtain ⟨hxs, hxsq, hxb⟩ := hx
  unfold headBoundB at hxb
  rw [hpar] at hxb
  dsimp only at hxb
  rw [mem_lookup_self s hnodup w hw] at hxb
  dsimp only at hxb
  rw [hsqw] at hxb
  exact Bool.noConfusion hxb

theorem linked_head_not_tail {s : Store} {x : Node} {Pp : List Node}
    (h : linkedB s (x :: Pp) = true)
    (hnp : ∀ w, w ∈ s → is_squashable w = true → x.parents = [w.cid] →
      w ∉ (x :: Pp)) : x ∉ Pp := by
  intro hx
  obtain ⟨w, hw1, hw2, hw3, hw4, _⟩ := linked_tail_pred h x hx
  exact hnp w hw2 hw3 hw4 hw1

theorem linked_nodup_cids {s : Store} (hnodup : (s.map Node.cid).Nodup) :
    ∀ {Pp : List Node} {x : Node}, linkedB s (x :: Pp) = true →
      (∀ w, w ∈ s → is_squashable w = true → x.parents = [w.cid] →
        w ∉ (x :: Pp)) →
      ((x :: Pp).map Node.cid).Nodup := by
  intro Pp
  induction Pp with
  | nil =>
    intro x _ _
    simp
  | cons y rest ih =>
    intro x h hnp
    have hxnotin : x ∉ y :: rest := linked_head_not_tail h hnp
    obtain ⟨hx, hsq, hch, hpar, h5⟩ := linkedB_cons_parts h
    rw [List.map_cons, List.nodup_cons]
    constructor
    · intro hcid
      rcases List.mem_map.mp hcid with ⟨z, hz, hzc⟩
      have hz2 := linked_mem h5 z hz
      have : z = x := cid_inj s hnodup hz2.1 hx hzc
      rw [this] at hz
      exact hxnotin hz
    · apply ih h5
      intro w hw hsqw hparw
      have hwx : w = x := by
        have hcp : w.cid = x.cid := by
          have hc2 := hpar
          rw [hparw] at hc2
          injection hc2 with hh
        exact cid_inj s hnodup hw hx hcp
      rw [hwx]
      intro hin
      exact hxnotin hin

theorem trueHead_mem_chain {s : Store} (hnodup : (s.map Node.cid).Nodup)
    {x z : Node} {Pp : List Node} (h : linkedB s (x :: Pp) = true)
    (hz : TrueHead s z) (hmem : z ∈ (x :: Pp)) : z = x := by
  rcases List.mem_cons.mp hmem with hzx | hz2
  · exact hzx
  · obtain ⟨w, _, hw2, hw3, hw4, _⟩ := linked_tail_pred h z hz2
    exact absurd (trueHead_no_pred hnodup hz w hw2 hw3 hw4) (fun f => f)

theorem chains_disjoint {s : Store} (hnodup : (s.map Node.cid).Nodup)
    {x y : Node} {Pp Qp : List Node}
    (hP : linkedB s (x :: Pp) = true) (hQ : linkedB s (y :: Qp) = true)
    (hx : TrueHead s x) (hy : TrueHead s y) (hne : x.cid ≠ y.cid) :
    ∀ z ∈ (x :: Pp), z ∉ (y :: Qp) := by
  have hstart : x ∉ (y :: Qp) := by
    intro hmem
    have := trueHead_mem_chain hnodup hQ hx hmem
    rw [this] at hne
    exact hne rfl
  clear hx
  revert hstart hP
  generalize x = z0
  intro hP hstart
  induction Pp generalizing z0 with
  | nil =>
    intro z hz
    rcases List.mem_singleton.mp hz with h
    rw [h]; exact hstart
  | cons y0 rest ih =>
    intro z hz
    obtain ⟨hz0, hsq0, hch0, hpar0, h5⟩ := linkedB_cons_parts hP
    have hy0 : y0 ∉ (y :: Qp) := by
      intro hy0mem
      rcases List.mem_cons.mp hy0mem with hy0y | hy0tail
      · exact trueHead_no_pred hnodup (hy0y ▸ hy) z0 hz0 hsq0 (hy0y ▸ hpar0)
      · obtain ⟨w, hw1, hw2, _, hw4, _⟩ := linked_tail_pred hQ y0 hy0tail
        have hwz : w = z0 := by
          have hcid : w.cid = z0.cid := by
            rw [hpar0] at hw4
            injection hw4 with hh
            exact hh.symm
          exact cid_inj s hnodup hw2 hz0 hcid
        rw [hwz] at hw1
        exact hstart hw1
    rcases List.mem_cons.mp hz with hzz0 | hztail
    · rw [hzz0]; exact hstart
    · exact ih y0 h5 hy0 z hztail

theorem chain_unique {s : Store} (hnodup : (s.map Node.cid).Nodup) :
    ∀ {P Q : List Node}, linkedB s P = true → linkedB s Q = true →
      P.head? = Q.head? → P ≠ [] → Q ≠ [] →
      (∀ tp, P.getLast? = some tp → tailBoundB s tp = true) →
      (∀ tq, Q.getLast? = some tq → tailBoundB s tq = true) → P = Q := by
  intro P
  induction P with
  | nil => intro Q _ _ _ hPne _ _ _; exact absurd rfl hPne
  | cons x P2 ih =>
    intro Q hP hQ hhead hPne hQne htP htQ
    cases Q with
    | nil => exact absurd rfl hQne
    | cons x2 Q2 =>
      have hxx : x = x2 := by
        simp only [List.head?_cons, Option.some.injEq] at hhead
        exact hhead
      subst hxx
      cases P2 with
      | nil =>
        cases Q2 with
        | nil => rfl
        | cons y2 Q3 =>
          obtain ⟨_, _, hch, _, hQ5⟩ := linkedB_cons_parts hQ
          have htb := htP x (by rfl)
          unfold tailBoundB at htb
          rw [hch] at htb
          dsimp only at htb
          have hy2 := linked_mem hQ5 y2 (List.mem_cons_self y2 Q3)
          rw [mem_lookup_self s hnodup y2 hy2.1] at htb
          dsimp only at htb
          rw [hy2.2] at htb
          exact Bool.noConfusion htb
      | cons y P3 =>
        cases Q2 with
        | nil =>
          obtain ⟨_, _, hch, _, hP5⟩ := linkedB_cons_parts hP
          have htb := htQ x (by rfl)
          unfold tailBoundB at htb
          rw [hch] at htb
          dsimp only at htb
          have hy := linked_mem hP5 y (List.mem_cons_self y P3)
          rw [mem_lookup_self s hnodup y hy.1] at htb
          dsimp only at htb
          rw [hy.2] at htb
          exact Bool.noConfusion htb
        | cons y2 Q3 =>
          obtain ⟨_, _, hchP, _, hP5⟩ := linkedB_cons_parts hP
          obtain ⟨_, _, hchQ, _, hQ5⟩ := linkedB_cons_parts hQ
          have hycid : y.cid = y2.cid := by
            rw [hchP] at hchQ
            injection hchQ with hh
          have hyy : y = y2 := by
            have hy := linked_mem hP5 y (List.mem_cons_self y P3)
            have hy2 := linked_mem hQ5 y2 (List.mem_cons_self y2 Q3)
            exact cid_inj s hnodup hy.1 hy2.1 hycid
          subst hyy
          have hrec := ih hP5 hQ5 rfl (by intro hh; exact List.noConfusion hh)
            (by intro hh; exact List.noConfusion hh)
            (by intro tp htp; exact htP tp (by rw [List.getLast?_cons_cons]; exact htp))
            (by intro tq htq; exact htQ tq (by rw [List.getLast?_cons_cons]; exact htq))
          rw [hrec]

theorem linked_append_left {s : Store} (ys : List Node) :
    ∀ (xs : List Node), linkedB s (xs ++ ys) = true → linkedB s xs = true := by
  intro xs
  induction xs with
  | nil => intro _; rfl
  | cons x xs2 ih =>
    intro h
    cases xs2 with
    | nil =>
      cases ys with
      | nil => simpa using h
      | cons y ys2 =>
        obtain ⟨h1, h2, _, _, _⟩ := linkedB_cons_parts h
        exact linkedB_single_of h1 h2
    | cons x2 xs3 =>
      obtain ⟨h1, h2, h3, h4, h5⟩ := linkedB_cons_parts h
      exact linkedB_cons_of h1 h2 h3 h4 (ih h5)

theorem linked_append_adj {s : Store} {w z : Node} :
    ∀ (xs : List Node), linkedB s (xs ++ [w, z]) = true →
      z.parents = [w.cid] ∧ w ∈ s ∧ is_squashable w = true := by
  intro xs
  induction xs with
  | nil =>
    intro h
    obtain ⟨h1, h2, _, h4, _⟩ := linkedB_cons_parts h
    exact ⟨h4, h1, h2⟩
  | cons x xs2 ih =>
    intro h
    apply ih
    apply linked_cons_tail h
    intro hemp
    cases hx : xs2 with
    | nil => rw [hx] at hemp; exact List.noConfusion hemp
    | cons a b => rw [hx] at hemp; exact List.noConfusion hemp

theorem headStep_stop {s : Store} {nd : Node} (hsq : is_squashable nd = true)
    (hb : headBoundB s nd = true) :
    ∀ {fuel : Nat} {acc res : Option String},
      headLoop s fuel acc (some nd) = some res → res = some nd.cid := by
  intro fuel acc res h
  cases fuel with
  | zero => exact Option.noConfusion h
  | succ f =>
    rw [headLoop_succ, if_pos hsq] at h
    unfold headBoundB at hb
    cases hp : nd.parents with
    | nil =>
      rw [hp] at h
      cases f with
      | zero => exact Option.noConfusion h
      | succ f2 =>
        injection h with hh
        exact hh.symm
    | cons p ps =>
      rw [hp] at h
      dsimp only at h
      rw [hp] at hb
      dsimp only at hb
      cases hl : mapLookup s p with
      | none => rw [hl] at h; exact Option.noConfusion h
      | some pnd =>
        rw [hl] at h
        dsimp only at h
        rw [hl] at hb
        dsimp only at hb
        have hnsq : is_squashable pnd = false := by
          cases hq : is_squashable pnd
          · rfl
          · rw [hq] at hb; exact Bool.noConfusion hb
        cases f with
        | zero => exact Option.noConfusion h
        | succ f2 =>
          rw [headLoop_succ, hnsq, if_neg (fun hc => Bool.noConfusion hc)] at h
          injection h with hh
          exact hh.symm

theorem tailStep_stop {s : Store} {nd : Node} (hsq : is_squashable nd = true)
    (hb : tailBoundB s nd = true) :
    ∀ {fuel : Nat} {acc res : Option String},
      tailLoop s fuel acc (some nd) = some res → res = some nd.cid := by
  intro fuel acc res h
  cases fuel with
  | zero => exact Option.noConfusion h
  | succ f =>
    rw [tailLoop_succ, if_pos hsq] at h
    unfold tailBoundB at hb
    cases hc : nd.children with
    | nil =>
      rw [hc] at h
      cases f with
      | zero => exact Option.noConfusion h
      | succ f2 =>
        injection h with hh
        exact hh.symm
    | cons c cs =>
      rw [hc] at h
      dsimp only at h
      rw [hc] at hb
      dsimp only at hb
      cases hl : mapLookup s c with
      | none => rw [hl] at h; exact Option.noConfusion h
      | some cnd =>
        rw [hl] at h
        dsimp only at h
        rw [hl] at hb
        dsimp only at hb
        have hnsq : is_squashable cnd = false := by
          cases hq : is_squashable cnd
          · rfl
          · rw [hq] at hb; exact Bool.noConfusion hb
        cases f with
        | zero => exact Option.noConfusion h
        | succ f2 =>
          rw [tailLoop_succ, hnsq, if_neg (fun hc2 => Bool.noConfusion hc2)] at h
          injection h with hh
          exact hh.symm

theorem upWalk {s : Store} (hnodup : (s.map Node.cid).Nodup) :
    ∀ (pre : List Node) (z x : Node), linkedB s (pre ++ [z]) = true →
      (pre ++ [z]).head? = some x → headBoundB s x = true →
      ∀ {fuel : Nat} {acc res : Option String},
        headLoop s fuel acc (some z) = some res → res = some x.cid := by
  intro pre
  induction pre using List.reverseRecOn with
  | nil =>
    intro z x hl hh hb fuel acc res hrun
    simp only [List.nil_append, List.head?_cons, Option.some.injEq] at hh
    subst hh
    exact headStep_stop (linkedB_single_parts hl).2 hb hrun
  | append_singleton pre2 w ih =>
    intro z x hl hh hb fuel acc res hrun
    rw [List.append_assoc] at hl
    have hadj := linked_append_adj pre2 hl
    have hzsq : is_squashable z = true := by
      rw [← List.append_assoc] at hl
      exact (linked_mem hl z (by simp)).2
    cases fuel with
    | zero => exact Option.noConfusion hrun
    | succ f =>
      rw [headLoop_succ, if_pos hzsq, hadj.1] at hrun
      dsimp only at hrun
      rw [mem_lookup_self s hnodup w hadj.2.1] at hrun
      dsimp only at hrun
      have hne : pre2 ++ [w] ≠ [] := by
        intro hemp
        cases hx : pre2 with
        | nil => rw [hx] at hemp; exact List.noConfusion hemp
        | cons a b => rw [hx] at hemp; exact List.noConfusion hemp
      apply ih w x ?_ ?_ hb hrun
      · exact linked_append_left [z] (pre2 ++ [w]) (by rw [List.append_assoc]; exact hl)
      · rw [List.head?_append_of_ne_nil (pre2 ++ [w]) hne] at hh
        exact hh

theorem tailWalk_along {s : Store} (hnodup : (s.map Node.cid).Nodup) :
    ∀ (P : List Node) (x tnd : Node), linkedB s P = true → P.head? = some x →
      P.getLast? = some tnd → tailBoundB s tnd = true →
      ∀ {fuel : Nat} {acc res : Option String},
        tailLoop s fuel acc (some x) = some res → res = some tnd.cid := by
  intro P
  induction P with
  | nil =>
    intro x tnd _ hh
    exact absurd hh (by simp)
  | cons x0 P2 ih =>
    intro x tnd hl hh hlast htb fuel acc res hrun
    simp only [List.head?_cons, Option.some.injEq] at hh
    subst hh
    cases P2 with
    | nil =>
      have hlx : x0 = tnd := by
        simpa using hlast
      subst hlx
      exact tailStep_stop (linkedB_single_parts hl).2 htb hrun
    | cons y P3 =>
      obtain ⟨hx, hsq, hch, hpar, h5⟩ := linkedB_cons_parts hl
      cases fuel with
      | zero => exact Option.noConfusion hrun
      | succ f =>
        rw [tailLoop_succ, if_pos hsq, hch] at hrun
        dsimp only at hrun
        have hy : y ∈ s := (linked_mem h5 y (List.mem_cons_self y P3)).1
        rw [mem_lookup_self s hnodup y hy] at hrun
        dsimp only at hrun
        apply ih y tnd h5 rfl ?_ htb hrun
        rw [List.getLast?_cons_cons] at hlast
        exact hlast

theorem headLoop_extract {s : Store} (hnodup : (s.map Node.cid).Nodup) :
    ∀ (fuel : Nat) (acc : Option String) (nd : Node) (res : Option String),
      nd ∈ s → is_squashable nd = true →
      headLoop s fuel acc (some nd) = some res →
      ∃ hnd, TrueHead s hnd ∧ res = some hnd.cid := by
  intro fuel
  induction fuel with
  | zero =>
    intro acc nd res _ _ h
    exact Option.noConfusion h
  | succ f ih =>
    intro acc nd res hmem hsq h
    rw [headLoop_succ, if_pos hsq] at h
    cases hp : nd.parents with
    | nil =>
      rw [hp] at h
      cases f with
      | zero => exact Option.noConfusion h
      | succ f2 =>
        injection h with hh
        refine ⟨nd, ⟨hmem, hsq, ?_⟩, hh.symm⟩
        unfold headBoundB
        rw [hp]
    | cons p ps =>
      rw [hp] at h
      dsimp only at h
      cases hl : mapLookup s p with
      | none => rw [hl] at h; exact Option.noConfusion h
      | some pnd =>
        rw [hl] at h
        dsimp only at h
        cases hq : is_squashable pnd with
        | true => exact ih (some nd.cid) pnd res (mapLookup_spec s p pnd hl).1 hq h
        | false =>
          cases f with
          | zero => exact Option.noConfusion h
          | succ f2 =>
            rw [headLoop_succ, hq, if_neg (fun hc => Bool.noConfusion hc)] at h
            injection h with hh
            refine ⟨nd, ⟨hmem, hsq, ?_⟩, hh.symm⟩
            unfold headBoundB
            rw [hp]
            dsimp only
            rw [hl]
            dsimp only
            rw [hq]
            rfl

theorem tailLoop_extract {s : Store} (hnodup : (s.map Node.cid).Nodup)
    (hcoh : ∀ m ∈ s, ∀ n ∈ s, (n.cid ∈ m.children ↔ m.cid ∈ n.parents)) :
    ∀ (fuel : Nat) (acc : Option String) (nd : Node) (res : Option String),
      nd ∈ s → is_squashable nd = true →
      tailLoop s fuel acc (some nd) = some res →
      ∃ P tnd, linkedB s P = true ∧ P.head? = some nd ∧ P.getLast? = some tnd ∧
        tailBoundB s tnd = true ∧ res = some tnd.cid := by
  intro fuel
  induction fuel with
  | zero =>
    intro acc nd res _ _ h
    exact Option.noConfusion h
  | succ f ih =>
    intro acc nd res hmem hsq h
    rw [tailLoop_succ, if_pos hsq] at h
    cases hc : nd.children with
    | nil =>
      rw [hc] at h
      cases f with
      | zero => exact Option.noConfusion h
      | succ f2 =>
        injection h with hh
        refine ⟨[nd], nd, linkedB_single_of hmem hsq, rfl, rfl, ?_, hh.symm⟩
        unfold tailBoundB
        rw [hc]
    | cons c cs =>
      rw [hc] at h
      dsimp only at h
      cases hl : mapLookup s c with
      | none => rw [hl] at h; exact Option.noConfusion h
      | some cnd =>
        rw [hl] at h
        dsimp only at h
        cases hq : is_squashable cnd with
        | false =>
          cases f with
          | zero => exact Option.noConfusion h
          | succ f2 =>
            rw [tailLoop_succ, hq, if_neg (fun hc2 => Bool.noConfusion hc2)] at h
            injection h with hh
            refine ⟨[nd], nd, linkedB_single_of hmem hsq, rfl, rfl, ?_, hh.symm⟩
            unfold tailBoundB
            rw [hc]
            dsimp only
            rw [hl]
            dsimp only
            rw [hq]
            rfl
        | true =>
          have hcndmem := (mapLookup_spec s c cnd hl).1
          obtain ⟨P, tnd, hP, hPh, hPl, hPt, hres⟩ :=
            ih (some nd.cid) cnd res hcndmem hq h
          have hccid : cnd.cid = c := (mapLookup_spec s c cnd hl).2
          have hchsing : nd.children = [cnd.cid] := by
            rw [hc, hccid]
            have hb := (squashable_bounds nd hsq).2.1
            rw [hc] at hb
            cases cs with
            | nil => rfl
            | cons c2 cs2 => simp at hb
          have hparsing : cnd.parents = [nd.cid] := by
            have hmm : nd.cid ∈ cnd.parents := by
              apply (hcoh nd hmem cnd hcndmem).mp
              rw [hchsing]
              exact List.mem_singleton_self _
            exact mem_len_le_one _ _ (squashable_bounds cnd hq).1 hmm
          cases P with
          | nil => exact absurd hPh (by simp)
          | cons p0 Prest =>
            have hp0 : p0 = cnd := by
              simp only [List.head?_cons, Option.some.injEq] at hPh
              exact hPh
            subst hp0
            refine ⟨nd :: p0 :: Prest, tnd,
              linkedB_cons_of hmem hsq hchsing hparsing hP, rfl, ?_, hPt, hres⟩
            rw [List.getLast?_cons_cons]
            exact hPl

theorem nodup_dropLast_ne_last {P : List Node} {tnd : Node}
    (hnd : (P.map Node.cid).Nodup) (hPl : P.getLast? = some tnd) :
    ∀ z ∈ P.dropLast, z.cid ≠ tnd.cid := by
  have hPne : P ≠ [] := by
    intro h
    rw [h] at hPl
    exact Option.noConfusion hPl
  have hsplit : P.dropLast ++ [tnd] = P := by
    have hd := List.dropLast_append_getLast hPne
    rw [List.getLast?_eq_getLast P hPne] at hPl
    injection hPl with hh
    rw [← hh]
    exact hd
  intro z hz hceq
  rw [← hsplit, List.map_append] at hnd
  rcases List.nodup_append.mp hnd with ⟨_, _, hdis⟩
  exact hdis (List.mem_map_of_mem Node.cid hz)
    (by rw [hceq]; exact List.mem_singleton_self _)

theorem distLoop_aux {s : Store} (hnodup : (s.map Node.cid).Nodup) :
    ∀ (Q : List Node) (y tnd : Node) (clast : String) (fuel acc d : Nat),
      linkedB s (y :: Q) = true → (y :: Q).getLast? = some tnd →
      clast ≠ tnd.cid → (∀ z ∈ (y :: Q).dropLast, z.cid ≠ tnd.cid) →
      distLoop s fuel clast y.cid tnd.cid acc = some d →
      d = acc + (y :: Q).length ∧ ∃ c cs, tnd.children = c :: cs := by
  intro Q
  induction Q with
  | nil =>
    intro y tnd clast fuel acc d hl hlast hcl hdrop h
    have hyt : y = tnd := by simpa using hlast
    subst hyt
    cases fuel with
    | zero => exact Option.noConfusion h
    | succ f =>
      rw [distLoop_succ, if_neg hcl] at h
      rw [mem_lookup_self s hnodup y (linkedB_single_parts hl).1] at h
      dsimp only at h
      cases hc : y.children with
      | nil => rw [hc] at h; exact Option.noConfusion h
      | cons c cs =>
        rw [hc] at h
        dsimp only at h
        cases f with
        | zero => exact Option.noConfusion h
        | succ f2 =>
          rw [distLoop_succ, if_pos rfl] at h
          injection h with hh
          exact ⟨hh.symm, c, cs, rfl⟩
  | cons y2 Q2 ih =>
    intro y tnd clast fuel acc d hl hlast hcl hdrop h
    obtain ⟨hy, hsq, hch, hpar, h5⟩ := linkedB_cons_parts hl
    cases fuel with
    | zero => exact Option.noConfusion h
    | succ f =>
      rw [distLoop_succ, if_neg hcl] at h
      rw [mem_lookup_self s hnodup y hy] at h
      dsimp only at h
      rw [hch] at h
      dsimp only at h
      have hmemy : y ∈ (y :: y2 :: Q2).dropLast := by
        simp [List.dropLast]
      have hyne : y.cid ≠ tnd.cid := hdrop y hmemy
      have hlast2 : (y2 :: Q2).getLast? = some tnd := by
        rw [List.getLast?_cons_cons] at hlast
        exact hlast
      have hdrop2 : ∀ z ∈ (y2 :: Q2).dropLast, z.cid ≠ tnd.cid := by
        intro z hz
        apply hdrop
        simp [List.dropLast]
        right
        simpa [List.dropLast] using hz
      have hrec := ih y2 tnd y.cid f (acc + 1) d h5 hlast2 hyne hdrop2 h
      refine ⟨?_, hrec.2⟩
      rw [hrec.1]
      simp [List.length_cons]
      omega

theorem distLoop_chain {s : Store} (hnodup : (s.map Node.cid).Nodup)
    {P : List Node} {x tnd : Node}
    (hl : linkedB s P = true) (hh : P.head? = some x) (hlast : P.getLast? = some tnd)
    (hnd : (P.map Node.cid).Nodup) :
    ∀ {fuel d : Nat}, distLoop s fuel x.cid x.cid tnd.cid 0 = some d →
      (P.length = 1 → d = 0) ∧
      (2 ≤ P.length → d = P.length ∧ ∃ c cs, tnd.children = c :: cs) := by
  intro fuel d h
  cases P with
  | nil => exact absurd hh (by simp)
  | cons x0 P2 =>
    have hx0 : x0 = x := by simpa using hh
    subst hx0
    cases P2 with
    | nil =>
      have hxt : x0 = tnd := by simpa using hlast
      subst hxt
      cases fuel with
      | zero => exact Option.noConfusion h
      | succ f =>
        rw [distLoop_succ, if_pos rfl] at h
        injection h with hh2
        exact ⟨fun _ => hh2.symm, fun hlen => by simp at hlen⟩
    | cons y P3 =>
      have hclne : x0.cid ≠ tnd.cid := by
        apply nodup_dropLast_ne_last hnd hlast
        simp [List.dropLast]
      have hdrop : ∀ z ∈ (x0 :: y :: P3).dropLast, z.cid ≠ tnd.cid :=
        nodup_dropLast_ne_last hnd hlast
      have hrec := distLoop_aux hnodup (y :: P3) x0 tnd x0.cid fuel 0 d hl hlast
        hclne hdrop h
      refine ⟨fun hlen => by simp at hlen, fun _ => ⟨by rw [hrec.1]; simp, hrec.2⟩⟩

theorem hidx_map {s : Store} (hidx : ∀ i nd, s.get? i = some nd → nd.idx = i)
    (F : Node → Node) (hF : skelPres F) :
    ∀ i nd, (s.map F).get? i = some nd → nd.idx = i := by
  intro i nd h
  rw [get?_map_skelPres] at h
  cases hg : s.get? i with
  | none => rw [hg] at h; exact Option.noConfusion h
  | some nd0 =>
    rw [hg] at h
    injection h with hh
    rw [← hh]
    rw [(skel_parts (hF nd0)).2.2.2.2.2]
    exact hidx i nd0 hg

theorem stampOne_eq {s : Store} (hidx : ∀ i nd, s.get? i = some nd → nd.idx = i)
    (hnodup : (s.map Node.cid).Nodup) {cn : Node} (hcn : cn ∈ s)
    (h t : String) (sz : Int) :
    stampOne s cn.idx cn.cid h t sz = some (s.map (fun m =>
      if m.cid = cn.cid then stampNode m h t sz else m)) := by
  have hi : s.get? cn.idx = some cn := by
    obtain ⟨i, hi⟩ := List.get?_of_mem hcn
    rw [hidx i cn hi]
    exact hi
  unfold stampOne
  rw [hi]
  dsimp only
  have hsetcid : (s.set cn.idx
      { cn with chainHead := some h, chainTail := some t, chainSize := sz }).map Node.cid =
      s.map Node.cid := by
    rw [List.map_set]
    show (s.map Node.cid).set cn.idx cn.cid = _
    apply set_self_of_get?
    rw [List.get?_map, hi]
    rfl
  have hmm : mapMem (s.set cn.idx
      { cn with chainHead := some h, chainTail := some t, chainSize := sz }) cn.cid = true := by
    rw [mapMem_iff_mem_cids, hsetcid]
    exact List.mem_map_of_mem Node.cid hcn
  rw [if_pos hmm]
  congr 1
  rw [List.map_set]
  apply set_self_of_get?
  rw [List.get?_map, hi]
  simp [stampNode]

theorem stamp1_eq_stampF (c h t : String) (d : Int) :
    (fun m => if m.cid = c then stampNode m h t d else m) = stampF [c] h t d := by
  funext m
  unfold stampF
  by_cases hm : m.cid = c
  · rw [if_pos hm, if_pos (List.mem_singleton.mpr hm)]
  · rw [if_neg hm, if_neg (fun hmem => hm (List.mem_singleton.mp hmem))]

theorem stampF_comp (c : String) (cs : List String) (h t : String) (d : Int)
    (hc : c ∉ cs) :
    stampF cs h t d ∘ stampF [c] h t d = stampF (c :: cs) h t d := by
  funext m
  show stampF cs h t d (stampF [c] h t d m) = stampF (c :: cs) h t d m
  unfold stampF
  by_cases hm : m.cid ∈ [c]
  · rw [if_pos hm]
    have hmc : m.cid = c := List.mem_singleton.mp hm
    have h1 : (stampNode m h t d).cid = m.cid := rfl
    rw [if_neg (by rw [h1, hmc]; exact hc), if_pos (List.mem_cons.mpr (Or.inl hmc))]
  · rw [if_neg hm]
    have hmc : ¬ m.cid = c := fun hh => hm (List.mem_singleton.mpr hh)
    by_cases hmcs : m.cid ∈ cs
    · rw [if_pos hmcs, if_pos (List.mem_cons.mpr (Or.inr hmcs))]
    · rw [if_neg hmcs, if_neg ?_]
      intro hmem
      rcases List.mem_cons.mp hmem with h1 | h2
      · exact hmc h1
      · exact hmcs h2

theorem stampLoop_chain {s : Store} (hnodup : (s.map Node.cid).Nodup)
    (hidx : ∀ i nd, s.get? i = some nd → nd.idx = i) (headCid : String) (dist : Int) :
    ∀ (Q : List Node) (y tnd : Node) (clast : String) (fuel : Nat),
      linkedB s (y :: Q) = true → (y :: Q).getLast? = some tnd →
      ((y :: Q).map Node.cid).Nodup →
      clast ≠ tnd.cid → (∀ z ∈ (y :: Q).dropLast, z.cid ≠ tnd.cid) →
      (∃ c cs, tnd.children = c :: cs) →
      (∃ F out, skelPres F ∧
        stampLoop (s.map F) fuel clast y.cid tnd.cid headCid dist = some out) →
      ∀ (G : Node → Node), skelPres G →
        stampLoop (s.map G) fuel clast y.cid tnd.cid headCid dist =
          some (s.map (stampF ((y :: Q).map Node.cid) headCid tnd.cid dist ∘ G)) := by
  intro Q
  induction Q with
  | nil =>
    intro y tnd clast fuel hl hlast hnd hcl hdrop hchild hsucc G hG
    have hyt : y = tnd := by simpa using hlast
    subst hyt
    obtain ⟨F, out, hF, hrun⟩ := hsucc
    obtain ⟨c, cs, hc⟩ := hchild
    cases fuel with
    | zero => exact Option.noConfusion hrun
    | succ f =>
      have hymem : y ∈ s := (linkedB_single_parts hl).1
      have hnodupF : ((s.map F).map Node.cid).Nodup := by
        rw [map_cid_of_skelPres s F hF]; exact hnodup
      have hlookF : mapLookup (s.map F) y.cid = some (F y) := by
        rw [mapLookup_skelPres s F hF, mem_lookup_self s hnodup y hymem]
        rfl
      rw [stampLoop_succ, if_neg hcl, hlookF] at hrun
      dsimp only at hrun
      rw [stampOne_eq (hidx_map hidx F hF) hnodupF (List.mem_map_of_mem F hymem)
        headCid y.cid dist] at hrun
      dsimp only at hrun
      rw [(skel_parts (hF y)).2.2.1, hc] at hrun
      dsimp only at hrun
      have hf2 : ∃ f2, f = f2 + 1 := by
        cases f with
        | zero => exact Option.noConfusion hrun
        | succ f2 => exact ⟨f2, rfl⟩
      obtain ⟨f2, hff⟩ := hf2
      have hnodupG : ((s.map G).map Node.cid).Nodup := by
        rw [map_cid_of_skelPres s G hG]; exact hnodup
      have hlookG : mapLookup (s.map G) y.cid = some (G y) := by
        rw [mapLookup_skelPres s G hG, mem_lookup_self s hnodup y hymem]
        rfl
      rw [stampLoop_succ, if_neg hcl, hlookG]
      dsimp only
      rw [stampOne_eq (hidx_map hidx G hG) hnodupG (List.mem_map_of_mem G hymem)
        headCid y.cid dist]
      dsimp only
      rw [(skel_parts (hG y)).2.2.1, hc]
      dsimp only
      rw [hff, stampLoop_succ, if_pos ((skel_parts (hG y)).1)]
      rw [(skel_parts (hG y)).1, stamp1_eq_stampF y.cid headCid y.cid dist,
        List.map_map]
      rfl
  | cons y2 Q2 ih =>
    intro y tnd clast fuel hl hlast hnd hcl hdrop hchild hsucc G hG
    obtain ⟨F, out, hF, hrun⟩ := hsucc
    obtain ⟨hy, hsq, hch, hpar, h5⟩ := linkedB_cons_parts hl
    cases fuel with
    | zero => exact Option.noConfusion hrun
    | succ f =>
      have hnodupF : ((s.map F).map Node.cid).Nodup := by
        rw [map_cid_of_skelPres s F hF]; exact hnodup
      have hlookF : mapLookup (s.map F) y.cid = some (F y) := by
        rw [mapLookup_skelPres s F hF, mem_lookup_self s hnodup y hy]
        rfl
      rw [stampLoop_succ, if_neg hcl, hlookF] at hrun
      dsimp only at hrun
      rw [stampOne_eq (hidx_map hidx F hF) hnodupF (List.mem_map_of_mem F hy)
        headCid tnd.cid dist] at hrun
      dsimp only at hrun
      rw [(skel_parts (hF y)).2.2.1, hch] at hrun
      dsimp only at hrun
      rw [(skel_parts (hF y)).1, stamp1_eq_stampF y.cid headCid tnd.cid dist,
        List.map_map] at hrun
      have hyne : y.cid ≠ tnd.cid := by
        apply hdrop y
        simp [List.dropLast]
      have hlast2 : (y2 :: Q2).getLast? = some tnd := by
        rw [List.getLast?_cons_cons] at hlast
        exact hlast
      have hdrop2 : ∀ z ∈ (y2 :: Q2).dropLast, z.cid ≠ tnd.cid := by
        intro z hz
        apply hdrop
        simp [List.dropLast]
        right
        simpa [List.dropLast] using hz
      have hnd2 : ((y2 :: Q2).map Node.cid).Nodup := by
        rw [List.map_cons, List.nodup_cons] at hnd
        exact hnd.2
      have hnotin : y.cid ∉ (y2 :: Q2).map Node.cid := by
        rw [List.map_cons, List.nodup_cons] at hnd
        exact hnd.1
      have hrec := ih y2 tnd y.cid f h5 hlast2 hnd2 hyne hdrop2 hchild
        ⟨stampF [y.cid] headCid tnd.cid dist ∘ F, out,
          skelPres_comp (stampF_skelPres _ _ _ _) hF, hrun⟩
      have hnodupG : ((s.map G).map Node.cid).Nodup := by
        rw [map_cid_of_skelPres s G hG]; exact hnodup
      have hlookG : mapLookup (s.map G) y.cid = some (G y) := by
        rw [mapLookup_skelPres s G hG, mem_lookup_self s hnodup y hy]
        rfl
      rw [stampLoop_succ, if_neg hcl, hlookG]
      dsimp only
      rw [stampOne_eq (hidx_map hidx G hG) hnodupG (List.mem_map_of_mem G hy)
        headCid tnd.cid dist]
      dsimp only
      rw [(skel_parts (hG y)).2.2.1, hch]
      dsimp only
      rw [(skel_parts (hG y)).1, stamp1_eq_stampF y.cid headCid tnd.cid dist,
        List.map_map]
      rw [hrec (stampF [y.cid] headCid tnd.cid dist ∘ G)
        (skelPres_comp (stampF_skelPres _ _ _ _) hG)]
      rw [← Function.comp_assoc, stampF_comp y.cid ((y2 :: Q2).map Node.cid)
        headCid tnd.cid dist hnotin]
      rfl

theorem collectHeads_cons (s : Store) (fuel : Nat) (nd : Node) (rest : List Node)
    (acc : List String) :
    collectHeads s fuel (nd :: rest) acc =
      match find_chain_head s fuel nd with
      | none => none
      | some none => collectHeads s fuel rest acc
      | some (some hcid) =>
        collectHeads s fuel rest
          (if acc.contains hcid then acc else acc ++ [hcid]) := rfl

theorem collectHeads_acc_sub {s : Store} {fuel : Nat} :
    ∀ (l : List Node) (acc res : List String),
      collectHeads s fuel l acc = some res → ∀ h ∈ acc, h ∈ res := by
  intro l
  induction l with
  | nil =>
    intro acc res h hh hmem
    injection h with h2
    rw [← h2]
    exact hmem
  | cons nd rest ih =>
    intro acc res h hh hmem
    rw [collectHeads_cons] at h
    cases hf : find_chain_head s fuel nd with
    | none => rw [hf] at h; exact Option.noConfusion h
    | some r =>
      rw [hf] at h
      cases r with
      | none => exact ih acc res h hh hmem
      | some hcid =>
        dsimp only at h
        by_cases hcont : acc.contains hcid = true
        · rw [if_pos hcont] at h
          exact ih acc res h hh hmem
        · rw [if_neg hcont] at h
          exact ih (acc ++ [hcid]) res h hh (List.mem_append_left _ hmem)

theorem collectHeads_mem {s : Store} {fuel : Nat} :
    ∀ (l : List Node) (acc res : List String),
      collectHeads s fuel l acc = some res → ∀ nd ∈ l, ∀ hcid,
        find_chain_head s fuel nd = some (some hcid) → hcid ∈ res := by
  intro l
  induction l with
  | nil =>
    intro acc res _ nd hmem
    exact absurd hmem (List.not_mem_nil nd)
  | cons nd0 rest ih =>
    intro acc res h nd hmem hcid hf
    rw [collectHeads_cons] at h
    rcases List.mem_cons.mp hmem with hnd | hnd2
    · subst hnd
      rw [hf] at h
      dsimp only at h
      by_cases hcont : acc.contains hcid = true
      · rw [if_pos hcont] at h
        exact collectHeads_acc_sub rest acc res h hcid (List.elem_iff.mp hcont)
      · rw [if_neg hcont] at h
        exact collectHeads_acc_sub rest (acc ++ [hcid]) res h hcid
          (List.mem_append_right _ (List.mem_singleton_self _))
    · cases hf0 : find_chain_head s fuel nd0 with
      | none => rw [hf0] at h; exact Option.noConfusion h
      | some r =>
        rw [hf0] at h
        cases r with
        | none => exact ih acc res h nd hnd2 hcid hf
        | some hcid0 =>
          dsimp only at h
          by_cases hcont : acc.contains hcid0 = true
          · rw [if_pos hcont] at h
            exact ih acc res h nd hnd2 hcid hf
          · rw [if_neg hcont] at h
            exact ih (acc ++ [hcid0]) res h nd hnd2 hcid hf

theorem collectHeads_src {s : Store} {fuel : Nat} :
    ∀ (l : List Node) (acc res : List String),
      collectHeads s fuel l acc = some res → ∀ h ∈ res,
        h ∈ acc ∨ ∃ nd ∈ l, find_chain_head s fuel nd = some (some h) := by
  intro l
  induction l with
  | nil =>
    intro acc res hr h hmem
    injection hr with h2
    rw [← h2] at hmem
    exact Or.inl hmem
  | cons nd0 rest ih =>
    intro acc res hr h hmem
    rw [collectHeads_cons] at hr
    cases hf0 : find_chain_head s fuel nd0 with
    | none => rw [hf0] at hr; exact Option.noConfusion hr
    | some r =>
      rw [hf0] at hr
      cases r with
      | none =>
        rcases ih acc res hr h hmem with hin | ⟨nd, hnd, hff⟩
        · exact Or.inl hin
        · exact Or.inr ⟨nd, List.mem_cons_of_mem nd0 hnd, hff⟩
      | some hcid0 =>
        dsimp only at hr
        by_cases hcont : acc.contains hcid0 = true
        · rw [if_pos hcont] at hr
          rcases ih acc res hr h hmem with hin | ⟨nd, hnd, hff⟩
          · exact Or.inl hin
          · exact Or.inr ⟨nd, List.mem_cons_of_mem nd0 hnd, hff⟩
        · rw [if_neg hcont] at hr
          rcases ih (acc ++ [hcid0]) res hr h hmem with hin | ⟨nd, hnd, hff⟩
          · rcases List.mem_append.mp hin with hin1 | hin2
            · exact Or.inl hin1
            · have : h = hcid0 := List.mem_singleton.mp hin2
              exact Or.inr ⟨nd0, List.mem_cons_self nd0 rest, by rw [this]; exact hf0⟩
          · exact Or.inr ⟨nd, List.mem_cons_of_mem nd0 hnd, hff⟩

theorem collectHeads_nodup {s : Store} {fuel : Nat} :
    ∀ (l : List Node) (acc res : List String),
      collectHeads s fuel l acc = some res → acc.Nodup → res.Nodup := by
  intro l
  induction l with
  | nil =>
    intro acc res h hacc
    injection h with h2
    rw [← h2]
    exact hacc
  | cons nd0 rest ih =>
    intro acc res h hacc
    rw [collectHeads_cons] at h
    cases hf0 : find_chain_head s fuel nd0 with
    | none => rw [hf0] at h; exact Option.noConfusion h
    | some r =>
      rw [hf0] at h
      cases r with
      | none => exact ih acc res h hacc
      | some hcid0 =>
        dsimp only at h
        by_cases hcont : acc.contains hcid0 = true
        · rw [if_pos hcont] at h
          exact ih acc res h hacc
        · rw [if_neg hcont] at h
          apply ih (acc ++ [hcid0]) res h
          apply List.nodup_append.mpr
          refine ⟨hacc, List.nodup_singleton hcid0, ?_⟩
          intro a ha hb
          have : a = hcid0 := List.mem_singleton.mp hb
          rw [this] at ha
          exact hcont (List.elem_iff.mpr ha)

theorem collectHeads_success {s : Store} {fuel : Nat} :
    ∀ (l : List Node) (acc res : List String),
      collectHeads s fuel l acc = some res → ∀ nd ∈ l,
        ∃ r, find_chain_head s fuel nd = some r := by
  intro l
  induction l with
  | nil =>
    intro acc res _ nd hmem
    exact absurd hmem (List.not_mem_nil nd)
  | cons nd0 rest ih =>
    intro acc res h nd hmem
    rw [collectHeads_cons] at h
    cases hf0 : find_chain_head s fuel nd0 with
    | none => rw [hf0] at h; exact Option.noConfusion h
    | some r =>
      rw [hf0] at h
      rcases List.mem_cons.mp hmem with hnd | hnd2
      · exact ⟨r, by rw [hnd]; exact hf0⟩
      · cases r with
        | none => exact ih acc res h nd hnd2
        | some hcid0 =>
          dsimp only at h
          by_cases hcont : acc.contains hcid0 = true
          · rw [if_pos hcont] at h
            exact ih acc res h nd hnd2
          · rw [if_neg hcont] at h
            exact ih (acc ++ [hcid0]) res h nd hnd2

theorem collectHeads_congr {s s1 : Store} {fuel : Nat} (F : Node → Node) :
    ∀ (l : List Node) (acc : List String),
      (∀ nd ∈ l, find_chain_head s1 fuel (F nd) = find_chain_head s fuel nd) →
      collectHeads s1 fuel (l.map F) acc = collectHeads s fuel l acc := by
  intro l
  induction l with
  | nil => intro acc _; rfl
  | cons nd0 rest ih =>
    intro acc hval
    rw [List.map_cons, collectHeads_cons, collectHeads_cons]
    rw [hval nd0 (List.mem_cons_self nd0 rest)]
    cases hf0 : find_chain_head s fuel nd0 with
    | none => rfl
    | some r =>
      cases r with
      | none => exact ih acc (fun nd hnd => hval nd (List.mem_cons_of_mem nd0 hnd))
      | some hcid0 =>
        exact ih _ (fun nd hnd => hval nd (List.mem_cons_of_mem nd0 hnd))

/-- Everything the one-head phase of Node.squash establishes about a
processed head: the lookup binding, the chain the child walk discovers,
its boundary, and the values of the two loop calls (computed on the
original skeleton, to which every walk is invariant). -/
def HeadRun (s : Store) (fuel : Nat) (h : String) (hnd : Node) (P : List Node)
    (tnd : Node) (d : Nat) : Prop :=
  mapLookup s h = some hnd ∧ TrueHead s hnd ∧ linkedB s P = true ∧
    P.head? = some hnd ∧ P.getLast? = some tnd ∧ tailBoundB s tnd = true ∧
    (P.map Node.cid).Nodup ∧
    tailLoop s fuel none (some hnd) = some (some tnd.cid) ∧
    distLoop s fuel hnd.cid hnd.cid tnd.cid 0 = some d ∧
    (P.length = 1 → d = 0 ∧ tnd = hnd) ∧
    (2 ≤ P.length → d = P.length ∧ ∃ c cs, tnd.children = c :: cs) ∧
    (∃ F1 out, skelPres F1 ∧
      stampLoop (s.map F1) fuel hnd.cid hnd.cid tnd.cid h (Int.ofNat d) = some out)

theorem squashHead_run {s : Store} (hnodup : (s.map Node.cid).Nodup)
    (hidx : ∀ i nd, s.get? i = some nd → nd.idx = i)
    (hcoh : ∀ m ∈ s, ∀ n ∈ s, (n.cid ∈ m.children ↔ m.cid ∈ n.parents))
    (hunset : ∀ nd ∈ s, nd.chainHead = none ∧ nd.chainTail = none)
    (fuel : Nat) (h : String) (hnd : Node)
    (hl : mapLookup s h = some hnd) (hth : TrueHead s hnd)
    (F : Node → Node) (hF : skelPres F) (hFh : F hnd = hnd)
    {s2 : Store} (hrun : squashHead (s.map F) fuel h = some s2) :
    ∃ P tnd d, HeadRun s fuel h hnd P tnd d ∧
      ((P.length = 1 ∧ s2 = s.map F) ∨
       (2 ≤ P.length ∧
         s2 = s.map (stampF (P.map Node.cid) h tnd.cid (Int.ofNat d) ∘ F))) := by
  obtain ⟨hmem, hsq, hbound⟩ := hth
  have hchain := hunset hnd hmem
  unfold squashHead at hrun
  rw [mapLookup_skelPres s F hF, hl, Option.map_some', hFh] at hrun
  dsimp only at hrun
  have htlinv : tailLoop (s.map F) fuel none (some hnd) =
      tailLoop s fuel none (some hnd) := by
    have := tailLoop_inv s F hF fuel none (some hnd)
    rw [Option.map_some', hFh] at this
    exact this
  unfold find_chain_tail at hrun
  rw [hsq] at hrun
  rw [if_neg (fun hc => Bool.noConfusion hc)] at hrun
  rw [hchain.2] at hrun
  dsimp only at hrun
  rw [htlinv] at hrun
  cases htl : tailLoop s fuel none (some hnd) with
  | none => rw [htl] at hrun; exact Option.noConfusion hrun
  | some r =>
    rw [htl] at hrun
    obtain ⟨P, tnd, hPl, hPh, hPlast, hPt, hres⟩ :=
      tailLoop_extract hnodup hcoh fuel none hnd r hmem hsq htl
    subst hres
    dsimp only at hrun
    have hPnodup : (P.map Node.cid).Nodup := by
      cases P with
      | nil => exact absurd hPh (by simp)
      | cons p0 P2 =>
        have hp0 : p0 = hnd := by simpa using hPh
        subst hp0
        apply linked_nodup_cids hnodup hPl
        intro w hw hsqw hparw hwmem
        exact trueHead_no_pred hnodup ⟨hmem, hsq, hbound⟩ w hw hsqw hparw
    have hdlinv : distLoop (s.map F) fuel hnd.cid hnd.cid tnd.cid 0 =
        distLoop s fuel hnd.cid hnd.cid tnd.cid 0 :=
      distLoop_inv s F hF fuel hnd.cid hnd.cid tnd.cid 0
    rw [hdlinv] at hrun
    cases hdl : distLoop s fuel hnd.cid hnd.cid tnd.cid 0 with
    | none => rw [hdl] at hrun; exact Option.noConfusion hrun
    | some d =>
      rw [hdl] at hrun
      dsimp only at hrun
      have hdchar := distLoop_chain hnodup hPl hPh hPlast hPnodup hdl
      have hlen1 : P.length = 1 → d = 0 ∧ tnd = hnd := by
        intro hl1
        refine ⟨hdchar.1 hl1, ?_⟩
        cases P with
        | nil => exact absurd hPh (by simp)
        | cons p0 P2 =>
          cases P2 with
          | nil =>
            have h1 : p0 = hnd := by simpa using hPh
            have h2 : p0 = tnd := by simpa using hPlast
            rw [← h2, h1]
          | cons p1 P3 => simp at hl1
      refine ⟨P, tnd, d, ⟨hl, ⟨hmem, hsq, hbound⟩, hPl, hPh, hPlast, hPt, hPnodup,
        htl, hdl, hlen1, hdchar.2, F, s2, hF, hrun⟩, ?_⟩
      by_cases hone : P.length = 1
      · left
        refine ⟨hone, ?_⟩
        obtain ⟨hd0, htnd⟩ := hlen1 hone
        subst htnd
        cases fuel with
        | zero => exact Option.noConfusion hrun
        | succ f =>
          rw [stampLoop_succ, if_pos rfl] at hrun
          injection hrun with hh
          exact hh.symm
      · right
        have hge2 : 2 ≤ P.length := by
          cases P with
          | nil => exact absurd hPh (by simp)
          | cons p0 P2 =>
            cases P2 with
            | nil => exact absurd rfl hone
            | cons p1 P3 => simp [List.length_cons]
        refine ⟨hge2, ?_⟩
        cases P with
        | nil => exact absurd hPh (by simp)
        | cons p0 P2 =>
          have hp0 : p0 = hnd := by simpa using hPh
          subst hp0
          have hclne : p0.cid ≠ tnd.cid := by
            apply nodup_dropLast_ne_last hPnodup hPlast
            cases P2 with
            | nil => simp at hge2
            | cons p1 P3 => simp [List.dropLast]
          have hchild := (hdchar.2 hge2).2
          have hstamped := stampLoop_chain hnodup hidx h (Int.ofNat d) P2 p0 tnd
            p0.cid fuel hPl hPlast hPnodup hclne
            (nodup_dropLast_ne_last hPnodup hPlast) hchild
            ⟨F, s2, hF, hrun⟩ F hF
          rw [hstamped] at hrun
          injection hrun with hh
          exact hh.symm

theorem trueHead_not_in_chain {s : Store} (hnodup : (s.map Node.cid).Nodup)
    {hnd : Node} (hth : TrueHead s hnd) {P : List Node} {ehnd : Node}
    (hPl : linkedB s P = true) (hPh : P.head? = some ehnd)
    (hne : hnd.cid ≠ ehnd.cid) : hnd ∉ P := by
  intro hmem
  cases P with
  | nil => exact absurd hmem (List.not_mem_nil hnd)
  | cons p0 P2 =>
    have hp0 : p0 = ehnd := by simpa using hPh
    subst hp0
    have := trueHead_mem_chain hnodup hPl hth hmem
    rw [this] at hne
    exact hne rfl

theorem headRun_chains_disjoint {s : Store} {fuel : Nat}
    (hnodup : (s.map Node.cid).Nodup)
    {h1 h2 : String} {hnd1 hnd2 : Node} {P1 P2 : List Node} {tnd1 tnd2 : Node}
    {d1 d2 : Nat}
    (hr1 : HeadRun s fuel h1 hnd1 P1 tnd1 d1)
    (hr2 : HeadRun s fuel h2 hnd2 P2 tnd2 d2)
    (hne : h1 ≠ h2) : ∀ z ∈ P1, z ∉ P2 := by
  obtain ⟨hl1, hth1, hPl1, hPh1, _⟩ := hr1
  obtain ⟨hl2, hth2, hPl2, hPh2, _⟩ := hr2
  have hc1 : hnd1.cid = h1 := (mapLookup_spec s h1 hnd1 hl1).2
  have hc2 : hnd2.cid = h2 := (mapLookup_spec s h2 hnd2 hl2).2
  cases P1 with
  | nil => intro z hz; exact absurd hz (List.not_mem_nil z)
  | cons p0 P1b =>
    cases P2 with
    | nil => intro z _ hz; exact absurd hz (List.not_mem_nil z)
    | cons q0 P2b =>
      have hp0 : p0 = hnd1 := by simpa using hPh1
      have hq0 : q0 = hnd2 := by simpa using hPh2
      subst hp0
      subst hq0
      exact chains_disjoint hnodup hPl1 hPl2 hth1 hth2
        (by rw [hc1, hc2]; exact hne)

/-- Bookkeeping for one processed head with a chain of length at least
two: its cid, node, chain, chain tail and loop distance. -/
structure HeadEntry where
  hcid : String
  hnd : Node
  chain : List Node
  tnd : Node
  dist : Nat

/-- Invariant of the head-processing fold: every accumulated entry is a
faithful head run of length at least two, and the store transform stamps
exactly the accumulated chains. -/
def AInv (s : Store) (fuel : Nat) (A : List HeadEntry) (F : Node → Node) : Prop :=
  (∀ e ∈ A, HeadRun s fuel e.hcid e.hnd e.chain e.tnd e.dist ∧ 2 ≤ e.chain.length) ∧
  (∀ nd ∈ s, (∀ e ∈ A, nd ∉ e.chain) → F nd = nd) ∧
  (∀ e ∈ A, ∀ z ∈ e.chain, F z = stampNode z e.hcid e.tnd.cid (Int.ofNat e.dist))

theorem squashHeads_run {s : Store} (hnodup : (s.map Node.cid).Nodup)
    (hidx : ∀ i nd, s.get? i = some nd → nd.idx = i)
    (hcoh : ∀ m ∈ s, ∀ n ∈ s, (n.cid ∈ m.children ↔ m.cid ∈ n.parents))
    (hunset : ∀ nd ∈ s, nd.chainHead = none ∧ nd.chainTail = none)
    (fuel : Nat) :
    ∀ (rem : List String) (F : Node → Node) (A : List HeadEntry) (sfin : Store),
      skelPres F → AInv s fuel A F →
      (∀ e ∈ A, e.hcid ∉ rem) →
      rem.Nodup →
      (∀ h ∈ rem, ∃ hnd, mapLookup s h = some hnd ∧ TrueHead s hnd) →
      squashHeads fuel rem (s.map F) = some sfin →
      ∃ A2 F2, sfin = s.map F2 ∧ skelPres F2 ∧ AInv s fuel A2 F2 ∧
        (∀ e ∈ A, e ∈ A2) ∧
        (∀ h ∈ rem, (∃ e ∈ A2, e.hcid = h) ∨
          (∃ hnd P tnd d, HeadRun s fuel h hnd P tnd d ∧ P.length = 1)) := by
  intro rem
  induction rem with
  | nil =>
    intro F A sfin hF hAinv hAnot _ _ hrun
    injection hrun with hh
    refine ⟨A, F, hh.symm, hF, hAinv, fun e he => he, ?_⟩
    intro h hmem
    exact absurd hmem (List.not_mem_nil h)
  | cons h rem2 ih =>
    intro F A sfin hF hAinv hAnot hnd2 hheads hrun
    obtain ⟨hnd, hlk, hth⟩ := hheads h (List.mem_cons_self h rem2)
    have hndmem : hnd ∈ s := (mapLookup_spec s h hnd hlk).1
    have hndcid : hnd.cid = h := (mapLookup_spec s h hnd hlk).2
    have hFh : F hnd = hnd := by
      apply hAinv.2.1 hnd hndmem
      intro e he
      obtain ⟨hHRe, _⟩ := hAinv.1 e he
      obtain ⟨hle, hthe, hPle, hPhe, _⟩ := hHRe
      apply trueHead_not_in_chain hnodup hth hPle hPhe
      rw [hndcid, (mapLookup_spec s e.hcid e.hnd hle).2]
      intro hc
      exact hAnot e he (hc ▸ List.mem_cons_self h rem2)
    unfold squashHeads at hrun
    cases hsh : squashHead (s.map F) fuel h with
    | none => rw [hsh] at hrun; exact Option.noConfusion hrun
    | some scur2 =>
      rw [hsh] at hrun
      dsimp only at hrun
      obtain ⟨P, tnd, d, hHR, hcase⟩ := squashHead_run hnodup hidx hcoh hunset
        fuel h hnd hlk hth F hF hFh hsh
      have hnodup2 : rem2.Nodup := (List.nodup_cons.mp hnd2).2
      have hnotin2 : h ∉ rem2 := (List.nodup_cons.mp hnd2).1
      have hheads2 : ∀ h2 ∈ rem2, ∃ hnd2b, mapLookup s h2 = some hnd2b ∧
          TrueHead s hnd2b := fun h2 hm => hheads h2 (List.mem_cons_of_mem h hm)
      rcases hcase with ⟨hone, hs2⟩ | ⟨hge2, hs2⟩
      · subst hs2
        obtain ⟨A2, F2, hfin, hF2, hAinv2, hsub, hper⟩ := ih F A sfin hF hAinv
          (fun e he hin => hAnot e he (List.mem_cons_of_mem h hin))
          hnodup2 hheads2 hrun
        refine ⟨A2, F2, hfin, hF2, hAinv2, hsub, ?_⟩
        intro h2 hmem
        rcases List.mem_cons.mp hmem with hh2 | hh2
        · subst hh2
          exact Or.inr ⟨hnd, P, tnd, d, hHR, hone⟩
        · exact hper h2 hh2
      · subst hs2
        set F2 := stampF (P.map Node.cid) h tnd.cid (Int.ofNat d) ∘ F with hF2def
        have hF2 : skelPres F2 := skelPres_comp (stampF_skelPres _ _ _ _) hF
        set e0 : HeadEntry := ⟨h, hnd, P, tnd, d⟩ with he0def
        have hdisjA : ∀ e ∈ A, ∀ z ∈ P, z ∉ e.chain := by
          intro e he
          obtain ⟨hHRe, _⟩ := hAinv.1 e he
          exact headRun_chains_disjoint hnodup hHR hHRe
            (fun hc => hAnot e he (hc ▸ List.mem_cons_self h rem2))
        have hmemPs : ∀ z ∈ P, z ∈ s := fun z hz => (linked_mem hHR.2.2.1 z hz).1
        have hnotP : ∀ nd ∈ s, nd ∉ P → (nd.cid ∈ P.map Node.cid → False) := by
          intro nd hmem hnin hcin
          rcases List.mem_map.mp hcin with ⟨z, hz, hzc⟩
          have : z = nd := cid_inj s hnodup (hmemPs z hz) hmem hzc
          rw [this] at hz
          exact hnin hz
        have hAinv2 : AInv s fuel (e0 :: A) F2 := by
          refine ⟨?_, ?_, ?_⟩
          · intro e he
            rcases List.mem_cons.mp he with he0 | heA
            · subst he0
              exact ⟨hHR, hge2⟩
            · exact hAinv.1 e heA
          · intro nd hmem hnin
            have hninP : nd ∉ P := fun hin => hnin e0 (List.mem_cons_self e0 A) hin
            have hFnd : F nd = nd :=
              hAinv.2.1 nd hmem (fun e he => hnin e (List.mem_cons_of_mem e0 he))
            show stampF (P.map Node.cid) h tnd.cid (Int.ofNat d) (F nd) = nd
            rw [hFnd]
            unfold stampF
            rw [if_neg (hnotP nd hmem hninP)]
          · intro e he z hz
            rcases List.mem_cons.mp he with he0 | heA
            · subst he0
              have hFz : F z = z := by
                apply hAinv.2.1 z (hmemPs z hz)
                intro e1 he1
                exact hdisjA e1 he1 z hz
              show stampF (P.map Node.cid) h tnd.cid (Int.ofNat d) (F z) =
                stampNode z e0.hcid e0.tnd.cid (Int.ofNat e0.dist)
              rw [hFz]
              unfold stampF
              rw [if_pos (List.mem_map_of_mem Node.cid hz)]
            · have hFz := hAinv.2.2 e heA z hz
              have hzs : z ∈ s := by
                obtain ⟨_, _, hPle, _⟩ := (hAinv.1 e heA).1
                exact (linked_mem hPle z hz).1
              have hzP : z ∉ P := by
                intro hin
                exact hdisjA e heA z hin hz
              show stampF (P.map Node.cid) h tnd.cid (Int.ofNat d) (F z) =
                stampNode z e.hcid e.tnd.cid (Int.ofNat e.dist)
              rw [hFz]
              unfold stampF
              rw [if_neg ?_]
              intro hcin
              rcases List.mem_map.mp hcin with ⟨w, hw, hwc⟩
              have hwz : w = z := cid_inj s hnodup (hmemPs w hw) hzs hwc
              rw [hwz] at hw
              exact hzP hw
        have hAnot2 : ∀ e ∈ (e0 :: A), e.hcid ∉ rem2 := by
          intro e he
          rcases List.mem_cons.mp he with he0 | heA
          · subst he0
            exact hnotin2
          · intro hin
            exact hAnot e heA (List.mem_cons_of_mem h hin)
        obtain ⟨A2, F3, hfin, hF3, hAinv3, hsub, hper⟩ := ih F2 (e0 :: A) sfin
          hF2 hAinv2 hAnot2 hnodup2 hheads2 hrun
        refine ⟨A2, F3, hfin, hF3, hAinv3,
          fun e he => hsub e (List.mem_cons_of_mem e0 he), ?_⟩
        intro h2 hmem
        rcases List.mem_cons.mp hmem with hh2 | hh2
        · subst hh2
          exact Or.inl ⟨e0, hsub e0 (List.mem_cons_self e0 A), rfl⟩
        · exact hper h2 hh2

/-- Step equation for squash. -/
theorem squash_eq (fuel : Nat) (s : Store) :
    squash fuel s =
      match collectHeads s fuel s [] with
      | none => none
      | some heads => squashHeads fuel heads s := rfl

/-- Full characterization of a completed Node.squash run: the collected
heads, the accumulated chain entries, and the final store as a pointwise
stamping of the input. -/
theorem squash_run {s s2 : Store} (hnodup : (s.map Node.cid).Nodup)
    (hidx : ∀ i nd, s.get? i = some nd → nd.idx = i)
    (hcoh : ∀ m ∈ s, ∀ n ∈ s, (n.cid ∈ m.children ↔ m.cid ∈ n.parents))
    (hunset : ∀ nd ∈ s, nd.chainHead = none ∧ nd.chainTail = none)
    (fuel : Nat) (hrun : squash fuel s = some s2) :
    ∃ heads A2 F2, collectHeads s fuel s [] = some heads ∧ heads.Nodup ∧
      s2 = s.map F2 ∧ skelPres F2 ∧ AInv s fuel A2 F2 ∧
      (∀ h ∈ heads, (∃ e ∈ A2, e.hcid = h) ∨
        (∃ hnd P tnd d, HeadRun s fuel h hnd P tnd d ∧ P.length = 1)) := by
  rw [squash_eq] at hrun
  cases hcol : collectHeads s fuel s [] with
  | none => rw [hcol] at hrun; exact Option.noConfusion hrun
  | some heads =>
    rw [hcol] at hrun
    have hheadsnodup : heads.Nodup := collectHeads_nodup s [] heads hcol List.nodup_nil
    have hheads : ∀ h ∈ heads, ∃ hnd, mapLookup s h = some hnd ∧ TrueHead s hnd := by
      intro h hmem
      rcases collectHeads_src s [] heads hcol h hmem with hin | ⟨nd, hndmem, hf⟩
      · exact absurd hin (List.not_mem_nil h)
      · unfold find_chain_head at hf
        by_cases hsqf : is_squashable nd = false
        · rw [if_pos hsqf] at hf
          injection hf with hf2
          exact Option.noConfusion hf2
        · have hsqt : is_squashable nd = true := by
            cases hq : is_squashable nd
            · exact absurd hq hsqf
            · rfl
          rw [if_neg hsqf, (hunset nd hndmem).1] at hf
          dsimp only at hf
          obtain ⟨hnd, hth, hres⟩ :=
            headLoop_extract hnodup fuel none nd (some h) hndmem hsqt hf
          injection hres with hres2
          refine ⟨hnd, ?_, hth⟩
          rw [hres2]
          exact mem_lookup_self s hnodup hnd hth.1
    rw [show s = s.map id from (List.map_id s).symm] at hrun
    obtain ⟨A2, F2, hfin, hF2, hAinv2, _, hper⟩ :=
      squashHeads_run hnodup hidx hcoh hunset fuel heads id [] s2 skelPres_id
        ⟨fun e he => absurd he (List.not_mem_nil e),
         fun nd _ _ => rfl,
         fun e he => absurd he (List.not_mem_nil e)⟩
        (fun e he => absurd he (List.not_mem_nil e))
        hheadsnodup hheads hrun
    exact ⟨heads, A2, F2, rfl, hheadsnodup, hfin, hF2, hAinv2, hper⟩

theorem head?_mem {α : Type} {l : List α} {a : α} (h : l.head? = some a) : a ∈ l := by
  cases l with
  | nil => exact Option.noConfusion h
  | cons x xs =>
    have hx : x = a := by simpa using h
    rw [← hx]
    exact List.mem_cons_self x xs

/-- A maximal simple run: a linked chain of squashable nodes whose head
has no parent or a present non-squashable parent and whose tail has no
child or a present non-squashable first child.  (The walks dereference
every neighbor through the map, so a run bounded by an absent reference
makes the squash phase raise and cannot complete.) -/
def MaxRun (s : Store) (R : List Node) (n1 nk : Node) : Prop :=
  linkedB s R = true ∧ R.head? = some n1 ∧ R.getLast? = some nk ∧
    headBoundB s n1 = true ∧ tailBoundB s nk = true

/-- C2: for a maximal simple run of k nodes, a completed Node.squash
stamps every member with chain-head = the run head, chain-tail = the run
tail, and chain-size = k (not k−1: the distance loop performs a dummy
first iteration, so it counts the member count k, as the counterexample
shows on the four-node chain, which receives chain-size 4).  A run of
one node is left entirely unstamped.  Hypotheses: unique cids, correct
indices, derived (coherent) adjacency, chain fields unset, and a
completed squash. -/
theorem C2_squash_chain_size (s s2 : Store) (fuel : Nat) (R : List Node)
    (n1 nk : Node)
    (hnodup : (s.map Node.cid).Nodup)
    (hidx : ∀ i nd, s.get? i = some nd → nd.idx = i)
    (hcoh : ∀ m ∈ s, ∀ n ∈ s, (n.cid ∈ m.children ↔ m.cid ∈ n.parents))
    (hunset : ∀ nd ∈ s, nd.chainHead = none ∧ nd.chainTail = none)
    (hmax : MaxRun s R n1 nk)
    (hrun : squash fuel s = some s2) :
    (2 ≤ R.length → ∀ z ∈ R, mapLookup s2 z.cid =
      some { z with
        chainHead := some n1.cid
        chainTail := some nk.cid
        chainSize := Int.ofNat R.length }) ∧
    (R.length = 1 → ∀ z ∈ R, mapLookup s2 z.cid = some z) := by
  obtain ⟨hRl, hRh, hRlast, hhb, htb⟩ := hmax
  obtain ⟨heads, A2, F2, hcol, hhnodup, hfin, hF2, hAinv2, hper⟩ :=
    squash_run hnodup hidx hcoh hunset fuel hrun
  have hn1R : n1 ∈ R := head?_mem hRh
  have hn1mem : n1 ∈ s := (linked_mem hRl n1 hn1R).1
  have hn1sq : is_squashable n1 = true := (linked_mem hRl n1 hn1R).2
  have hth1 : TrueHead s n1 := ⟨hn1mem, hn1sq, hhb⟩
  have hredux : find_chain_head s fuel n1 = headLoop s fuel none (some n1) := by
    unfold find_chain_head
    rw [hn1sq, if_neg (fun hc => Bool.noConfusion hc), (hunset n1 hn1mem).1]
  obtain ⟨r, hr⟩ := collectHeads_success s [] heads hcol n1 hn1mem
  rw [hredux] at hr
  have hval := headStep_stop hn1sq hhb hr
  have hfch : find_chain_head s fuel n1 = some (some n1.cid) := by
    rw [hredux, hr, hval]
  have hmemheads : n1.cid ∈ heads := collectHeads_mem s [] heads hcol n1 hn1mem n1.cid hfch
  have htbR : ∀ tp, R.getLast? = some tp → tailBoundB s tp = true := by
    intro tp htp
    rw [hRlast] at htp
    injection htp with hh
    rw [← hh]
    exact htb
  have hRne : R ≠ [] := by
    intro hh
    rw [hh] at hRh
    exact Option.noConfusion hRh
  have hlun1 : mapLookup s n1.cid = some n1 := mem_lookup_self s hnodup n1 hn1mem
  rcases hper n1.cid hmemheads with ⟨e, he, hehcid⟩ | ⟨hnd, P, tnd, d, hHR, hone⟩
  · obtain ⟨hHRe, hge2e⟩ := hAinv2.1 e he
    obtain ⟨hle, hthe, hPle, hPhe, hPlaste, hPte, hPnd, _, _, _, hlen2e, _⟩ := hHRe
    have hehnd : e.hnd = n1 := by
      rw [hehcid] at hle
      rw [hle] at hlun1
      injection hlun1 with hh
    have hPene : e.chain ≠ [] := by
      intro hh
      rw [hh] at hPhe
      exact Option.noConfusion hPhe
    have htbP : ∀ tp, e.chain.getLast? = some tp → tailBoundB s tp = true := by
      intro tp htp
      rw [hPlaste] at htp
      injection htp with hh
      rw [← hh]
      exact hPte
    have hchR : e.chain = R := by
      apply chain_unique hnodup hPle hRl ?_ hPene hRne htbP htbR
      rw [hPhe, hRh, hehnd]
    have hetnd : e.tnd = nk := by
      rw [hchR, hRlast] at hPlaste
      injection hPlaste with hh
      exact hh.symm
    have hge2R : 2 ≤ R.length := by
      rw [← hchR]
      exact hge2e
    have hdist : e.dist = R.length := by
      rw [(hlen2e hge2e).1, hchR]
    constructor
    · intro _ z hz
      have hzs : z ∈ s := (linked_mem hRl z hz).1
      have hF2z := hAinv2.2.2 e he z (by rw [hchR]; exact hz)
      rw [hfin, mapLookup_skelPres s F2 hF2, mem_lookup_self s hnodup z hzs,
        Option.map_some', hF2z, hehcid, hetnd, hdist]
      rfl
    · intro hlen1
      rw [hlen1] at hge2R
      exact absurd hge2R (by omega)
  · obtain ⟨hlk, hthk, hPlk, hPhk, hPlastk, hPtk, _⟩ := hHR
    have hhndn1 : hnd = n1 := by
      rw [hlk] at hlun1
      injection hlun1 with hh
    have hPne : P ≠ [] := by
      intro hh
      rw [hh] at hPhk
      exact Option.noConfusion hPhk
    have htbP : ∀ tp, P.getLast? = some tp → tailBoundB s tp = true := by
      intro tp htp
      obtain ⟨tnd2, hPlast2, hPt2⟩ : ∃ tnd2, P.getLast? = some tnd2 ∧
          tailBoundB s tnd2 = true := ⟨tnd, hPlastk, hPtk⟩
      rw [hPlast2] at htp
      injection htp with hh
      rw [← hh]
      exact hPt2
    have hPR : P = R := by
      apply chain_unique hnodup hPlk hRl ?_ hPne hRne htbP htbR
      rw [hPhk, hRh, hhndn1]
    have hR1 : R.length = 1 := by
      rw [← hPR]
      exact hone
    constructor
    · intro hge2
      rw [hR1] at hge2
      exact absurd hge2 (by omega)
    · intro _ z hz
      have hzn1 : z = n1 := by
        cases R with
        | nil => exact absurd hz (List.not_mem_nil z)
        | cons r0 R2 =>
          cases R2 with
          | nil =>
            have hr0 : r0 = n1 := by simpa using hRh
            rcases List.mem_singleton.mp hz with hzr
            rw [hzr, hr0]
          | cons r1 R3 => simp [List.length_cons] at hR1
      have hF2n1 : F2 n1 = n1 := by
        apply hAinv2.2.1 n1 hn1mem
        intro e2 he2 hin
        obtain ⟨hHRe2, hge2e2⟩ := hAinv2.1 e2 he2
        obtain ⟨hle2, hthe2, hPle2, hPhe2, hPlaste2, hPte2, _⟩ := hHRe2
        have hn1e2 : n1 = e2.hnd := by
          cases hc : e2.chain with
          | nil => rw [hc] at hin; exact absurd hin (List.not_mem_nil n1)
          | cons q0 Q2 =>
            rw [hc] at hPle2 hin hPhe2
            have hq0 : q0 = e2.hnd := by simpa using hPhe2
            rw [← hq0]
            exact trueHead_mem_chain hnodup hPle2 hth1 hin
        have hPe2ne : e2.chain ≠ [] := by
          intro hh
          rw [hh] at hPhe2
          exact Option.noConfusion hPhe2
        have htbP2 : ∀ tp, e2.chain.getLast? = some tp → tailBoundB s tp = true := by
          intro tp htp
          rw [hPlaste2] at htp
          injection htp with hh
          rw [← hh]
          exact hPte2
        have hchR2 : e2.chain = R := by
          apply chain_unique hnodup hPle2 hRl ?_ hPe2ne hRne htbP2 htbR
          rw [hPhe2, hRh, ← hn1e2]
        rw [hchR2, hR1] at hge2e2
        exact absurd hge2e2 (by omega)
      have hzs : z ∈ s := (linked_mem hRl z hz).1
      rw [hfin, mapLookup_skelPres s F2 hF2, mem_lookup_self s hnodup z hzs,
        Option.map_some', hzn1, hF2n1]

/-- Maximal four-node simple chain a←b←c←d with the non-simple boundary
child e (post-derivation adjacency, indices correct, chain fields
unset). -/
def c2a : Node :=
  { cid := "a", parents := [], branches := [], tags := [], children := ["b"],
    choose := true, chainHead := none, chainTail := none, chainSize := -1,
    idx := 0, dts := ⟨2021, 5, 1, 0, 0, 0⟩, extra := [] }

/-- Second node of the chain of Scenario 2. -/
def c2b : Node :=
  { cid := "b", parents := ["a"], branches := [], tags := [], children := ["c"],
    choose := true, chainHead := none, chainTail := none, chainSize := -1,
    idx := 1, dts := ⟨2021, 5, 2, 0, 0, 0⟩, extra := [] }

/-- Third node of the chain of Scenario 2. -/
def c2c : Node :=
  { cid := "c", parents := ["b"], branches := [], tags := [], children := ["d"],
    choose := true, chainHead := none, chainTail := none, chainSize := -1,
    idx := 2, dts := ⟨2021, 5, 3, 0, 0, 0⟩, extra := [] }

/-- Fourth node of the chain of Scenario 2 (the chain tail). -/
def c2d : Node :=
  { cid := "d", parents := ["c"], branches := [], tags := [], children := ["e"],
    choose := true, chainHead := none, chainTail := none, chainSize := -1,
    idx := 3, dts := ⟨2021, 5, 4, 0, 0, 0⟩, extra := [] }

/-- The non-simple boundary child below the chain (it carries a branch
ref, so it is not squashable). -/
def c2e : Node :=
  { cid := "e", parents := ["d"], branches := ["x"], tags := [], children := [],
    choose := true, chainHead := none, chainTail := none, chainSize := -1,
    idx := 4, dts := ⟨2021, 5, 5, 0, 0, 0⟩, extra := [] }

/-- The Scenario 2 store. -/
def sC2 : Store := [c2a, c2b, c2c, c2d, c2e]

/-- The store Node.squash produces on sC2: every chain member stamped
with head a, tail d and chain-size 4. -/
def sC2s : Store :=
  [stampNode c2a "a" "d" 4, stampNode c2b "a" "d" 4,
   stampNode c2c "a" "d" 4, stampNode c2d "a" "d" 4, c2e]

/-- Counterexample to C2 as stated: on the four-node chain of Scenario 2
the code stamps chain-size 4 on all four members, not k−1 = 3: the
distance loop spends its first iteration re-assigning clast to the head,
so it counts the member count k. -/
theorem C2_counterexample :
    (squash 20 sC2).map
      (List.map (fun nd => (nd.cid, nd.chainHead, nd.chainTail, nd.chainSize))) =
      some [("a", some "a", some "d", 4), ("b", some "a", some "d", 4),
        ("c", some "a", some "d", 4), ("d", some "a", some "d", 4),
        ("e", none, none, -1)] ∧
    ((4 : Int) ≠ 4 - 1) := by
  exact ⟨by decide, by decide⟩

/-- Witness for C2 on the Scenario 2 chain: the amended size k = 4 is
stamped on every member. -/
theorem C2_witness :
    (2 ≤ ([c2a, c2b, c2c, c2d] : List Node).length →
      ∀ z ∈ ([c2a, c2b, c2c, c2d] : List Node), mapLookup sC2s z.cid =
        some { z with
          chainHead := some c2a.cid
          chainTail := some c2d.cid
          chainSize := Int.ofNat ([c2a, c2b, c2c, c2d] : List Node).length }) ∧
    (([c2a, c2b, c2c, c2d] : List Node).length = 1 →
      ∀ z ∈ ([c2a, c2b, c2c, c2d] : List Node), mapLookup sC2s z.cid = some z) :=
  C2_squash_chain_size sC2 sC2s 20 [c2a, c2b, c2c, c2d] c2a c2d
    (by decide)
    (by
      intro i nd h
      match i with
      | 0 => injection h with h2; rw [← h2]; rfl
      | 1 => injection h with h2; rw [← h2]; rfl
      | 2 => injection h with h2; rw [← h2]; rfl
      | 3 => injection h with h2; rw [← h2]; rfl
      | 4 => injection h with h2; rw [← h2]; rfl
      | n + 5 => exact Option.noConfusion h)
    (by decide)
    (by decide)
    ⟨by decide, by decide, by decide, by decide, by decide⟩
    (by decide)

theorem squashHeads_id {fuel : Nat} {st : Store} :
    ∀ l : List String, (∀ h ∈ l, squashHead st fuel h = some st) →
      squashHeads fuel l st = some st := by
  intro l
  induction l with
  | nil => intro _; rfl
  | cons h rest ih =>
    intro hid
    unfold squashHeads
    rw [hid h (List.mem_cons_self h rest)]
    exact ih (fun h2 hm => hid h2 (List.mem_cons_of_mem h hm))

/-- C6: on a coherent store with unset chain fields, the store a
completed Node.squash produces is a fixed point: running squash again
succeeds and returns the same store, because every stamped node answers
the walks from its cache with the values that were stamped, every
unstamped node repeats the identical skeleton walk, and re-stamping
writes the values already present. -/
theorem C6_squash_idempotent (s s1 : Store) (fuel : Nat)
    (hnodup : (s.map Node.cid).Nodup)
    (hidx : ∀ i nd, s.get? i = some nd → nd.idx = i)
    (hcoh : ∀ m ∈ s, ∀ n ∈ s, (n.cid ∈ m.children ↔ m.cid ∈ n.parents))
    (hunset : ∀ nd ∈ s, nd.chainHead = none ∧ nd.chainTail = none)
    (hrun : squash fuel s = some s1) :
    squash fuel s1 = some s1 := by
  obtain ⟨heads, A2, F2, hcol, hhnodup, hfin, hF2, hAinv2, hper⟩ :=
    squash_run hnodup hidx hcoh hunset fuel hrun
  subst hfin
  have hvals : ∀ nd ∈ s,
      find_chain_head (s.map F2) fuel (F2 nd) = find_chain_head s fuel nd := by
    intro nd hmem
    by_cases hsq : is_squashable nd = true
    · by_cases hin : ∃ e, e ∈ A2 ∧ nd ∈ e.chain
      · obtain ⟨e, he, hz⟩ := hin
        obtain ⟨hHRe, hge2e⟩ := hAinv2.1 e he
        obtain ⟨hle, hthe, hPle, hPhe, hPlaste, hPte, hPnde, htle, hdle, _⟩ := hHRe
        have hF2nd : F2 nd = stampNode nd e.hcid e.tnd.cid (Int.ofNat e.dist) :=
          hAinv2.2.2 e he nd hz
        have hLHS : find_chain_head (s.map F2) fuel (F2 nd) = some (some e.hcid) := by
          rw [hF2nd]
          unfold find_chain_head
          have hsqs : is_squashable
              (stampNode nd e.hcid e.tnd.cid (Int.ofNat e.dist)) = true := by
            rw [is_squashable_skel
              (show skel (stampNode nd e.hcid e.tnd.cid (Int.ofNat e.dist)) = skel nd
                from rfl)]
            exact hsq
          rw [hsqs, if_neg (fun hc => Bool.noConfusion hc)]
          rfl
        have hredux : find_chain_head s fuel nd = headLoop s fuel none (some nd) := by
          unfold find_chain_head
          rw [hsq, if_neg (fun hc => Bool.noConfusion hc), (hunset nd hmem).1]
        obtain ⟨r, hr⟩ := collectHeads_success s [] heads hcol nd hmem
        rw [hredux] at hr
        obtain ⟨pre, suf, hsplit⟩ := List.append_of_mem hz
        have hlpre : linkedB s (pre ++ [nd]) = true := by
          apply linked_append_left suf
          rw [List.append_assoc]
          rw [hsplit] at hPle
          exact hPle
        have hheadpre : (pre ++ [nd]).head? = some e.hnd := by
          have hhp : (pre ++ [nd]).head? = e.chain.head? := by
            rw [hsplit]
            cases pre <;> rfl
          rw [hhp, hPhe]
        have hru := upWalk hnodup pre nd e.hnd hlpre hheadpre hthe.2.2 hr
        rw [hLHS, hredux, hr, hru, (mapLookup_spec s e.hcid e.hnd hle).2]
      · have hnin : ∀ e ∈ A2, nd ∉ e.chain := by
          intro e he hz
          exact hin ⟨e, he, hz⟩
        have hF2nd : F2 nd = nd := hAinv2.2.1 nd hmem hnin
        unfold find_chain_head
        rw [hF2nd, hsq, if_neg (fun hc => Bool.noConfusion hc),
          (hunset nd hmem).1]
        have hinv := headLoop_inv s F2 hF2 fuel none (some nd)
        rw [Option.map_some', hF2nd] at hinv
        exact hinv
    · have hsqf : is_squashable nd = false := by
        cases hq : is_squashable nd
        · rfl
        · exact absurd hq hsq
      unfold find_chain_head
      rw [is_squashable_skel (hF2 nd), hsqf, if_pos rfl, if_pos rfl]
  have hcol2 : collectHeads (s.map F2) fuel (s.map F2) [] = some heads := by
    rw [collectHeads_congr F2 s [] hvals]
    exact hcol
  have hident : ∀ h ∈ heads, squashHead (s.map F2) fuel h = some (s.map F2) := by
    intro h hmem
    rcases hper h hmem with ⟨e, he, hehcid⟩ | ⟨hnd, P, tnd, d, hHR, hone⟩
    · obtain ⟨hHRe, hge2e⟩ := hAinv2.1 e he
      obtain ⟨hle, hthe, hPle, hPhe, hPlaste, hPte, hPnde, htle, hdle, hlen1e,
        hlen2e, F1, out1, hF1, hsl1⟩ := hHRe
      have hhndchain : e.hnd ∈ e.chain := head?_mem hPhe
      have hF2hnd : F2 e.hnd = stampNode e.hnd e.hcid e.tnd.cid (Int.ofNat e.dist) :=
        hAinv2.2.2 e he e.hnd hhndchain
      unfold squashHead
      rw [mapLookup_skelPres s F2 hF2, ← hehcid, hle, Option.map_some', hF2hnd]
      dsimp only
      have hftl : find_chain_tail (s.map F2) fuel
          (stampNode e.hnd e.hcid e.tnd.cid (Int.ofNat e.dist)) =
          some (some e.tnd.cid) := by
        unfold find_chain_tail
        have hsqs : is_squashable
            (stampNode e.hnd e.hcid e.tnd.cid (Int.ofNat e.dist)) = true := by
          rw [is_squashable_skel
            (show skel (stampNode e.hnd e.hcid e.tnd.cid (Int.ofNat e.dist)) =
              skel e.hnd from rfl)]
          exact hthe.2.1
        rw [hsqs, if_neg (fun hc => Bool.noConfusion hc)]
        rfl
      rw [hftl]
      dsimp only
      have hdl2 : distLoop (s.map F2) fuel
          (stampNode e.hnd e.hcid e.tnd.cid (Int.ofNat e.dist)).cid
          (stampNode e.hnd e.hcid e.tnd.cid (Int.ofNat e.dist)).cid
          e.tnd.cid 0 = some e.dist := by
        show distLoop (s.map F2) fuel e.hnd.cid e.hnd.cid e.tnd.cid 0 = some e.dist
        rw [distLoop_inv s F2 hF2]
        exact hdle
      rw [hdl2]
      dsimp only
      show stampLoop (s.map F2) fuel e.hnd.cid e.hnd.cid e.tnd.cid e.hcid
        (Int.ofNat e.dist) = some (s.map F2)
      cases hchain : e.chain with
      | nil => rw [hchain] at hPhe; exact Option.noConfusion hPhe
      | cons q0 Q =>
        have hq0 : q0 = e.hnd := by
          rw [hchain] at hPhe
          simpa using hPhe
        subst hq0
        rw [hchain] at hPle hPlaste hPnde
        have hclne : e.hnd.cid ≠ e.tnd.cid := by
          apply nodup_dropLast_ne_last hPnde hPlaste
          cases Q with
          | nil =>
            rw [hchain] at hge2e
            simp at hge2e
          | cons q1 Q2 => simp [List.dropLast]
        have hchild := (hlen2e hge2e).2
        have hstamped := stampLoop_chain hnodup hidx e.hcid (Int.ofNat e.dist) Q
          e.hnd e.tnd e.hnd.cid fuel hPle hPlaste hPnde hclne
          (nodup_dropLast_ne_last hPnde hPlaste) hchild
          ⟨F1, out1, hF1, hsl1⟩ F2 hF2
        rw [hstamped]
        congr 1
        apply List.map_congr_left
        intro m hm
        show stampF ((e.hnd :: Q).map Node.cid) e.hcid e.tnd.cid
          (Int.ofNat e.dist) (F2 m) = F2 m
        by_cases hmin : m.cid ∈ (e.hnd :: Q).map Node.cid
        · have hmchain : m ∈ e.chain := by
            rcases List.mem_map.mp hmin with ⟨w, hw, hwc⟩
            have hwm : w = m := by
              apply cid_inj s hnodup ?_ hm hwc
              exact (linked_mem hPle w hw).1
            rw [← hwm]
            rw [hchain]
            exact hw
          have hF2m : F2 m = stampNode m e.hcid e.tnd.cid (Int.ofNat e.dist) :=
            hAinv2.2.2 e he m hmchain
          rw [hF2m]
          simp [stampF, stampNode, hmin]
        · unfold stampF
          rw [if_neg ?_]
          rw [(skel_parts (hF2 m)).1]
          exact hmin
    · obtain ⟨hlk, hthk, hPlk, hPhk, hPlastk, hPtk, hPndk, htlk, hdlk, hlen1k, _⟩ := hHR
      have hhndmem : hnd ∈ s := (mapLookup_spec s h hnd hlk).1
      have htnd : tnd = hnd := (hlen1k hone).2
      have hPne : P ≠ [] := by
        intro hh
        rw [hh] at hPhk
        exact Option.noConfusion hPhk
      have htbP : ∀ tp, P.getLast? = some tp → tailBoundB s tp = true := by
        intro tp htp
        rw [hPlastk] at htp
        injection htp with hh
        rw [← hh]
        exact hPtk
      have hF2hnd : F2 hnd = hnd := by
        apply hAinv2.2.1 hnd hhndmem
        intro e2 he2 hin
        obtain ⟨hHRe2, hge2e2⟩ := hAinv2.1 e2 he2
        obtain ⟨hle2, hthe2, hPle2, hPhe2, hPlaste2, hPte2, _⟩ := hHRe2
        have hn1e2 : hnd = e2.hnd := by
          cases hc : e2.chain with
          | nil => rw [hc] at hin; exact absurd hin (List.not_mem_nil hnd)
          | cons w0 W2 =>
            rw [hc] at hPle2 hin hPhe2
            have hw0 : w0 = e2.hnd := by simpa using hPhe2
            rw [← hw0]
            exact trueHead_mem_chain hnodup hPle2 hthk hin
        have hPe2ne : e2.chain ≠ [] := by
          intro hh
          rw [hh] at hPhe2
          exact Option.noConfusion hPhe2
        have htbP2 : ∀ tp, e2.chain.getLast? = some tp → tailBoundB s tp = true := by
          intro tp htp
          rw [hPlaste2] at htp
          injection htp with hh
          rw [← hh]
          exact hPte2
        have hchP : e2.chain = P := by
          apply chain_unique hnodup hPle2 hPlk ?_ hPe2ne hPne htbP2 htbP
          rw [hPhe2, hPhk, ← hn1e2]
        rw [hchP, hone] at hge2e2
        exact absurd hge2e2 (by omega)
      unfold squashHead
      rw [mapLookup_skelPres s F2 hF2, hlk, Option.map_some', hF2hnd]
      dsimp only
      have hftl : find_chain_tail (s.map F2) fuel hnd = some (some hnd.cid) := by
        unfold find_chain_tail
        rw [hthk.2.1, if_neg (fun hc => Bool.noConfusion hc),
          (hunset hnd hhndmem).2]
        show tailLoop (s.map F2) fuel none (some hnd) = some (some hnd.cid)
        have hinv := tailLoop_inv s F2 hF2 fuel none (some hnd)
        rw [Option.map_some', hF2hnd] at hinv
        rw [hinv, htlk, htnd]
      rw [hftl]
      dsimp only
      have hdl2 : distLoop (s.map F2) fuel hnd.cid hnd.cid hnd.cid 0 = some d := by
        rw [distLoop_inv s F2 hF2]
        rw [htnd] at hdlk
        exact hdlk
      rw [hdl2]
      dsimp only
      have hfpos : ∃ f2, fuel = f2 + 1 := by
        cases fuel with
        | zero => exact Option.noConfusion htlk
        | succ f2 => exact ⟨f2, rfl⟩
      obtain ⟨f2, hff⟩ := hfpos
      rw [hff, stampLoop_succ, if_pos rfl]
  rw [squash_eq, hcol2]
  exact squashHeads_id heads hident

/-- Node K of the incoherence counterexample store: child list [T]. -/
def c6K : Node :=
  { cid := "K", parents := [], branches := [], tags := [], children := ["T"],
    choose := true, chainHead := none, chainTail := none, chainSize := -1,
    idx := 0, dts := ⟨2021, 6, 1, 0, 0, 0⟩, extra := [] }

/-- Node L: lists K as its child although K does not list L as a parent
(an adjacency not produced by the derivation pass). -/
def c6L : Node :=
  { cid := "L", parents := [], branches := [], tags := [], children := ["K"],
    choose := true, chainHead := none, chainTail := none, chainSize := -1,
    idx := 1, dts := ⟨2021, 6, 2, 0, 0, 0⟩, extra := [] }

/-- Node T: child of K with the non-simple child z below it. -/
def c6T : Node :=
  { cid := "T", parents := ["K"], branches := [], tags := [], children := ["z"],
    choose := true, chainHead := none, chainTail := none, chainSize := -1,
    idx := 2, dts := ⟨2021, 6, 3, 0, 0, 0⟩, extra := [] }

/-- Node u: a second child of K (not in K's child list). -/
def c6u : Node :=
  { cid := "u", parents := ["K"], branches := [], tags := [], children := [],
    choose := true, chainHead := none, chainTail := none, chainSize := -1,
    idx := 3, dts := ⟨2021, 6, 4, 0, 0, 0⟩, extra := [] }

/-- Node z: non-squashable boundary (carries a branch ref). -/
def c6z : Node :=
  { cid := "z", parents := ["T"], branches := ["b"], tags := [], children := [],
    choose := true, chainHead := none, chainTail := none, chainSize := -1,
    idx := 4, dts := ⟨2021, 6, 5, 0, 0, 0⟩, extra := [] }

/-- A store with an adjacency link (L lists child K) that the children
derivation pass cannot produce, so the chains overlap. -/
def sC6 : Store := [c6K, c6L, c6T, c6u, c6z]

/-- Counterexample to C6 as stated (for arbitrary terminating states):
on sC6 the first run stamps K with head L, but the second run answers
K's walk from K's own cache and restamps K with head K and size 2, so
two consecutive runs do not produce identical stamps.  The claim only
holds for stores whose adjacency comes from the derivation pass (see
the amended fixed-point theorem). -/
theorem C6_counterexample :
    (squash 10 sC6).map
      (List.map (fun nd => (nd.cid, nd.chainHead, nd.chainTail, nd.chainSize))) =
      some [("K", some "L", some "T", 3), ("L", some "L", some "T", 3),
        ("T", some "L", some "T", 3), ("u", none, none, -1),
        ("z", none, none, -1)] ∧
    ((squash 10 sC6).bind (squash 10)).map
      (List.map (fun nd => (nd.cid, nd.chainHead, nd.chainTail, nd.chainSize))) =
      some [("K", some "K", some "T", 2), ("L", some "L", some "T", 3),
        ("T", some "K", some "T", 2), ("u", none, none, -1),
        ("z", none, none, -1)] ∧
    ((some "L", some "T", (3 : Int)) ≠ (some "K", some "T", (2 : Int))) := by
  exact ⟨by decide, by decide, by decide⟩

/-- Witness for C6 on the coherent Scenario 2 store: squash maps sC2 to
sC2s, and a second run maps sC2s to itself. -/
theorem C6_witness : squash 20 sC2s = some sC2s :=
  C6_squash_idempotent sC2 sC2s 20
    (by decide)
    (by
      intro i nd h
      match i with
      | 0 => injection h with h2; rw [← h2]; rfl
      | 1 => injection h with h2; rw [← h2]; rfl
      | 2 => injection h with h2; rw [← h2]; rfl
      | 3 => injection h with h2; rw [← h2]; rfl
      | 4 => injection h with h2; rw [← h2]; rfl
      | n + 5 => exact Option.noConfusion h)
    (by decide)
    (by decide)
    (by decide)
